import Mathlib

/-!
# The command codec of `store/command.go`

A shallow embedding of `command.MarshalJSON`, `command.UnmarshalJSON`,
`newCommand`, `newMetadataSetCommand` and the two `rawMessage` methods,
together with the part of Go's `encoding/json` these functions call.

Modelling conventions.

* A Go byte string or string is a `Str`, a list of Unicode scalar values:
  the text that the bytes spell in UTF-8.  Ill-formed UTF-8 is outside the
  model.
* A Go pointer is an `Option` (`none` is the nil pointer); a Go slice or
  map is an `Option` of its contents (`none` is the nil slice or nil map).
* A Go `map[string]string` that is not nil is the list of its entries in
  strictly increasing key order, so that two maps are deeply equal exactly
  when their lists are equal.
* `uint64` is a `Nat` and `int`, `int64`, `time.Duration` are an `Int`;
  the decoder checks the 64-bit ranges explicitly (`int` is 64 bits wide).
* A Go call ends in one of three ways: it returns a value with a nil error,
  it returns an error, or it panics.
* A method with a pointer receiver takes the receiver's state as an
  argument and returns the state it leaves behind.
* Of an error only its kind is kept, not its message or offset.
* The codec itself works on values; `rawMessage.UnmarshalJSON` is also given
  on memory, with slices as windows into backing arrays, to state what it
  does when its argument shares bytes with its receiver.
-/

namespace Store

/-- Text: a Go string, or the contents of a Go byte slice. -/
abbrev Str := List Char

/-! ## JSON documents as `encoding/json` scans them -/

/-- A JSON value.  A number keeps its literal, as the decoder converts the
literal itself with `strconv`. -/
inductive Json where
  | null
  | bool (b : Bool)
  | num (lit : Str)
  | str (s : Str)
  | arr (es : List Json)
  | obj (ms : List (Str × Json))

/-- The scanner's `maxNestingDepth`. -/
def maxNestingDepth : Nat := 10000

/-- The scanner's `isSpace`. -/
def isSpace (c : Char) : Bool := c = ' ' || c = '\t' || c = '\r' || c = '\n'

/-- Skips leading JSON white space. -/
def skipSpace : Str → Str
  | [] => []
  | c :: cs => if isSpace c then skipSpace cs else c :: cs

/-- Decimal digit test. -/
def isDigit (c : Char) : Bool := decide ('0'.toNat ≤ c.toNat) && decide (c.toNat ≤ '9'.toNat)

/-- The longest run of decimal digits at the front, and what follows it. -/
def spanDigits : Str → Str × Str
  | [] => ([], [])
  | c :: cs => if isDigit c then ((spanDigits cs).1.cons c, (spanDigits cs).2) else ([], c :: cs)

/-- Value of one hexadecimal digit, as `getu4` reads it. -/
def hexVal (c : Char) : Option Nat :=
  if '0'.toNat ≤ c.toNat ∧ c.toNat ≤ '9'.toNat then some (c.toNat - '0'.toNat)
  else if 'a'.toNat ≤ c.toNat ∧ c.toNat ≤ 'f'.toNat then some (c.toNat - 'a'.toNat + 10)
  else if 'A'.toNat ≤ c.toNat ∧ c.toNat ≤ 'F'.toNat then some (c.toNat - 'A'.toNat + 10)
  else none

/-- Value of four hexadecimal digits. -/
def hex4 (a b c d : Char) : Option Nat :=
  match hexVal a, hexVal b, hexVal c, hexVal d with
  | some x, some y, some z, some w => some (x * 4096 + y * 256 + z * 16 + w)
  | _, _, _, _ => none

/-- The decoder's `getu4`: the code unit of a leading `\uXXXX`, if there is one. -/
def getu4 : Str → Option Nat
  | b :: u :: a1 :: a2 :: a3 :: a4 :: _ =>
    if b = '\\' ∧ u = 'u' then hex4 a1 a2 a3 a4 else none
  | _ => none

/-- The replacement character U+FFFD. -/
def replacementChar : Char := Char.ofNat 0xFFFD

/-- The character of a single-letter escape. -/
def simpleEscape (c : Char) : Option Char :=
  if c = '"' then some '"'
  else if c = '\\' then some '\\'
  else if c = '/' then some '/'
  else if c = 'b' then some (Char.ofNat 8)
  else if c = 'f' then some (Char.ofNat 12)
  else if c = 'n' then some '\n'
  else if c = 'r' then some '\r'
  else if c = 't' then some '\t'
  else none

/-- Scans and unquotes the body of a string literal, the opening quote
already consumed: returns the string and the text after the closing quote.
Control characters and unknown escapes are syntax errors; a `\u` escape that
is half of a surrogate pair joins a following low half, and a lone half
becomes U+FFFD. -/
def parseStrBody : Nat → Str → Option (Str × Str)
  | 0, _ => none
  | _ + 1, [] => none
  | f + 1, c :: rest =>
    if c = '"' then some ([], rest)
    else if c = '\\' then
      match rest with
      | [] => none
      | e :: rest1 =>
        if e = 'u' then
          match rest1 with
          | a1 :: a2 :: a3 :: a4 :: rest2 =>
            match hex4 a1 a2 a3 a4 with
            | none => none
            | some rr =>
              if 0xD800 ≤ rr ∧ rr < 0xE000 then
                match getu4 rest2 with
                | some rr1 =>
                  if rr < 0xDC00 ∧ 0xDC00 ≤ rr1 ∧ rr1 < 0xE000 then
                    (parseStrBody f (rest2.drop 6)).map fun r =>
                      (Char.ofNat (0x10000 + (rr - 0xD800) * 0x400 + (rr1 - 0xDC00)) :: r.1, r.2)
                  else (parseStrBody f rest2).map fun r => (replacementChar :: r.1, r.2)
                | none => (parseStrBody f rest2).map fun r => (replacementChar :: r.1, r.2)
              else (parseStrBody f rest2).map fun r => (Char.ofNat rr :: r.1, r.2)
          | _ => none
        else
          match simpleEscape e with
          | none => none
          | some x => (parseStrBody f rest1).map fun r => (x :: r.1, r.2)
    else if c.toNat < 0x20 then none
    else (parseStrBody f rest).map fun r => (c :: r.1, r.2)

/-- The integer part of a number literal: a single `0`, or a non-zero digit
and the digits after it. -/
def scanInt : Str → Option (Str × Str)
  | [] => none
  | c :: t =>
    if c = '0' then some (['0'], t)
    else if isDigit c then some (c :: (spanDigits t).1, (spanDigits t).2)
    else none

/-- The optional fraction of a number literal. -/
def scanFrac : Str → Option (Str × Str)
  | [] => some ([], [])
  | c :: u =>
    if c = '.' then
      if (spanDigits u).1 = [] then none else some ('.' :: (spanDigits u).1, (spanDigits u).2)
    else some ([], c :: u)

/-- The optional sign of an exponent. -/
def scanSign : Str → Str × Str
  | [] => ([], [])
  | c :: v => if c = '+' ∨ c = '-' then ([c], v) else ([], c :: v)

/-- The optional exponent of a number literal. -/
def scanExp : Str → Option (Str × Str)
  | [] => some ([], [])
  | e :: u =>
    if e = 'e' ∨ e = 'E' then
      if (spanDigits (scanSign u).2).1 = [] then none
      else some (e :: (scanSign u).1 ++ (spanDigits (scanSign u).2).1, (spanDigits (scanSign u).2).2)
    else some ([], e :: u)

/-- The optional minus sign of a number literal. -/
def scanMinus : Str → Str × Str
  | [] => ([], [])
  | c :: t => if c = '-' then (['-'], t) else ([], c :: t)

/-- Scans a number literal: an optional minus sign, an integer part without
a superfluous leading zero, an optional fraction, an optional exponent.
Returns the literal and the text after it. -/
def parseNumber (s : Str) : Option (Str × Str) :=
  match scanInt (scanMinus s).2 with
  | none => none
  | some (ip, s1) =>
    match scanFrac s1 with
    | none => none
    | some (fr, s2) =>
      match scanExp s2 with
      | none => none
      | some (ex, s3) => some ((scanMinus s).1 ++ ip ++ fr ++ ex, s3)

/-- Strips a fixed word from the front of the text. -/
def stripWord : Str → Str → Option Str
  | [], s => some s
  | _ :: _, [] => none
  | w :: ws, c :: cs => if w = c then stripWord ws cs else none

/-- Scans the elements of an array after the first one has been found to
exist: `pv` scans one value. -/
def parseElems (pv : Str → Option (Json × Str)) : Nat → Str → Option (List Json × Str)
  | 0, _ => none
  | f + 1, s =>
    match pv s with
    | none => none
    | some (v, s1) =>
      match skipSpace s1 with
      | c :: s2 =>
        if c = ',' then (parseElems pv f (skipSpace s2)).map fun r => (v :: r.1, r.2)
        else if c = ']' then some ([v], s2)
        else none
      | [] => none

/-- Scans the members of an object after the first one has been found to
exist: `pv` scans one value (and says what to keep of it). -/
def parseMembers {α : Type} (pv : Str → Option (α × Str)) : Nat → Str → Option (List (Str × α) × Str)
  | 0, _ => none
  | f + 1, s =>
    match s with
    | q :: s0 =>
      if q = '"' then
        match parseStrBody s0.length.succ s0 with
        | none => none
        | some (k, s1) =>
          match skipSpace s1 with
          | col :: s2 =>
            if col = ':' then
              match pv (skipSpace s2) with
              | none => none
              | some (v, s3) =>
                match skipSpace s3 with
                | c :: s4 =>
                  if c = ',' then
                    (parseMembers pv f (skipSpace s4)).map fun r => ((k, v) :: r.1, r.2)
                  else if c = '}' then some ([(k, v)], s4)
                  else none
                | [] => none
            else none
          | [] => none
      else none
    | [] => none

/-- Scans one JSON value at nesting depth `d` from the front of the text
(which must not start with white space) and returns it with the text that
follows.  `none` is a syntax error.  The first argument bounds the number of
nested calls; the length of the text plus one is always enough. -/
def parseValue : Nat → Nat → Str → Option (Json × Str)
  | 0, _, _ => none
  | _ + 1, _, [] => none
  | f + 1, d, c :: s =>
    if c = '{' then
      if maxNestingDepth ≤ d then none
      else
        match skipSpace s with
        | c1 :: s1 =>
          if c1 = '}' then some (Json.obj [], s1)
          else (parseMembers (parseValue f (d + 1)) f (c1 :: s1)).map fun r => (Json.obj r.1, r.2)
        | [] => none
    else if c = '[' then
      if maxNestingDepth ≤ d then none
      else
        match skipSpace s with
        | c1 :: s1 =>
          if c1 = ']' then some (Json.arr [], s1)
          else (parseElems (parseValue f (d + 1)) f (c1 :: s1)).map fun r => (Json.arr r.1, r.2)
        | [] => none
    else if c = '"' then (parseStrBody s.length.succ s).map fun r => (Json.str r.1, r.2)
    else if c = 't' then (stripWord ['r', 'u', 'e'] s).map fun r => (Json.bool true, r)
    else if c = 'f' then (stripWord ['a', 'l', 's', 'e'] s).map fun r => (Json.bool false, r)
    else if c = 'n' then (stripWord ['u', 'l', 'l'] s).map fun r => (Json.null, r)
    else (parseNumber (c :: s)).map fun r => (Json.num r.1, r.2)

/-- The whole text as one JSON document, white space allowed around it:
what `checkValid` accepts. -/
def parseDoc (b : Str) : Option Json :=
  match parseValue b.length.succ 0 (skipSpace b) with
  | some (v, rest) => if skipSpace rest = [] then some v else none
  | none => none

/-! ## Go values of `store/command.go` -/

/-- The type `commandType`, a Go `int`. -/
abbrev commandType := Int

/-- Commands which modify the database. -/
def execute : commandType := 0
/-- Commands which query the database. -/
def query : commandType := 1
/-- Commands which set Store metadata. -/
def metadataSet : commandType := 2
/-- Commands which delete Store metadata. -/
def metadataDelete : commandType := 3
/-- Commands which create a database connection. -/
def connect : commandType := 4
/-- Commands which disconnect from the database. -/
def disconnect : commandType := 5

/-- The struct `databaseSub`.  `Queries` is a pointer to a slice. -/
structure databaseSub where
  ConnID : Nat
  Atomic : Bool
  Queries : Option (Option (List Str))
  Timings : Bool
  deriving DecidableEq, Repr

/-- The struct `metadataSetSub`. -/
structure metadataSetSub where
  RaftID : Str
  Data : Option (List (Str × Str))
  deriving DecidableEq, Repr

/-- The struct `connectionSub`; a `time.Duration` is an `int64`. -/
structure connectionSub where
  ConnID : Nat
  IdleTimeout : Int
  TxTimeout : Int
  deriving DecidableEq, Repr

/-- What the field `Sub interface {}` can hold: the nil interface value, a
pointer of one of the four types the codec knows (the pointer itself may be
nil), or a value of any other Go type, of which only the type's name is
kept. -/
inductive Payload where
  | nilValue
  | databasePtr (p : Option databaseSub)
  | metadataSetPtr (p : Option metadataSetSub)
  | stringPtr (p : Option Str)
  | connectionPtr (p : Option connectionSub)
  | other (goType : String)
  deriving DecidableEq, Repr

/-- The struct `command`. -/
structure command where
  Typ : commandType
  Sub : Payload
  deriving DecidableEq, Repr

/-- The type `rawMessage`, a byte slice. -/
abbrev rawMessage := Option Str

/-- The errors the codec can return. -/
inductive Err where
  /-- A `*json.SyntaxError`: the text is not a JSON document. -/
  | malformed
  /-- A `*json.UnmarshalTypeError`: a JSON value of kind `value` met a Go
  target of type `goType`. -/
  | unmarshalType (value : String) (goType : String)
  /-- The error made by `errors.New("UnmarshalJSON: unknown type")`. -/
  | unknownType
  /-- The error made by `errors.New("json.RawMessage: UnmarshalJSON on nil pointer")`. -/
  | nilRawMessage
  deriving DecidableEq, Repr

/-- How a call of `command.MarshalJSON` ends. -/
inductive Encoded where
  | bytes (b : Str)
  | error (e : Err)
  | panic
  deriving DecidableEq, Repr

/-- How a call of `command.UnmarshalJSON` ends, with the receiver as the
call leaves it. -/
inductive Decoded where
  | done (c : command)
  | error (e : Err) (c : command)
  | panic
  deriving DecidableEq, Repr

/-! ## The `rawMessage` methods -/

/-- The Go expression `append(m[0:0], data...)`: a nil slice with nothing
appended stays nil. -/
def appendReset (m : rawMessage) (data : Str) : rawMessage :=
  match m with
  | none => if data = [] then none else some data
  | some _ => some data

/-- The method `rawMessage.MarshalJSON`. -/
def rawMessage.MarshalJSON (m : rawMessage) : Str × Option Err :=
  match m with
  | none => (['n', 'u', 'l', 'l'], none)
  | some b => (b, none)

/-- The method `(*rawMessage).UnmarshalJSON`: `m` is the receiver pointer;
the result is the pointer's target after the call, and the error. -/
def rawMessage.UnmarshalJSON (m : Option rawMessage) (data : Str) : Option rawMessage × Option Err :=
  match m with
  | none => (none, some Err.nilRawMessage)
  | some r => (some (appendReset r data), none)

/-! ## The same method on memory, where slices can share bytes -/

/-- Go memory as far as byte slices use it: the backing arrays, by index. -/
abbrev Heap := List Str

/-- The header of a byte slice that is not nil: the window of `len` bytes
at offset `off` of the backing array `arr`, with room for `cap` bytes. -/
structure SliceHeader where
  arr : Nat
  off : Nat
  len : Nat
  cap : Nat
  deriving DecidableEq, Repr

/-- A byte slice: nil, or a window into a backing array. -/
abbrev ByteSlice := Option SliceHeader

/-- The bytes that a slice shows. -/
def Heap.bytes (h : Heap) (s : ByteSlice) : Str :=
  match s with
  | none => []
  | some x => ((h.getD x.arr []).drop x.off).take x.len

/-- The slice lies within a backing array of the memory. -/
def Heap.holds (h : Heap) (s : ByteSlice) : Prop :=
  match s with
  | none => True
  | some x => x.arr < h.length ∧ x.len ≤ x.cap ∧ x.off + x.cap ≤ (h.getD x.arr []).length

/-- Writes bytes into the backing array `a` from offset `off` on. -/
def Heap.store (h : Heap) (a off : Nat) (b : Str) : Heap :=
  h.set a ((h.getD a []).take off ++ b ++ (h.getD a []).drop (off + b.length))

/-- A new backing array that holds the bytes `b` and `spare` bytes of room. -/
def Heap.alloc (h : Heap) (b : Str) (spare : Nat) : Heap × ByteSlice :=
  (h ++ [b ++ List.replicate spare (Char.ofNat 0)],
    some { arr := h.length, off := 0, len := b.length, cap := b.length + spare })

/-- The Go expression `append(m[0:0], data...)` on memory: the bytes of
`data` are read and then written to the start of the window of `m` when its
capacity has room for them, and to a new backing array when it has not (the
runtime chooses how much room to spare); a nil slice with nothing appended
stays nil. -/
def Heap.appendReset (h : Heap) (m data : ByteSlice) (spare : Nat) : Heap × ByteSlice :=
  match m with
  | none => if h.bytes data = [] then (h, none) else h.alloc (h.bytes data) spare
  | some x =>
    if (h.bytes data).length ≤ x.cap then
      (h.store x.arr x.off (h.bytes data), some { x with len := (h.bytes data).length })
    else h.alloc (h.bytes data) spare

/-- The method `(*rawMessage).UnmarshalJSON` on memory: `m` is the receiver
pointer and `data` the argument slice; the result is the memory and the
pointer's target after the call, and the error. -/
def rawMessage.UnmarshalJSON.onHeap (h : Heap) (m : Option ByteSlice) (data : ByteSlice)
    (spare : Nat) : Heap × Option ByteSlice × Option Err :=
  match m with
  | none => (h, none, some Err.nilRawMessage)
  | some r => ((h.appendReset r data spare).1, some (h.appendReset r data spare).2, none)

/-! ## `json.Unmarshal` into the Go types of this file -/

/-- Case folding of one character of an object key: ASCII letters, and the
two characters that fold to `s` and `k`. -/
def foldChar (c : Char) : Char :=
  if 'A'.toNat ≤ c.toNat ∧ c.toNat ≤ 'Z'.toNat then Char.ofNat (c.toNat + 32)
  else if c.toNat = 0x17F then 's'
  else if c.toNat = 0x212A then 'k'
  else c

/-- Whether an object key selects the struct field with the JSON name
`name` (a lower-case name): exactly, or up to case folding. -/
def matchField (key name : Str) : Bool := key = name || key.map foldChar = name

/-- The decoder's `saveError`: the first error is kept. -/
def saveError (saved : Option Err) (e : Option Err) : Option Err :=
  match saved with
  | none => e
  | some x => some x

/-- The kind of a JSON value, as an `UnmarshalTypeError` names it. -/
def Json.kind : Json → String
  | .null => "null"
  | .bool _ => "bool"
  | .num _ => "number"
  | .str _ => "string"
  | .arr _ => "array"
  | .obj _ => "object"

/-- The value of a run of decimal digits. -/
def digitsValue (ds : Str) : Nat := ds.foldl (fun a c => a * 10 + (c.toNat - '0'.toNat)) 0

/-- The call `strconv.ParseUint(lit, 10, 64)`: digits only, below `2^64`. -/
def parseUint (lit : Str) : Option Nat :=
  if lit ≠ [] ∧ lit.all isDigit = true ∧ digitsValue lit < 2 ^ 64 then some (digitsValue lit) else none

/-- The call `strconv.ParseInt(lit, 10, 64)`: an optional sign and digits,
within the `int64` range. -/
def parseInt (lit : Str) : Option Int :=
  match lit with
  | [] => none
  | c :: t =>
    if c = '-' then
      if t ≠ [] ∧ t.all isDigit = true ∧ digitsValue t ≤ 2 ^ 63 then some (-(digitsValue t : Int)) else none
    else if c = '+' then
      if t ≠ [] ∧ t.all isDigit = true ∧ digitsValue t < 2 ^ 63 then some (digitsValue t : Int) else none
    else
      if (c :: t).all isDigit = true ∧ digitsValue (c :: t) < 2 ^ 63 then some (digitsValue (c :: t) : Int)
      else none

/-- Decoding into a `uint64`. -/
def decodeUint (j : Json) (old : Nat) : Nat × Option Err :=
  match j with
  | .null => (old, none)
  | .num lit =>
    match parseUint lit with
    | some n => (n, none)
    | none => (old, some (Err.unmarshalType "number" "uint64"))
  | v => (old, some (Err.unmarshalType v.kind "uint64"))

/-- Decoding into an `int` or `int64` (also `commandType`, `time.Duration`). -/
def decodeInt (j : Json) (old : Int) : Int × Option Err :=
  match j with
  | .null => (old, none)
  | .num lit =>
    match parseInt lit with
    | some n => (n, none)
    | none => (old, some (Err.unmarshalType "number" "int64"))
  | v => (old, some (Err.unmarshalType v.kind "int64"))

/-- Decoding into a `bool`. -/
def decodeBool (j : Json) (old : Bool) : Bool × Option Err :=
  match j with
  | .null => (old, none)
  | .bool b => (b, none)
  | v => (old, some (Err.unmarshalType v.kind "bool"))

/-- Decoding into a `string`. -/
def decodeString (j : Json) (old : Str) : Str × Option Err :=
  match j with
  | .null => (old, none)
  | .str s => (s, none)
  | v => (old, some (Err.unmarshalType v.kind "string"))

/-- Decoding the elements of an array into a `[]string`.  `old` is what the
slice's backing array holds from index 0 on: the slice's old elements,
followed by the strings that its spare capacity still carries.  Element `i`
is decoded into that string, which the decoder exposes again by `SetLen`,
or into an empty string where the array ends (memory that `Grow` adds is
zeroed). -/
def decodeStrings : List Json → List Str → List Str × Option Err
  | [], _ => ([], none)
  | e :: es, old =>
    let r := decodeString e (old.headD [])
    let rs := decodeStrings es old.tail
    (r.1 :: rs.1, saveError r.2 rs.2)

/-- Decoding into the field `Queries *[]string`.  `spare` is what the backing
array of the slice holds behind the slice's elements; it is empty when the
pointer or the slice is nil.  `null` makes the pointer nil; any other value
allocates the slice if the pointer is nil.  An array then fills the slice in
place, element by element, and truncates it: the strings of the old array
behind the new length stay in the spare capacity.  An empty array stores a
fresh empty slice.  The result is the pointer, the spare capacity and the
error. -/
def decodeQueries (j : Json) (old : Option (Option (List Str))) (spare : List Str) :
    (Option (Option (List Str)) × List Str) × Option Err :=
  match j with
  | .null => ((none, []), none)
  | .arr es =>
    let buf := (old.getD none).getD [] ++ spare
    let r := decodeStrings es buf
    if es.isEmpty then ((some (some []), []), none)
    else ((some (some r.1), buf.drop es.length), r.2)
  | v => ((some (old.getD none), spare), some (Err.unmarshalType v.kind "[]string"))

/-- The order of map keys: lexicographic by code point, which is the
byte order of the UTF-8 strings that the encoder sorts by. -/
def keyLess : Str → Str → Bool
  | [], [] => false
  | [], _ :: _ => true
  | _ :: _, [] => false
  | a :: as, b :: bs => decide (a.toNat < b.toNat) || (decide (a = b) && keyLess as bs)

/-- The representation invariant of a map: keys strictly increasing. -/
def keysIncreasing (m : List (Str × Str)) : Prop :=
  m.Pairwise fun a b => keyLess a.1 b.1 = true

/-- Sets a key of a map kept in increasing key order. -/
def mapInsert (k v : Str) : List (Str × Str) → List (Str × Str)
  | [] => [(k, v)]
  | (k1, v1) :: m =>
    if keyLess k k1 then (k, v) :: (k1, v1) :: m
    else if k = k1 then (k, v) :: m
    else (k1, v1) :: mapInsert k v m

/-- Decoding the members of an object into a `map[string]string`, in
document order: each value is decoded into a fresh empty string, which is
stored under the key even when the value does not fit. -/
def decodeEntries : List (Str × Json) → List (Str × Str) → List (Str × Str) × Option Err
  | [], m => (m, none)
  | (k, v) :: ms, m =>
    let r := decodeString v []
    let rs := decodeEntries ms (mapInsert k r.1 m)
    (rs.1, saveError r.2 rs.2)

/-- Decoding into the field `Data map[string]string`: `null` makes the map
nil; an object makes the map if it is nil and adds its members. -/
def decodeData (j : Json) (old : Option (List (Str × Str))) :
    Option (List (Str × Str)) × Option Err :=
  match j with
  | .null => (none, none)
  | .obj ms =>
    let r := decodeEntries ms (old.getD [])
    (some r.1, r.2)
  | v => (old, some (Err.unmarshalType v.kind "map[string]string"))

/-- Decoding one object member into a `databaseSub`.  The decoder's target
is the struct together with the spare capacity of the slice that `Queries`
points to (see `decodeQueries`). -/
def databaseSub.setField (p : databaseSub × List Str) (k : Str) (v : Json) :
    (databaseSub × List Str) × Option Err :=
  if matchField k "conn_id".toList then
    (({ p.1 with ConnID := (decodeUint v p.1.ConnID).1 }, p.2), (decodeUint v p.1.ConnID).2)
  else if matchField k "atomic".toList then
    (({ p.1 with Atomic := (decodeBool v p.1.Atomic).1 }, p.2), (decodeBool v p.1.Atomic).2)
  else if matchField k "queries".toList then
    (({ p.1 with Queries := (decodeQueries v p.1.Queries p.2).1.1 },
      (decodeQueries v p.1.Queries p.2).1.2), (decodeQueries v p.1.Queries p.2).2)
  else if matchField k "timings".toList then
    (({ p.1 with Timings := (decodeBool v p.1.Timings).1 }, p.2), (decodeBool v p.1.Timings).2)
  else (p, none)

/-- Decoding one object member into a `metadataSetSub`. -/
def metadataSetSub.setField (p : metadataSetSub) (k : Str) (v : Json) : metadataSetSub × Option Err :=
  if matchField k "raft_id".toList then
    ({ p with RaftID := (decodeString v p.RaftID).1 }, (decodeString v p.RaftID).2)
  else if matchField k "data".toList then
    ({ p with Data := (decodeData v p.Data).1 }, (decodeData v p.Data).2)
  else (p, none)

/-- Decoding one object member into a `connectionSub`. -/
def connectionSub.setField (p : connectionSub) (k : Str) (v : Json) : connectionSub × Option Err :=
  if matchField k "conn_id".toList then
    ({ p with ConnID := (decodeUint v p.ConnID).1 }, (decodeUint v p.ConnID).2)
  else if matchField k "idle_timeout".toList then
    ({ p with IdleTimeout := (decodeInt v p.IdleTimeout).1 }, (decodeInt v p.IdleTimeout).2)
  else if matchField k "tx_timeout".toList then
    ({ p with TxTimeout := (decodeInt v p.TxTimeout).1 }, (decodeInt v p.TxTimeout).2)
  else (p, none)

/-- Decoding the members of an object into a struct, in document order;
members that select no field are skipped. -/
def decodeFields {α : Type} (setField : α → Str → Json → α × Option Err) :
    List (Str × Json) → α → α × Option Err
  | [], p => (p, none)
  | (k, v) :: ms, p =>
    let r := setField p k v
    let rs := decodeFields setField ms r.1
    (rs.1, saveError r.2 rs.2)

/-- Decoding into a struct: an object fills fields, `null` changes nothing,
any other value is a type error. -/
def decodeStruct {α : Type} (goType : String) (setField : α → Str → Json → α × Option Err)
    (j : Json) (old : α) : α × Option Err :=
  match j with
  | .null => (old, none)
  | .obj ms => decodeFields setField ms old
  | v => (old, some (Err.unmarshalType v.kind goType))

/-- The call `json.Unmarshal(data, ptr)` for a pointer `ptr` that is not
nil: `old` is the pointer's target before the call and `dec` decodes a JSON
value into a target of its type.  The result is the target after the call,
and the error. -/
def jsonUnmarshal {α : Type} (dec : Json → α → α × Option Err) (data : Str) (old : α) :
    α × Option Err :=
  match parseDoc data with
  | none => (old, some Err.malformed)
  | some j => dec j old

/-! ## Phase 1 of the decoder: the envelope -/

/-- The anonymous struct that `command.UnmarshalJSON` decodes into first:
two pointers to the raw text of the members `typ` and `sub`. -/
structure partialUnmarshal where
  Typ : Option rawMessage
  Sub : Option rawMessage
  deriving DecidableEq, Repr

/-- Scans one value like `parseValue` and keeps its text instead of its
meaning: the slice of the input that the decoder hands to an `Unmarshaler`. -/
def skipValue (f d : Nat) (s : Str) : Option (Str × Str) :=
  (parseValue f d s).map fun r => (s.take (s.length - r.2.length), r.2)

/-- The top-level value of a document, as far as decoding into a struct of
raw members looks at it. -/
inductive Top where
  | null
  | object (ms : List (Str × Str))
  | other (kind : String)
  deriving DecidableEq, Repr

/-- Scans a whole document and, where it is an object, splits it into its
members with the raw text of each value.  `none` is a syntax error. -/
def scanTop (b : Str) : Option Top :=
  match skipSpace b with
  | [] => none
  | c :: s =>
    if c = '{' then
      match skipSpace s with
      | c1 :: s1 =>
        if c1 = '}' then (if skipSpace s1 = [] then some (Top.object []) else none)
        else
          match parseMembers (skipValue b.length 1) b.length (c1 :: s1) with
          | some (ms, rest) => if skipSpace rest = [] then some (Top.object ms) else none
          | none => none
      | [] => none
    else
      match parseValue b.length.succ 0 (c :: s) with
      | some (v, rest) =>
        if skipSpace rest = [] then
          some (match v with
            | Json.null => Top.null
            | w => Top.other w.kind)
        else none
      | none => none

/-- Decoding one member value into a field of type `*rawMessage`: `null`
makes the pointer nil; any other value allocates the `rawMessage` if the
pointer is nil and hands the value's text to its `UnmarshalJSON`. -/
def setRaw (p : Option rawMessage) (raw : Str) : Option rawMessage × Option Err :=
  if raw.head? = some 'n' then (none, none)
  else rawMessage.UnmarshalJSON (some (p.getD none)) raw

/-- Decoding one object member into the envelope struct. -/
def partialUnmarshal.setField (p : partialUnmarshal) (k raw : Str) : partialUnmarshal × Option Err :=
  if matchField k "typ".toList then ({ p with Typ := (setRaw p.Typ raw).1 }, (setRaw p.Typ raw).2)
  else if matchField k "sub".toList then ({ p with Sub := (setRaw p.Sub raw).1 }, (setRaw p.Sub raw).2)
  else (p, none)

/-- Decoding the members of the top-level object into the envelope struct,
in document order; an error from an `Unmarshaler` ends the decoding. -/
def decodeEnvelope : List (Str × Str) → partialUnmarshal → partialUnmarshal × Option Err
  | [], p => (p, none)
  | (k, raw) :: ms, p =>
    match partialUnmarshal.setField p k raw with
    | (p1, some e) => (p1, some e)
    | (p1, none) => decodeEnvelope ms p1

/-- The call `json.Unmarshal(b, &partialUnmarshal)`, where `partialUnmarshal`
points to `old`: the pointer after the call (`null` at the top level makes
it nil), and the error. -/
def unmarshalEnvelope (b : Str) (old : partialUnmarshal) : Option partialUnmarshal × Option Err :=
  match scanTop b with
  | none => (some old, some Err.malformed)
  | some Top.null => (none, none)
  | some (Top.other kind) => (some old, some (Err.unmarshalType kind "struct"))
  | some (Top.object ms) => (some (decodeEnvelope ms old).1, (decodeEnvelope ms old).2)

/-! ## The decoder -/

/-- The end of a `case` of the decoder's `switch`: the receiver holds the
tag and the new payload, and the error of the payload's decoding is
returned. -/
def finish (t : commandType) (sub : Payload) (err : Option Err) : Decoded :=
  match err with
  | none => Decoded.done { Typ := t, Sub := sub }
  | some e => Decoded.error e { Typ := t, Sub := sub }

/-- The method `command.UnmarshalJSON`, with receiver `c`.  Reading a field
of the envelope when the envelope pointer is nil, and reading `*Sub` when
`Sub` is nil, panic.  Each `case` decodes the payload into a fresh target
(`new(databaseSub)`, whose `Queries` is nil and has no capacity). -/
def command.UnmarshalJSON (c : command) (b : Str) : Decoded :=
  match unmarshalEnvelope b { Typ := none, Sub := none } with
  | (_, some e) => Decoded.error e c
  | (none, none) => Decoded.panic
  | (some pu, none) =>
    let r : commandType × Option Err :=
      match pu.Typ with
      | none => (execute, none)
      | some raw => jsonUnmarshal decodeInt (raw.getD []) c.Typ
    match r with
    | (t, some e) => Decoded.error e { c with Typ := t }
    | (t, none) =>
      if t = execute ∨ t = query then
        match pu.Sub with
        | none => Decoded.panic
        | some raw =>
          let d := jsonUnmarshal (decodeStruct "databaseSub" databaseSub.setField) (raw.getD [])
            ({ ConnID := 0, Atomic := false, Queries := none, Timings := false }, [])
          finish t (Payload.databasePtr (some d.1.1)) d.2
      else if t = metadataSet then
        match pu.Sub with
        | none => Decoded.panic
        | some raw =>
          let d := jsonUnmarshal (decodeStruct "metadataSetSub" metadataSetSub.setField) (raw.getD [])
            { RaftID := [], Data := none }
          finish t (Payload.metadataSetPtr (some d.1)) d.2
      else if t = metadataDelete then
        match pu.Sub with
        | none => Decoded.panic
        | some raw =>
          let d := jsonUnmarshal decodeString (raw.getD []) []
          finish t (Payload.stringPtr (some d.1)) d.2
      else if t = connect ∨ t = disconnect then
        match pu.Sub with
        | none => Decoded.panic
        | some raw =>
          let d := jsonUnmarshal (decodeStruct "connectionSub" connectionSub.setField) (raw.getD [])
            { ConnID := 0, IdleTimeout := 0, TxTimeout := 0 }
          finish t (Payload.connectionPtr (some d.1)) d.2
      else Decoded.error Err.unknownType { c with Typ := t }

/-! ## `json.Marshal` of the Go types of this file -/

/-- A decimal digit. -/
def decDigit : Nat → Char
  | 0 => '0' | 1 => '1' | 2 => '2' | 3 => '3' | 4 => '4'
  | 5 => '5' | 6 => '6' | 7 => '7' | 8 => '8' | _ => '9'

/-- A lower-case hexadecimal digit. -/
def hexDigit : Nat → Char
  | 0 => '0' | 1 => '1' | 2 => '2' | 3 => '3' | 4 => '4' | 5 => '5' | 6 => '6' | 7 => '7'
  | 8 => '8' | 9 => '9' | 10 => 'a' | 11 => 'b' | 12 => 'c' | 13 => 'd' | 14 => 'e' | _ => 'f'

/-- The decimal digits of a number, most significant first; the first
argument bounds the number of digits. -/
def natDigits : Nat → Nat → Str
  | 0, _ => []
  | f + 1, n => if n < 10 then [decDigit n] else natDigits f (n / 10) ++ [decDigit (n % 10)]

/-- The encoding of a `uint64`. -/
def encodeUint (n : Nat) : Str := natDigits (n + 1) n

/-- The encoding of an `int`, `int64` or `time.Duration`. -/
def encodeInt (i : Int) : Str :=
  if i < 0 then '-' :: encodeUint i.natAbs else encodeUint i.toNat

/-- The encoding of a `bool`. -/
def encodeBool (b : Bool) : Str := if b then "true".toList else "false".toList

/-- The encoder's escaping of one character of a string, HTML escaping on
(the default of `json.Marshal`): quote, backslash and control characters,
the characters `<`, `>`, `&`, and the line separators U+2028 and U+2029. -/
def escapeChar (c : Char) : Str :=
  if c = '"' then ['\\', '"']
  else if c = '\\' then ['\\', '\\']
  else if c.toNat = 8 then ['\\', 'b']
  else if c.toNat = 12 then ['\\', 'f']
  else if c = '\n' then ['\\', 'n']
  else if c = '\r' then ['\\', 'r']
  else if c = '\t' then ['\\', 't']
  else if c.toNat < 0x20 ∨ c = '<' ∨ c = '>' ∨ c = '&' then
    ['\\', 'u', '0', '0', hexDigit (c.toNat / 16), hexDigit (c.toNat % 16)]
  else if c.toNat = 0x2028 ∨ c.toNat = 0x2029 then
    ['\\', 'u', '2', '0', '2', hexDigit (c.toNat % 16)]
  else [c]

/-- The escaped body of a string literal. -/
def escapeStr : Str → Str
  | [] => []
  | c :: s => escapeChar c ++ escapeStr s

/-- The encoding of a `string`. -/
def encodeString (s : Str) : Str := '"' :: (escapeStr s ++ ['"'])

/-- Texts joined by commas. -/
def joinComma : List Str → Str
  | [] => []
  | [x] => x
  | x :: y :: r => x ++ ',' :: joinComma (y :: r)

/-- One struct field or map entry of an encoded object. -/
def member (name : Str) (value : Str) : Str := encodeString name ++ ':' :: value

/-- A struct field with the option `omitempty`: left out when `empty`. -/
def field (name : String) (empty : Bool) (value : Str) : Option Str :=
  if empty then none else some (member name.toList value)

/-- An encoded object, from the members that are not left out. -/
def encodeObject (fields : List (Option Str)) : Str :=
  '{' :: (joinComma fields.reduceOption ++ ['}'])

/-- The encoding of a `[]string`: a nil slice is `null`. -/
def encodeStrings (q : Option (List Str)) : Str :=
  match q with
  | none => "null".toList
  | some l => '[' :: (joinComma (l.map encodeString) ++ [']'])

/-- The encoding of a `map[string]string`, its keys in increasing order: a
nil map is `null`. -/
def encodeData (m : Option (List (Str × Str))) : Str :=
  match m with
  | none => "null".toList
  | some l => encodeObject (l.map fun kv => some (member kv.1 (encodeString kv.2)))

/-- The encoding of a `databaseSub`. -/
def encodeDatabaseSub (p : databaseSub) : Str :=
  encodeObject
    [field "conn_id" (p.ConnID = 0) (encodeUint p.ConnID),
     field "atomic" (!p.Atomic) (encodeBool p.Atomic),
     field "queries" p.Queries.isNone (encodeStrings (p.Queries.getD none)),
     field "timings" (!p.Timings) (encodeBool p.Timings)]

/-- The encoding of a `metadataSetSub`. -/
def encodeMetadataSetSub (p : metadataSetSub) : Str :=
  encodeObject
    [field "raft_id" (p.RaftID = []) (encodeString p.RaftID),
     field "data" ((p.Data.getD []) = []) (encodeData p.Data)]

/-- The encoding of a `connectionSub`. -/
def encodeConnectionSub (p : connectionSub) : Str :=
  encodeObject
    [field "conn_id" (p.ConnID = 0) (encodeUint p.ConnID),
     field "idle_timeout" (p.IdleTimeout = 0) (encodeInt p.IdleTimeout),
     field "tx_timeout" (p.TxTimeout = 0) (encodeInt p.TxTimeout)]

/-- The call `json.Marshal` of the anonymous struct that `MarshalJSON`
builds: the tag, and the payload pointer unless it is nil. -/
def encodeEnvelope {α : Type} (enc : α → Str) (t : commandType) (sub : Option α) : Str :=
  encodeObject
    [field "typ" false (encodeInt t),
     field "sub" sub.isNone (match sub with
       | none => "null".toList
       | some p => enc p)]

/-! ## The encoder and the constructors -/

/-- The method `command.MarshalJSON`.  The type assertion of each `case` is
of the form `c.Sub.(*T)`, which panics when the value in `c.Sub` is not a
`*T`. -/
def command.MarshalJSON (c : command) : Encoded :=
  if c.Typ = execute ∨ c.Typ = query then
    match c.Sub with
    | Payload.databasePtr p => Encoded.bytes (encodeEnvelope encodeDatabaseSub c.Typ p)
    | _ => Encoded.panic
  else if c.Typ = metadataSet then
    match c.Sub with
    | Payload.metadataSetPtr p => Encoded.bytes (encodeEnvelope encodeMetadataSetSub c.Typ p)
    | _ => Encoded.panic
  else if c.Typ = metadataDelete then
    match c.Sub with
    | Payload.stringPtr p => Encoded.bytes (encodeEnvelope encodeString c.Typ p)
    | _ => Encoded.panic
  else if c.Typ = connect ∨ c.Typ = disconnect then
    match c.Sub with
    | Payload.connectionPtr p => Encoded.bytes (encodeEnvelope encodeConnectionSub c.Typ p)
    | _ => Encoded.panic
  else Encoded.error Err.unknownType

/-- The function `newCommand`. -/
def newCommand (t : commandType) (d : Payload) : command × Option Err :=
  ({ Typ := t, Sub := d }, none)

/-- The function `newMetadataSetCommand`. -/
def newMetadataSetCommand (id : Str) (md : Option (List (Str × Str))) : command × Option Err :=
  newCommand metadataSet (Payload.metadataSetPtr (some { RaftID := id, Data := md }))

/-! ## Vocabulary of the statements and proofs -/

/-- Text that may follow a value inside a document: the end, or one of the
punctuation marks that close or continue a surrounding array or object. -/
def isDelim : Str → Bool
  | [] => true
  | c :: _ => c = ',' || c = '}' || c = ']'

/-- A text and its meaning for a value scanner `pv`: scanning the text in
front of a delimiter gives the meaning and stops at the delimiter. -/
def ScansAs {α : Type} (pv : Str → Option (α × Str)) (t : Str) (j : α) : Prop :=
  (∃ c t1, t = c :: t1 ∧ isSpace c = false ∧ c ≠ ']') ∧
    ∀ r, isDelim r = true → pv (t ++ r) = some (j, r)

/-- The text `t` is a JSON value with meaning `j` and nesting depth `dep`:
with enough fuel and room for the nesting, the scanner reads it so. -/
def Renders (t : Str) (j : Json) (dep : Nat) : Prop :=
  ∀ f d, t.length < f → d + dep ≤ maxNestingDepth → ScansAs (parseValue f d) t j

/-- A struct field of an encoded object together with the JSON value its
text spells; `none` when the field is left out. -/
def optField (name : String) (empty : Bool) (t : Str) (j : Json) : Option (Str × Str × Json) :=
  if empty then none else some (name.toList, t, j)

/-- The JSON value that the encoding of a `[]string` spells. -/
def docStrings : Option (List Str) → Json
  | none => Json.null
  | some l => Json.arr (l.map Json.str)

/-- The JSON value that the encoding of a `map[string]string` spells. -/
def docData : Option (List (Str × Str)) → Json
  | none => Json.null
  | some l => Json.obj (l.map fun kv => (kv.1, Json.str kv.2))

/-- The fields of an encoded `databaseSub`. -/
def databaseSub.fields (p : databaseSub) : List (Option (Str × Str × Json)) :=
  [optField "conn_id" (p.ConnID = 0) (encodeUint p.ConnID) (Json.num (encodeUint p.ConnID)),
   optField "atomic" (!p.Atomic) (encodeBool p.Atomic) (Json.bool p.Atomic),
   optField "queries" p.Queries.isNone (encodeStrings (p.Queries.getD none))
     (docStrings (p.Queries.getD none)),
   optField "timings" (!p.Timings) (encodeBool p.Timings) (Json.bool p.Timings)]

/-- The fields of an encoded `metadataSetSub`. -/
def metadataSetSub.fields (p : metadataSetSub) : List (Option (Str × Str × Json)) :=
  [optField "raft_id" (p.RaftID = []) (encodeString p.RaftID) (Json.str p.RaftID),
   optField "data" ((p.Data.getD []) = []) (encodeData p.Data) (docData p.Data)]

/-- The fields of an encoded `connectionSub`. -/
def connectionSub.fields (p : connectionSub) : List (Option (Str × Str × Json)) :=
  [optField "conn_id" (p.ConnID = 0) (encodeUint p.ConnID) (Json.num (encodeUint p.ConnID)),
   optField "idle_timeout" (p.IdleTimeout = 0) (encodeInt p.IdleTimeout)
     (Json.num (encodeInt p.IdleTimeout)),
   optField "tx_timeout" (p.TxTimeout = 0) (encodeInt p.TxTimeout)
     (Json.num (encodeInt p.TxTimeout))]

/-- The JSON object that an encoded struct spells. -/
def docFields (fs : List (Option (Str × Str × Json))) : Json :=
  Json.obj (fs.reduceOption.map fun m => (m.1, m.2.2))

/-- The payload type that a tag implies, as the type assertions of
`command.MarshalJSON` and the allocations of `command.UnmarshalJSON` fix it. -/
def tagImplies (t : commandType) (d : Payload) : Prop :=
  match d with
  | Payload.databasePtr _ => t = execute ∨ t = query
  | Payload.metadataSetPtr _ => t = metadataSet
  | Payload.stringPtr _ => t = metadataDelete
  | Payload.connectionPtr _ => t = connect ∨ t = disconnect
  | _ => False

/-- The command is one that a constructor of the file returns: `newCommand`
with a payload of the type its tag implies, or `newMetadataSetCommand`. -/
def constructed (c : command) : Prop :=
  (∃ t d, tagImplies t d ∧ c = (newCommand t d).1) ∨
    ∃ id md, c = (newMetadataSetCommand id md).1

/-- The payload stands for a Go value: numbers are within the range of
their Go type and a map has its keys in increasing order. -/
def Payload.valid : Payload → Prop
  | Payload.databasePtr (some p) => p.ConnID < 2 ^ 64
  | Payload.metadataSetPtr (some p) => keysIncreasing (p.Data.getD [])
  | Payload.connectionPtr (some p) =>
    p.ConnID < 2 ^ 64 ∧ (-(2 ^ 63) ≤ p.IdleTimeout ∧ p.IdleTimeout < 2 ^ 63) ∧
      (-(2 ^ 63) ≤ p.TxTimeout ∧ p.TxTimeout < 2 ^ 63)
  | _ => True

/-- The payload pointer is not nil, and the payload holds neither a map
that is empty without being nil nor a `Queries` pointer to a nil slice. -/
def Payload.exact : Payload → Prop
  | Payload.databasePtr (some p) => p.Queries ≠ some none
  | Payload.metadataSetPtr (some p) => p.Data ≠ some []
  | Payload.stringPtr (some _) => True
  | Payload.connectionPtr (some _) => True
  | _ => False

instance (m : List (Str × Str)) : Decidable (keysIncreasing m) := by
  unfold keysIncreasing; infer_instance

instance (t : commandType) (d : Payload) : Decidable (tagImplies t d) := by
  unfold tagImplies; split <;> infer_instance

instance (d : Payload) : Decidable d.valid := by
  unfold Payload.valid; split <;> infer_instance

instance (d : Payload) : Decidable d.exact := by
  unfold Payload.exact; split <;> infer_instance

/-- The raw text that an envelope carries for the field `name`: the value of
the last member whose key selects the field, unless there is no such member
or that value is `null`. -/
def fieldRaw (name : Str) (ms : List (Str × Str)) : Option Str :=
  match (ms.filter fun m => matchField m.1 name).getLast? with
  | none => none
  | some m => if m.2.head? = some 'n' then none else some m.2

/-- The text behind a pointer to a `rawMessage`, if the pointer is not nil. -/
def rawText (p : Option rawMessage) : Option Str := p.map fun r => r.getD []

/-- The raw text of a field after the members `ms` have been decoded in
order into an envelope that held `cur` for the field. -/
def fieldRawFrom (name : Str) : List (Str × Str) → Option Str → Option Str
  | [], cur => cur
  | m :: ms, cur =>
    fieldRawFrom name ms
      (if matchField m.1 name then (if m.2.head? = some 'n' then none else some m.2) else cur)

/-- The value of the last member of an object whose key selects the field
`name`. -/
def lastMember (name : Str) (fs : List (Str × Json)) : Option Json :=
  ((fs.filter fun m => matchField m.1 name).getLast?).map Prod.snd

/-- Whether a JSON value is a string. -/
def Json.isString : Json → Bool
  | .str _ => true
  | _ => false

/-- The unsigned number that a JSON value spells, 0 for any other value. -/
def Json.uintValue : Json → Nat
  | .num lit => (parseUint lit).getD 0
  | _ => 0

/-- The boolean that a JSON value is, `false` for any other value. -/
def Json.boolValue : Json → Bool
  | .bool b => b
  | _ => false

/-- The strings among a list of JSON values, in order. -/
def jsonStrings : List Json → List Str
  | [] => []
  | .str s :: es => s :: jsonStrings es
  | _ :: es => jsonStrings es

/-- The sequence of strings that a JSON array holds, as the target of a
`*[]string`; nil for any other value. -/
def Json.stringsValue : Json → Option (Option (List Str))
  | .arr es => some (some (jsonStrings es))
  | _ => none

/-- Specification side, after the spec's table of payload fields
("connectionID: u64; atomic: bool; queries: optional ordered sequence of
string; timings: bool"): whether the value of the member `k` has the type of
the field that `k` selects.  A member that selects no field is free. -/
def specDatabaseMember (k : Str) (v : Json) : Bool :=
  if matchField k "conn_id".toList then
    (match v with
     | .num lit => (parseUint lit).isSome
     | _ => false)
  else if matchField k "atomic".toList then
    (match v with
     | .bool _ => true
     | _ => false)
  else if matchField k "queries".toList then
    (match v with
     | .arr es => es.all Json.isString
     | _ => false)
  else if matchField k "timings".toList then
    (match v with
     | .bool _ => true
     | _ => false)
  else true

/-- Specification side: a well-formed database payload object, every member
of which has the type of the field it selects. -/
def specDatabaseObject (fs : List (Str × Json)) : Bool :=
  fs.all fun m => specDatabaseMember m.1 m.2

/-- Specification side: the database payload that a well-formed database
payload object spells.  Each field has the value of the last member that
selects it, and its zero value when no member does. -/
def specDatabasePayload (fs : List (Str × Json)) : databaseSub :=
  { ConnID := ((lastMember "conn_id".toList fs).map Json.uintValue).getD 0,
    Atomic := ((lastMember "atomic".toList fs).map Json.boolValue).getD false,
    Queries := ((lastMember "queries".toList fs).map Json.stringsValue).getD none,
    Timings := ((lastMember "timings".toList fs).map Json.boolValue).getD false }

/-- The value of a field after the members `fs` have been read in order,
when it was `cur` before and a selecting member with value `v` sets it to
`val v`. -/
def lastFrom {β : Type} (name : Str) (val : Json → β) : List (Str × Json) → β → β
  | [], cur => cur
  | m :: ms, cur => lastFrom name val ms (if matchField m.1 name then val m.2 else cur)

/-- The dynamic type of a payload value. -/
inductive Shape where
  | nilValue
  | databasePtr
  | metadataSetPtr
  | stringPtr
  | connectionPtr
  | other (goType : String)
  deriving DecidableEq, Repr

/-- The dynamic type of the value in the field `Sub`. -/
def Payload.shape : Payload → Shape
  | Payload.nilValue => Shape.nilValue
  | Payload.databasePtr _ => Shape.databasePtr
  | Payload.metadataSetPtr _ => Shape.metadataSetPtr
  | Payload.stringPtr _ => Shape.stringPtr
  | Payload.connectionPtr _ => Shape.connectionPtr
  | Payload.other g => Shape.other g

/-- The tag is one of the six known tags. -/
def knownTag (t : commandType) : Prop := 0 ≤ t ∧ t ≤ 5

instance (t : commandType) : Decidable (knownTag t) := by
  unfold knownTag; infer_instance

/-- Two runs of the decoder end alike: both return a command, and the same
one; or both return an error, and the same one; or both panic. -/
def sameOutcome : Decoded → Decoded → Prop
  | Decoded.done c1, Decoded.done c2 => c1 = c2
  | Decoded.error e1 _, Decoded.error e2 _ => e1 = e2
  | Decoded.panic, Decoded.panic => True
  | _, _ => False

/-- The text does not start with white space. -/
def startsTight (raw : Str) : Prop := ∀ c t, raw = c :: t → isSpace c = false

/-- The argument shares no byte with the receiver's buffer: one of the two
is nil, or they lie in different backing arrays, or the argument's window
ends before the buffer starts or starts after it ends. -/
def separate (r data : ByteSlice) : Prop :=
  match r, data with
  | some x, some y => x.arr ≠ y.arr ∨ y.off + y.len ≤ x.off ∨ x.off + x.cap ≤ y.off
  | _, _ => True

/-- A slice as the value it shows: nil, or its bytes. -/
def Heap.view (h : Heap) (s : ByteSlice) : rawMessage := s.map fun _ => h.bytes s

instance (h : Heap) (s : ByteSlice) : Decidable (h.holds s) := by
  unfold Heap.holds; split <;> infer_instance

instance (r data : ByteSlice) : Decidable (separate r data) := by
  unfold separate; split <;> infer_instance

/-! ## Theorems -/

/-! ### String literals -/

theorem hexVal_hexDigit (k : Nat) (h : k < 16) : hexVal (hexDigit k) = some k := by
  interval_cases k <;> rfl

theorem hex4_byte (v : Nat) (h : v < 256) :
    hex4 '0' '0' (hexDigit (v / 16)) (hexDigit (v % 16)) = some v := by
  have h1 : hexVal (hexDigit (v / 16)) = some (v / 16) := hexVal_hexDigit _ (by omega)
  have h2 : hexVal (hexDigit (v % 16)) = some (v % 16) := hexVal_hexDigit _ (by omega)
  have h0 : hexVal '0' = some 0 := rfl
  simp only [hex4, h0, h1, h2]
  congr 1
  omega

theorem char_eq_of_toNat (c : Char) (n : Nat) (h : c.toNat = n) : c = Char.ofNat n := by
  rw [← h, Char.ofNat_toNat]

theorem parseStrBody_escapeChar (c : Char) (f : Nat) (t : Str) :
    parseStrBody (f + 1) (escapeChar c ++ t)
      = (parseStrBody f t).map fun r => (c :: r.1, r.2) := by
  unfold escapeChar
  split_ifs with h1 h2 h3 h4 h5 h6 h7 h8 h9
  · subst h1; simp [parseStrBody, simpleEscape]
  · subst h2; simp [parseStrBody, simpleEscape]
  · have := char_eq_of_toNat c 8 h3; subst this; simp [parseStrBody, simpleEscape]
  · have := char_eq_of_toNat c 12 h4; subst this; simp [parseStrBody, simpleEscape]
  · subst h5; simp [parseStrBody, simpleEscape]
  · subst h6; simp [parseStrBody, simpleEscape]
  · subst h7; simp [parseStrBody, simpleEscape]
  · have hv : c.toNat < 256 := by
      rcases h8 with h | h | h | h
      · omega
      · subst h; decide
      · subst h; decide
      · subst h; decide
    have hx := hex4_byte c.toNat hv
    have hc : Char.ofNat c.toNat = c := Char.ofNat_toNat c
    simp [parseStrBody, hx, hc]
    intro h; omega
  · rcases h9 with h | h
    · have := char_eq_of_toNat c 0x2028 h; subst this
      have hx : hex4 '2' '0' '2' (hexDigit 8) = some 0x2028 := by
        decide
      simp [parseStrBody, hx]
    · have := char_eq_of_toNat c 0x2029 h; subst this
      have hx : hex4 '2' '0' '2' (hexDigit 9) = some 0x2029 := by
        decide
      simp [parseStrBody, hx]
  · have hq : ¬ c.toNat < 32 := by intro h; exact h8 (Or.inl h)
    simp [parseStrBody, h1, h2, hq]

theorem parseStrBody_escapeStr (s rest : Str) :
    ∀ f, s.length < f → parseStrBody f (escapeStr s ++ '"' :: rest) = some (s, rest) := by
  induction s with
  | nil =>
    intro f hf
    cases f with
    | zero => simp at hf
    | succ f => simp [escapeStr, parseStrBody]
  | cons c s ih =>
    intro f hf
    cases f with
    | zero => simp at hf
    | succ f =>
      have hf1 : s.length < f := by simpa using hf
      simp only [escapeStr, List.append_assoc]
      rw [parseStrBody_escapeChar, ih f hf1]
      rfl

theorem length_le_escapeStr (s : Str) : s.length ≤ (escapeStr s).length := by
  induction s with
  | nil => simp [escapeStr]
  | cons c s ih =>
    have h : 1 ≤ (escapeChar c).length := by
      unfold escapeChar; split_ifs <;> simp
    simp only [escapeStr, List.length_append, List.length_cons]
    omega

/-! ### Number literals -/

theorem isDigit_decDigit (k : Nat) : isDigit (decDigit k) = true := by
  unfold decDigit; split <;> rfl

theorem decDigit_value (k : Nat) (h : k < 10) : (decDigit k).toNat - '0'.toNat = k := by
  interval_cases k <;> rfl

theorem decDigit_ne_zero (k : Nat) (h : 0 < k) : decDigit k ≠ '0' := by
  unfold decDigit; split <;> first | omega | decide

theorem digitsValue_append (xs : Str) (d : Char) :
    digitsValue (xs ++ [d]) = digitsValue xs * 10 + (d.toNat - '0'.toNat) := by
  simp [digitsValue, List.foldl_append]

theorem natDigits_spec : ∀ f n, n < f →
    (natDigits f n).all isDigit = true ∧ digitsValue (natDigits f n) = n ∧
    (∃ d ds, natDigits f n = d :: ds ∧ (d = '0' → ds = [] ∧ n = 0)) := by
  intro f
  induction f with
  | zero => intro n h; omega
  | succ f ih =>
    intro n h
    unfold natDigits
    split_ifs with h10
    · refine ⟨by simp [isDigit_decDigit], ?_, ⟨decDigit n, [], rfl, ?_⟩⟩
      · have := decDigit_value n h10
        simpa [digitsValue] using this
      · intro h0
        refine ⟨rfl, ?_⟩
        by_contra hn
        exact decDigit_ne_zero n (by omega) h0
    · have hlt : n / 10 < f := by omega
      obtain ⟨h1, h2, d, ds, h3, h4⟩ := ih (n / 10) hlt
      refine ⟨?_, ?_, ?_⟩
      · simp [List.all_append, h1, isDigit_decDigit]
      · rw [digitsValue_append, h2, decDigit_value _ (by omega)]; omega
      · refine ⟨d, ds ++ [decDigit (n % 10)], by rw [h3]; rfl, ?_⟩
        intro h0
        have := (h4 h0).2
        omega

theorem spanDigits_append (ds rest : Str) (h : ds.all isDigit = true)
    (hr : isDelim rest = true) : spanDigits (ds ++ rest) = (ds, rest) := by
  induction ds with
  | nil =>
    cases rest with
    | nil => rfl
    | cons c t =>
      have hc : isDigit c = false := by
        simp only [isDelim, Bool.or_eq_true, decide_eq_true_eq] at hr
        rcases hr with (h | h) | h <;> subst h <;> rfl
      simp [spanDigits, hc]
  | cons d ds ih =>
    simp only [List.all_cons, Bool.and_eq_true] at h
    simp [spanDigits, h.1, ih h.2]

theorem scanFrac_delim (rest : Str) (hr : isDelim rest = true) : scanFrac rest = some ([], rest) := by
  cases rest with
  | nil => rfl
  | cons c t =>
    simp only [isDelim, Bool.or_eq_true, decide_eq_true_eq] at hr
    rcases hr with (h | h) | h <;> subst h <;> rfl

theorem scanExp_delim (rest : Str) (hr : isDelim rest = true) : scanExp rest = some ([], rest) := by
  cases rest with
  | nil => rfl
  | cons c t =>
    simp only [isDelim, Bool.or_eq_true, decide_eq_true_eq] at hr
    rcases hr with (h | h) | h <;> subst h <;> rfl

theorem scanInt_digits (d : Char) (ds rest : Str) (hd : isDigit d = true)
    (h0 : d = '0' → ds = []) (hds : ds.all isDigit = true) (hr : isDelim rest = true) :
    scanInt (d :: (ds ++ rest)) = some (d :: ds, rest) := by
  simp only [scanInt]
  split_ifs with h
  · rw [h0 h]; simp [h]
  · simp [spanDigits_append ds rest hds hr]

theorem parseNumber_digits (d : Char) (ds rest : Str) (hd : isDigit d = true)
    (h0 : d = '0' → ds = []) (hds : ds.all isDigit = true) (hr : isDelim rest = true) :
    parseNumber (d :: (ds ++ rest)) = some (d :: ds, rest) := by
  have hm : d ≠ '-' := by rintro rfl; revert hd; decide
  simp [parseNumber, scanMinus, hm, scanInt_digits d ds rest hd h0 hds hr,
    scanFrac_delim rest hr, scanExp_delim rest hr]

theorem parseNumber_minus_digits (d : Char) (ds rest : Str) (hd : isDigit d = true)
    (h0 : d = '0' → ds = []) (hds : ds.all isDigit = true) (hr : isDelim rest = true) :
    parseNumber ('-' :: d :: (ds ++ rest)) = some ('-' :: d :: ds, rest) := by
  simp [parseNumber, scanMinus, scanInt_digits d ds rest hd h0 hds hr,
    scanFrac_delim rest hr, scanExp_delim rest hr]

/-! ### Object members -/

theorem skipSpace_cons (c : Char) (t : Str) (h : isSpace c = false) :
    skipSpace (c :: t) = c :: t := by
  simp [skipSpace, h]

theorem member_append (k t X : Str) :
    member k t ++ X = '"' :: (escapeStr k ++ '"' :: ':' :: (t ++ X)) := by
  simp [member, encodeString, List.append_assoc]

theorem parseStrBody_key (k Y : Str) :
    parseStrBody (escapeStr k ++ '"' :: Y).length.succ (escapeStr k ++ '"' :: Y) = some (k, Y) := by
  apply parseStrBody_escapeStr
  have := length_le_escapeStr k
  simp only [List.length_append, List.length_cons, Nat.succ_eq_add_one]
  omega

theorem parseMembers_last {α : Type} (pv : Str → Option (α × Str)) (f : Nat) (k t rest : Str)
    (j : α) (hs : skipSpace (t ++ '}' :: rest) = t ++ '}' :: rest)
    (hp : pv (t ++ '}' :: rest) = some (j, '}' :: rest)) :
    parseMembers pv (f + 1) (member k t ++ '}' :: rest) = some ([(k, j)], rest) := by
  rw [member_append]
  simp only [parseMembers, ↓reduceIte]
  rw [parseStrBody_key]
  simp [skipSpace_cons, isSpace, hs, hp]

theorem parseMembers_more {α : Type} (pv : Str → Option (α × Str)) (f : Nat) (k t Y : Str)
    (j : α) (hs : skipSpace (t ++ ',' :: Y) = t ++ ',' :: Y)
    (hp : pv (t ++ ',' :: Y) = some (j, ',' :: Y)) (hY : skipSpace Y = Y) :
    parseMembers pv (f + 1) (member k t ++ ',' :: Y)
      = (parseMembers pv f Y).map fun r => ((k, j) :: r.1, r.2) := by
  rw [member_append]
  simp only [parseMembers, ↓reduceIte]
  rw [parseStrBody_key]
  simp [skipSpace_cons, isSpace, hs, hp, hY]

theorem skipSpace_member (k t X : Str) : skipSpace (member k t ++ X) = member k t ++ X := by
  rw [member_append]; exact skipSpace_cons _ _ rfl

theorem skipSpace_joinComma_members {α : Type} (m : Str × Str × α) (ms : List (Str × Str × α))
    (X : Str) :
    skipSpace (joinComma ((m :: ms).map fun m => member m.1 m.2.1) ++ X)
      = joinComma ((m :: ms).map fun m => member m.1 m.2.1) ++ X := by
  cases ms with
  | nil => simp only [List.map, joinComma]; exact skipSpace_member _ _ _
  | cons m2 ms =>
    simp only [List.map, joinComma, List.append_assoc]
    exact skipSpace_member _ _ _

theorem ScansAs.skip {α : Type} {pv : Str → Option (α × Str)} {t : Str} {j : α}
    (h : ScansAs pv t j) (r : Str) : skipSpace (t ++ r) = t ++ r := by
  obtain ⟨⟨c, t1, rfl, hc, _⟩, _⟩ := h
  exact skipSpace_cons _ _ hc

theorem parseMembers_join {α : Type} (pv : Str → Option (α × Str)) (rest : Str) :
    ∀ (ms : List (Str × Str × α)), ms ≠ [] → (∀ m ∈ ms, ScansAs pv m.2.1 m.2.2) →
    ∀ f, ms.length ≤ f →
      parseMembers pv f (joinComma (ms.map fun m => member m.1 m.2.1) ++ '}' :: rest)
        = some (ms.map fun m => (m.1, m.2.2), rest) := by
  intro ms
  induction ms with
  | nil => intro h; exact absurd rfl h
  | cons m ms ih =>
    intro _ hpv f hf
    cases f with
    | zero => simp at hf
    | succ f =>
      have hm := hpv m (List.mem_cons_self _ _)
      cases ms with
      | nil =>
        simp only [List.map, joinComma]
        exact parseMembers_last pv f m.1 m.2.1 rest m.2.2 (hm.skip _) (hm.2 _ rfl)
      | cons m2 ms =>
        have hf1 : (m2 :: ms).length ≤ f := by simpa using hf
        have hrec := ih (by simp) (fun x hx => hpv x (List.mem_cons_of_mem _ hx)) f hf1
        simp only [List.map, joinComma, List.append_assoc, List.cons_append] at hrec ⊢
        rw [parseMembers_more pv f m.1 m.2.1 _ m.2.2 (hm.skip _) (hm.2 _ rfl)]
        · rw [hrec]; rfl
        · have := skipSpace_joinComma_members m2 ms ('}' :: rest)
          simpa only [List.map, joinComma, List.append_assoc, List.cons_append] using this

/-! ### Array elements and scalar values -/

theorem parseElems_last (pv : Str → Option (Json × Str)) (f : Nat) (t rest : Str)
    (j : Json) (hp : pv (t ++ ']' :: rest) = some (j, ']' :: rest)) :
    parseElems pv (f + 1) (t ++ ']' :: rest) = some ([j], rest) := by
  simp [parseElems, hp, skipSpace_cons, isSpace]

theorem parseElems_more (pv : Str → Option (Json × Str)) (f : Nat) (t Y : Str)
    (j : Json) (hp : pv (t ++ ',' :: Y) = some (j, ',' :: Y)) (hY : skipSpace Y = Y) :
    parseElems pv (f + 1) (t ++ ',' :: Y) = (parseElems pv f Y).map fun r => (j :: r.1, r.2) := by
  simp [parseElems, hp, skipSpace_cons, isSpace, hY]

theorem parseElems_join (pv : Str → Option (Json × Str)) (rest : Str) :
    ∀ (es : List (Str × Json)), es ≠ [] → (∀ e ∈ es, ScansAs pv e.1 e.2) →
    ∀ f, es.length ≤ f →
      parseElems pv f (joinComma (es.map fun e => e.1) ++ ']' :: rest)
        = some (es.map fun e => e.2, rest) := by
  intro es
  induction es with
  | nil => intro h; exact absurd rfl h
  | cons e es ih =>
    intro _ hpv f hf
    cases f with
    | zero => simp at hf
    | succ f =>
      have he := hpv e (List.mem_cons_self _ _)
      cases es with
      | nil =>
        simp only [List.map, joinComma]
        exact parseElems_last pv f e.1 rest e.2 (he.2 _ rfl)
      | cons e2 es =>
        have hf1 : (e2 :: es).length ≤ f := by simpa using hf
        have hrec := ih (by simp) (fun x hx => hpv x (List.mem_cons_of_mem _ hx)) f hf1
        have he2 := hpv e2 (List.mem_cons_of_mem _ (List.mem_cons_self _ _))
        simp only [List.map, joinComma, List.append_assoc, List.cons_append] at hrec ⊢
        rw [parseElems_more pv f e.1 _ e.2 (he.2 _ rfl)]
        · rw [hrec]; rfl
        · cases es with
          | nil => simpa only [List.map, joinComma] using he2.skip _
          | cons e3 es =>
            simpa only [List.map, joinComma, List.append_assoc, List.cons_append] using he2.skip _

theorem length_joinComma (xs : List Str) : xs.length ≤ (joinComma xs).length + 1 := by
  induction xs with
  | nil => simp
  | cons x xs ih =>
    cases xs with
    | nil => simp [joinComma]
    | cons y ys =>
      simp only [joinComma, List.length_append, List.length_cons] at ih ⊢
      omega

theorem length_le_joinComma (xs : List Str) (x : Str) (h : x ∈ xs) :
    x.length ≤ (joinComma xs).length := by
  induction xs with
  | nil => simp at h
  | cons y xs ih =>
    cases xs with
    | nil =>
      simp only [List.mem_singleton] at h
      subst h; simp [joinComma]
    | cons z zs =>
      simp only [joinComma, List.length_append, List.length_cons]
      rcases List.mem_cons.1 h with h | h
      · subst h; omega
      · have := ih h
        simp only [joinComma, List.length_append, List.length_cons] at this ⊢
        omega

theorem renders_string (s : Str) : Renders (encodeString s) (Json.str s) 0 := by
  intro f d hf _
  refine ⟨⟨_, _, rfl, rfl, by decide⟩, fun r _ => ?_⟩
  cases f with
  | zero => simp at hf
  | succ f =>
    simp only [encodeString, List.cons_append, List.append_assoc, List.singleton_append]
    simp only [parseValue]
    rw [parseStrBody_key]
    simp

theorem parseValue_number (f d : Nat) (c : Char) (s : Str) (hc : isDigit c = true ∨ c = '-') :
    parseValue (f + 1) d (c :: s) = (parseNumber (c :: s)).map fun r => (Json.num r.1, r.2) := by
  have h1 : c ≠ '{' := by rintro rfl; revert hc; decide
  have h2 : c ≠ '[' := by rintro rfl; revert hc; decide
  have h3 : c ≠ '"' := by rintro rfl; revert hc; decide
  have h4 : c ≠ 't' := by rintro rfl; revert hc; decide
  have h5 : c ≠ 'f' := by rintro rfl; revert hc; decide
  have h6 : c ≠ 'n' := by rintro rfl; revert hc; decide
  simp [parseValue, h1, h2, h3, h4, h5, h6]

theorem isSpace_of_isDigit (c : Char) (h : isDigit c = true) : isSpace c = false := by
  have h1 : c ≠ ' ' := by rintro rfl; revert h; decide
  have h2 : c ≠ '\t' := by rintro rfl; revert h; decide
  have h3 : c ≠ '\r' := by rintro rfl; revert h; decide
  have h4 : c ≠ '\n' := by rintro rfl; revert h; decide
  simp [isSpace, h1, h2, h3, h4]

theorem encodeUint_spec (n : Nat) :
    ∃ d ds, encodeUint n = d :: ds ∧ isDigit d = true ∧ (d = '0' → ds = []) ∧
      ds.all isDigit = true ∧ digitsValue (d :: ds) = n := by
  obtain ⟨h1, h2, d, ds, h3, h4⟩ := natDigits_spec (n + 1) n (by omega)
  refine ⟨d, ds, h3, ?_, fun h => (h4 h).1, ?_, ?_⟩
  · rw [h3] at h1; simp only [List.all_cons, Bool.and_eq_true] at h1; exact h1.1
  · rw [h3] at h1; simp only [List.all_cons, Bool.and_eq_true] at h1; exact h1.2
  · rw [← h3]; exact h2

theorem renders_uint (n : Nat) : Renders (encodeUint n) (Json.num (encodeUint n)) 0 := by
  obtain ⟨c, ds, h, hc, h0, hds, _⟩ := encodeUint_spec n
  intro f d hf _
  rw [h]
  refine ⟨⟨_, _, rfl, isSpace_of_isDigit c hc, by rintro rfl; revert hc; decide⟩, fun r hr => ?_⟩
  cases f with
  | zero => simp at hf
  | succ f =>
    simp only [List.cons_append]
    rw [parseValue_number f d c _ (Or.inl hc), parseNumber_digits c ds r hc h0 hds hr]
    rfl

theorem renders_int (i : Int) : Renders (encodeInt i) (Json.num (encodeInt i)) 0 := by
  unfold encodeInt
  split_ifs with hneg
  · obtain ⟨c, ds, h, hc, h0, hds, _⟩ := encodeUint_spec i.natAbs
    intro f d hf _
    rw [h]
    refine ⟨⟨_, _, rfl, rfl, by decide⟩, fun r hr => ?_⟩
    cases f with
    | zero => simp at hf
    | succ f =>
      simp only [List.cons_append]
      rw [parseValue_number f d '-' _ (Or.inr rfl), parseNumber_minus_digits c ds r hc h0 hds hr]
      rfl
  · exact renders_uint _

theorem renders_bool (b : Bool) : Renders (encodeBool b) (Json.bool b) 0 := by
  intro f d hf _
  cases f with
  | zero => simp at hf
  | succ f =>
    cases b
    · exact ⟨⟨_, _, rfl, rfl, by decide⟩, fun r _ => by simp [encodeBool, parseValue, stripWord]⟩
    · exact ⟨⟨_, _, rfl, rfl, by decide⟩, fun r _ => by simp [encodeBool, parseValue, stripWord]⟩

/-! ### Arrays and objects -/

theorem joinComma_head (x : Str) (xs : List Str) (X : Str) (c : Char) (t1 : Str)
    (hx : x = c :: t1) : ∃ t, joinComma (x :: xs) ++ X = c :: t := by
  subst hx
  cases xs with
  | nil => exact ⟨_, rfl⟩
  | cons y ys => exact ⟨_, rfl⟩

theorem renders_array (es : List (Str × Json)) (dep : Nat)
    (h : ∀ e ∈ es, Renders e.1 e.2 dep) :
    Renders ('[' :: (joinComma (es.map fun e => e.1) ++ [']'])) (Json.arr (es.map fun e => e.2))
      (dep + 1) := by
  intro f d hf hd
  refine ⟨⟨_, _, rfl, rfl, by decide⟩, fun r _ => ?_⟩
  cases f with
  | zero => simp at hf
  | succ f =>
    have hdlt : ¬ maxNestingDepth ≤ d := by omega
    simp only [List.length_cons, List.length_append, List.length_nil] at hf
    cases es with
    | nil => simp [parseValue, joinComma, hdlt, skipSpace_cons, isSpace]
    | cons e es =>
      have hsc : ∀ x ∈ e :: es, ScansAs (parseValue f (d + 1)) x.1 x.2 := by
        intro x hx
        apply h x hx
        · have := length_le_joinComma ((e :: es).map fun e => e.1) x.1 (List.mem_map_of_mem _ hx)
          omega
        · omega
      have hlen : (e :: es).length ≤ f := by
        have := length_joinComma ((e :: es).map fun e => e.1)
        simp only [List.length_map] at this
        omega
      have hj := parseElems_join (parseValue f (d + 1)) r (e :: es) (by simp) hsc f hlen
      obtain ⟨⟨c, t1, hct, hsp, hnb⟩, _⟩ := hsc e (List.mem_cons_self _ _)
      obtain ⟨t, ht⟩ := joinComma_head e.1 (es.map fun e => e.1) (']' :: r) c t1 hct
      simp only [List.map_cons] at hj ⊢
      simp only [List.cons_append, List.append_assoc, List.singleton_append, List.nil_append]
      rw [ht] at hj ⊢
      simp only [parseValue, if_neg hdlt, skipSpace_cons c t hsp, if_neg hnb, hj]
      simp

theorem renders_object (ms : List (Str × Str × Json)) (dep : Nat)
    (h : ∀ m ∈ ms, Renders m.2.1 m.2.2 dep) :
    Renders ('{' :: (joinComma (ms.map fun m => member m.1 m.2.1) ++ ['}']))
      (Json.obj (ms.map fun m => (m.1, m.2.2))) (dep + 1) := by
  intro f d hf hd
  refine ⟨⟨_, _, rfl, rfl, by decide⟩, fun r _ => ?_⟩
  cases f with
  | zero => simp at hf
  | succ f =>
    have hdlt : ¬ maxNestingDepth ≤ d := by omega
    simp only [List.length_cons, List.length_append, List.length_nil] at hf
    cases ms with
    | nil => simp [parseValue, joinComma, hdlt, skipSpace_cons, isSpace]
    | cons m ms =>
      have hsc : ∀ x ∈ m :: ms, ScansAs (parseValue f (d + 1)) x.2.1 x.2.2 := by
        intro x hx
        apply h x hx
        · have h1 := length_le_joinComma ((m :: ms).map fun m => member m.1 m.2.1)
            (member x.1 x.2.1) (List.mem_map_of_mem _ hx)
          have h2 : x.2.1.length ≤ (member x.1 x.2.1).length := by
            simp only [member, List.length_append, List.length_cons]; omega
          omega
        · omega
      have hlen : (m :: ms).length ≤ f := by
        have := length_joinComma ((m :: ms).map fun m => member m.1 m.2.1)
        simp only [List.length_map] at this
        omega
      have hj := parseMembers_join (parseValue f (d + 1)) r (m :: ms) (by simp) hsc f hlen
      obtain ⟨t, ht⟩ := joinComma_head (member m.1 m.2.1) (ms.map fun m => member m.1 m.2.1)
        ('}' :: r) '"' _ rfl
      simp only [List.map_cons] at hj ⊢
      simp only [List.cons_append, List.append_assoc, List.singleton_append, List.nil_append]
      rw [ht] at hj ⊢
      have hq : ¬ ('"' = '}') := by decide
      simp only [parseValue, if_neg hdlt, skipSpace_cons '"' t rfl, if_neg hq, hj]
      simp

/-! ### Documents and the envelope of an encoded command -/

theorem parseDoc_renders (t : Str) (j : Json) (dep : Nat) (h : Renders t j dep)
    (hd : dep ≤ maxNestingDepth) : parseDoc t = some j := by
  have hs := h t.length.succ 0 (Nat.lt_succ_self _) (by omega)
  have h1 := hs.skip []
  have h2 := hs.2 [] rfl
  simp only [List.append_nil] at h1 h2
  simp [parseDoc, h1, h2, skipSpace]

theorem parseUint_encodeUint (n : Nat) (h : n < 2 ^ 64) : parseUint (encodeUint n) = some n := by
  obtain ⟨c, ds, h1, hc, _, hds, hv⟩ := encodeUint_spec n
  rw [h1]
  simp only [parseUint]
  rw [if_pos]
  · rw [hv]
  · refine ⟨by simp, ?_, by rw [hv]; exact h⟩
    simp only [List.all_cons, Bool.and_eq_true]; exact ⟨hc, hds⟩

theorem parseInt_encodeInt (i : Int) (hlo : -(2 ^ 63) ≤ i) (hhi : i < 2 ^ 63) :
    parseInt (encodeInt i) = some i := by
  unfold encodeInt
  split_ifs with hneg
  · obtain ⟨c, ds, h1, hc, _, hds, hv⟩ := encodeUint_spec i.natAbs
    rw [h1]
    simp only [parseInt, ↓reduceIte]
    rw [if_pos]
    · rw [hv]; congr 1; omega
    · refine ⟨by simp, ?_, by rw [hv]; omega⟩
      simp only [List.all_cons, Bool.and_eq_true]; exact ⟨hc, hds⟩
  · obtain ⟨c, ds, h1, hc, _, hds, hv⟩ := encodeUint_spec i.toNat
    rw [h1]
    have hm : c ≠ '-' := by rintro rfl; revert hc; decide
    have hp : c ≠ '+' := by rintro rfl; revert hc; decide
    simp only [parseInt, if_neg hm, if_neg hp]
    rw [if_pos]
    · rw [hv]; congr 1; omega
    · refine ⟨?_, by rw [hv]; omega⟩
      simp only [List.all_cons, Bool.and_eq_true]; exact ⟨hc, hds⟩

theorem jsonUnmarshal_renders {α : Type} (dec : Json → α → α × Option Err) (t : Str) (j : Json)
    (dep : Nat) (h : Renders t j dep) (hd : dep ≤ maxNestingDepth) (old : α) :
    jsonUnmarshal dec t old = dec j old := by
  simp [jsonUnmarshal, parseDoc_renders t j dep h hd]

theorem scansAs_skipValue (f d : Nat) (t : Str) (j : Json) (h : ScansAs (parseValue f d) t j) :
    ScansAs (skipValue f d) t t := by
  refine ⟨h.1, fun r hr => ?_⟩
  simp [skipValue, h.2 r hr]

theorem encodeInt_head (i : Int) :
    ∃ c t, encodeInt i = c :: t ∧ c ≠ 'n' := by
  unfold encodeInt
  split_ifs
  · exact ⟨_, _, rfl, by decide⟩
  · obtain ⟨c, ds, h1, hc, _⟩ := encodeUint_spec i.toNat
    exact ⟨c, ds, h1, by rintro rfl; revert hc; decide⟩

theorem setRaw_fresh (c : Char) (t : Str) (h : c ≠ 'n') :
    setRaw none (c :: t) = (some (some (c :: t)), none) := by
  simp [setRaw, h, rawMessage.UnmarshalJSON, appendReset]

theorem scanTop_envelope {α : Type} (enc : α → Str) (t : commandType) (p : α) (j : Json)
    (dep : Nat) (hR : Renders (enc p) j dep) (hdep : dep + 1 ≤ maxNestingDepth) :
    scanTop (encodeEnvelope enc t (some p))
      = some (Top.object [("typ".toList, encodeInt t), ("sub".toList, enc p)]) := by
  have hb : encodeEnvelope enc t (some p)
      = '{' :: (joinComma
          ([("typ".toList, encodeInt t, encodeInt t), ("sub".toList, enc p, enc p)].map
            fun m => member m.1 m.2.1) ++ ['}']) := rfl
  have hlen : (encodeInt t).length + (enc p).length + 2
      ≤ (encodeEnvelope enc t (some p)).length := by
    rw [hb]
    simp only [List.map, joinComma, member, List.length_cons, List.length_append]
    omega
  generalize hB : (encodeEnvelope enc t (some p)).length = B at hlen
  have hsc : ∀ m ∈ [("typ".toList, encodeInt t, encodeInt t), ("sub".toList, enc p, enc p)],
      ScansAs (skipValue B 1) m.2.1 m.2.2 := by
    intro m hm
    simp only [List.mem_cons, List.mem_singleton, List.not_mem_nil, or_false] at hm
    rcases hm with rfl | rfl
    · exact scansAs_skipValue _ _ _ _ (renders_int t B 1 (by omega) (by simp [maxNestingDepth]))
    · exact scansAs_skipValue _ _ _ _ (hR B 1 (by omega) (by omega))
  have hj := parseMembers_join (skipValue B 1) []
    [("typ".toList, encodeInt t, encodeInt t), ("sub".toList, enc p, enc p)] (by simp) hsc B
    (by simp only [List.length_cons, List.length_nil]; omega)
  obtain ⟨s1, hs1⟩ := joinComma_head (member "typ".toList (encodeInt t))
    [member "sub".toList (enc p)] ['}'] '"' _ rfl
  simp only [List.map_cons, List.map_nil] at hj hb
  rw [hs1] at hj hb
  simp only [scanTop, hB]
  rw [hb]
  have hq : ¬ ('"' = '}') := by decide
  simp only [skipSpace_cons '{' _ rfl, ↓reduceIte, skipSpace_cons '"' s1 rfl, if_neg hq, hj]
  simp [skipSpace]

/-! ### Struct fields -/

theorem field_eq_optField (name : String) (empty : Bool) (t : Str) (j : Json) :
    field name empty t = (optField name empty t j).map fun m => member m.1 m.2.1 := by
  cases empty <;> rfl

theorem renders_fields (fs : List (Option (Str × Str × Json))) (dep : Nat)
    (h : ∀ m, some m ∈ fs → Renders m.2.1 m.2.2 dep) :
    Renders (encodeObject (fs.map (Option.map fun m => member m.1 m.2.1))) (docFields fs)
      (dep + 1) := by
  have hr : (fs.map (Option.map fun m => member m.1 m.2.1)).reduceOption
      = fs.reduceOption.map fun m => member m.1 m.2.1 := by
    induction fs with
    | nil => rfl
    | cons a fs ih =>
      have ih' := ih (fun m hm => h m (List.mem_cons_of_mem _ hm))
      cases a with
      | none => simp [List.reduceOption_cons_of_none, ih']
      | some m => simp [List.reduceOption_cons_of_some, ih']
  unfold encodeObject docFields
  rw [hr]
  apply renders_object
  intro m hm
  exact h m (List.reduceOption_mem_iff.1 hm)

theorem reduceOption_map_some {α β : Type} (g : α → β) (l : List α) :
    (l.map fun x => some (g x)).reduceOption = l.map g := by
  induction l with
  | nil => rfl
  | cons a l ih => simp [List.reduceOption_cons_of_some, ih]

theorem renders_null : Renders "null".toList Json.null 0 := by
  intro f d hf _
  cases f with
  | zero => simp at hf
  | succ f =>
    exact ⟨⟨_, _, rfl, rfl, by decide⟩, fun r _ => by
      show parseValue (f + 1) d ('n' :: 'u' :: 'l' :: 'l' :: r) = _
      simp [parseValue, stripWord]⟩

theorem renders_mono (t : Str) (j : Json) (a b : Nat) (hab : a ≤ b) (h : Renders t j a) :
    Renders t j b := fun f d hf hd => h f d hf (by omega)

theorem renders_strings (q : Option (List Str)) : Renders (encodeStrings q) (docStrings q) 1 := by
  cases q with
  | none => exact renders_mono _ _ 0 1 (by omega) renders_null
  | some l =>
    have h := renders_array (l.map fun s => (encodeString s, Json.str s)) 0 (by
      intro e he
      obtain ⟨s, _, rfl⟩ := List.mem_map.1 he
      exact renders_string s)
    simpa [encodeStrings, docStrings, List.map_map, Function.comp_def] using h

theorem renders_data (m : Option (List (Str × Str))) : Renders (encodeData m) (docData m) 1 := by
  cases m with
  | none => exact renders_mono _ _ 0 1 (by omega) renders_null
  | some l =>
    have h := renders_fields (l.map fun kv => some (kv.1, encodeString kv.2, Json.str kv.2)) 0 (by
      intro e he
      obtain ⟨kv, _, hkv⟩ := List.mem_map.1 he
      cases hkv
      exact renders_string kv.2)
    have h1 := reduceOption_map_some (fun kv : Str × Str => (kv.1, encodeString kv.2, Json.str kv.2)) l
    simpa [encodeData, docData, docFields, h1, List.map_map, Function.comp_def] using h

/-! ### Maps, slices and the payload `databaseSub` -/

theorem keyLess_irrefl (a : Str) : keyLess a a = false := by
  induction a with
  | nil => rfl
  | cons c a ih => simp [keyLess, ih]

theorem keyLess_asymm : ∀ a b : Str, keyLess a b = true → keyLess b a = false := by
  intro a
  induction a with
  | nil => intro b _; cases b <;> rfl
  | cons c a ih =>
    intro b h
    cases b with
    | nil => simp [keyLess] at h
    | cons e b =>
      simp only [keyLess, Bool.or_eq_true, Bool.and_eq_true, decide_eq_true_eq] at h
      simp only [keyLess, Bool.or_eq_false_iff, Bool.and_eq_false_imp, decide_eq_false_iff_not,
        decide_eq_true_eq]
      rcases h with h | ⟨h1, h2⟩
      · refine ⟨by omega, ?_⟩
        intro he; subst he; omega
      · subst h1
        exact ⟨by omega, fun _ => ih b h2⟩

theorem mapInsert_append (k v : Str) (acc : List (Str × Str))
    (h : ∀ a ∈ acc, keyLess a.1 k = true) : mapInsert k v acc = acc ++ [(k, v)] := by
  induction acc with
  | nil => rfl
  | cons a acc ih =>
    obtain ⟨k1, v1⟩ := a
    have h1 : keyLess k1 k = true := h (k1, v1) (List.mem_cons_self _ _)
    have h2 : keyLess k k1 = false := keyLess_asymm _ _ h1
    have h3 : k ≠ k1 := by
      rintro rfl
      rw [keyLess_irrefl] at h1
      exact Bool.false_ne_true h1
    simp [mapInsert, h2, h3, ih (fun a ha => h a (List.mem_cons_of_mem _ ha))]

theorem decodeEntries_sorted : ∀ (l acc : List (Str × Str)), keysIncreasing l →
    (∀ a ∈ acc, ∀ b ∈ l, keyLess a.1 b.1 = true) →
    decodeEntries (l.map fun kv => (kv.1, Json.str kv.2)) acc = (acc ++ l, none) := by
  intro l
  induction l with
  | nil => intro acc _ _; simp [decodeEntries]
  | cons x l ih =>
    intro acc hs hacc
    obtain ⟨k, v⟩ := x
    have hp := List.pairwise_cons.1 hs
    have hins : mapInsert k v acc = acc ++ [(k, v)] :=
      mapInsert_append k v acc (fun a ha => hacc a ha (k, v) (List.mem_cons_self _ _))
    have hrec := ih (acc ++ [(k, v)]) hp.2 (by
      intro a ha b hb
      rcases List.mem_append.1 ha with ha | ha
      · exact hacc a ha b (List.mem_cons_of_mem _ hb)
      · simp only [List.mem_singleton] at ha
        subst ha
        exact hp.1 b hb)
    simp [decodeEntries, decodeString, hins, hrec, saveError]

theorem decodeStrings_str (l : List Str) : ∀ old, decodeStrings (l.map Json.str) old = (l, none) := by
  induction l with
  | nil => intro old; rfl
  | cons s l ih => intro old; simp [decodeStrings, decodeString, ih, saveError]

theorem decodeQueries_str (l : List Str) (old : Option (Option (List Str))) (spare : List Str) :
    (decodeQueries (Json.arr (l.map Json.str)) old spare).1.1 = some (some l) ∧
      (decodeQueries (Json.arr (l.map Json.str)) old spare).2 = none := by
  cases l with
  | nil => simp [decodeQueries]
  | cons s l =>
    have h := decodeStrings_str (s :: l)
    simp only [List.map_cons] at h
    simp [decodeQueries, h]

theorem decodeQueries_fresh (l : List Str) :
    decodeQueries (Json.arr (l.map Json.str)) none [] = ((some (some l), []), none) := by
  cases l with
  | nil => simp [decodeQueries]
  | cons s l =>
    have h := decodeStrings_str (s :: l)
    simp only [List.map_cons] at h
    simp [decodeQueries, h]

theorem decodeUint_encode (n old : Nat) (h : n < 2 ^ 64) :
    decodeUint (Json.num (encodeUint n)) old = (n, none) := by
  simp [decodeUint, parseUint_encodeUint n h]

theorem decodeInt_encode (i old : Int) (hlo : -(2 ^ 63) ≤ i) (hhi : i < 2 ^ 63) :
    decodeInt (Json.num (encodeInt i)) old = (i, none) := by
  simp [decodeInt, parseInt_encodeInt i hlo hhi]

theorem mf_conn_id_conn_id : matchField ['c', 'o', 'n', 'n', '_', 'i', 'd'] ['c', 'o', 'n', 'n', '_', 'i', 'd'] = true := by decide

theorem mf_atomic_conn_id : matchField ['a', 't', 'o', 'm', 'i', 'c'] ['c', 'o', 'n', 'n', '_', 'i', 'd'] = false := by decide

theorem mf_atomic_atomic : matchField ['a', 't', 'o', 'm', 'i', 'c'] ['a', 't', 'o', 'm', 'i', 'c'] = true := by decide

theorem mf_queries_conn_id : matchField ['q', 'u', 'e', 'r', 'i', 'e', 's'] ['c', 'o', 'n', 'n', '_', 'i', 'd'] = false := by decide

theorem mf_queries_atomic : matchField ['q', 'u', 'e', 'r', 'i', 'e', 's'] ['a', 't', 'o', 'm', 'i', 'c'] = false := by decide

theorem mf_queries_queries : matchField ['q', 'u', 'e', 'r', 'i', 'e', 's'] ['q', 'u', 'e', 'r', 'i', 'e', 's'] = true := by decide

theorem mf_timings_conn_id : matchField ['t', 'i', 'm', 'i', 'n', 'g', 's'] ['c', 'o', 'n', 'n', '_', 'i', 'd'] = false := by decide

theorem mf_timings_atomic : matchField ['t', 'i', 'm', 'i', 'n', 'g', 's'] ['a', 't', 'o', 'm', 'i', 'c'] = false := by decide

theorem mf_timings_queries : matchField ['t', 'i', 'm', 'i', 'n', 'g', 's'] ['q', 'u', 'e', 'r', 'i', 'e', 's'] = false := by decide

theorem mf_timings_timings : matchField ['t', 'i', 'm', 'i', 'n', 'g', 's'] ['t', 'i', 'm', 'i', 'n', 'g', 's'] = true := by decide

theorem mf_raft_id_raft_id : matchField ['r', 'a', 'f', 't', '_', 'i', 'd'] ['r', 'a', 'f', 't', '_', 'i', 'd'] = true := by decide

theorem mf_data_raft_id : matchField ['d', 'a', 't', 'a'] ['r', 'a', 'f', 't', '_', 'i', 'd'] = false := by decide

theorem mf_data_data : matchField ['d', 'a', 't', 'a'] ['d', 'a', 't', 'a'] = true := by decide

theorem mf_idle_timeout_conn_id : matchField ['i', 'd', 'l', 'e', '_', 't', 'i', 'm', 'e', 'o', 'u', 't'] ['c', 'o', 'n', 'n', '_', 'i', 'd'] = false := by decide

theorem mf_idle_timeout_idle_timeout : matchField ['i', 'd', 'l', 'e', '_', 't', 'i', 'm', 'e', 'o', 'u', 't'] ['i', 'd', 'l', 'e', '_', 't', 'i', 'm', 'e', 'o', 'u', 't'] = true := by decide

theorem mf_tx_timeout_conn_id : matchField ['t', 'x', '_', 't', 'i', 'm', 'e', 'o', 'u', 't'] ['c', 'o', 'n', 'n', '_', 'i', 'd'] = false := by decide

theorem mf_tx_timeout_idle_timeout : matchField ['t', 'x', '_', 't', 'i', 'm', 'e', 'o', 'u', 't'] ['i', 'd', 'l', 'e', '_', 't', 'i', 'm', 'e', 'o', 'u', 't'] = false := by decide

theorem mf_tx_timeout_tx_timeout : matchField ['t', 'x', '_', 't', 'i', 'm', 'e', 'o', 'u', 't'] ['t', 'x', '_', 't', 'i', 'm', 'e', 'o', 'u', 't'] = true := by decide

theorem mf_typ_typ : matchField ['t', 'y', 'p'] ['t', 'y', 'p'] = true := by decide

theorem mf_sub_typ : matchField ['s', 'u', 'b'] ['t', 'y', 'p'] = false := by decide

theorem mf_sub_sub : matchField ['s', 'u', 'b'] ['s', 'u', 'b'] = true := by decide

theorem encodeDatabaseSub_fields (p : databaseSub) :
    encodeDatabaseSub p = encodeObject (p.fields.map (Option.map fun m => member m.1 m.2.1)) := by
  simp only [encodeDatabaseSub, databaseSub.fields, List.map, ← field_eq_optField]

theorem renders_databaseSub (p : databaseSub) :
    Renders (encodeDatabaseSub p) (docFields p.fields) 2 := by
  rw [encodeDatabaseSub_fields]
  apply renders_fields p.fields 1
  intro m hm
  simp only [databaseSub.fields, List.mem_cons, List.mem_singleton, List.not_mem_nil,
    or_false, optField] at hm
  rcases hm with h | h | h | h
  · split_ifs at h; cases h
    exact renders_mono _ _ 0 1 (by omega) (renders_uint _)
  · split_ifs at h; cases h
    exact renders_mono _ _ 0 1 (by omega) (renders_bool _)
  · split_ifs at h; cases h
    exact renders_strings _
  · split_ifs at h; cases h
    exact renders_mono _ _ 0 1 (by omega) (renders_bool _)

theorem decode_databaseSub (p : databaseSub) (hc : p.ConnID < 2 ^ 64)
    (hq : p.Queries ≠ some none) :
    decodeStruct "databaseSub" databaseSub.setField (docFields p.fields)
      ({ ConnID := 0, Atomic := false, Queries := none, Timings := false }, []) = ((p, []), none) := by
  obtain ⟨n, a, q, tm⟩ := p
  simp only at hc
  have hq' : q = none ∨ ∃ l, q = some (some l) := by
    rcases q with _ | _ | l
    · exact Or.inl rfl
    · exact absurd rfl hq
    · exact Or.inr ⟨l, rfl⟩
  by_cases hn : n = 0 <;> cases a <;> cases tm <;> rcases hq' with rfl | ⟨l, rfl⟩ <;>
    simp [decodeStruct, docFields, databaseSub.fields, optField, hn, List.reduceOption,
      decodeFields, databaseSub.setField, mf_conn_id_conn_id, mf_atomic_conn_id,
      mf_atomic_atomic, mf_queries_conn_id, mf_queries_atomic, mf_queries_queries,
      mf_timings_conn_id, mf_timings_atomic, mf_timings_queries, mf_timings_timings,
      decodeUint_encode n 0 hc, decodeBool, docStrings, decodeQueries_fresh,
      saveError]

/-! ### The other payloads and phase 1 on an encoded command -/

theorem encodeMetadataSetSub_fields (p : metadataSetSub) :
    encodeMetadataSetSub p = encodeObject (p.fields.map (Option.map fun m => member m.1 m.2.1)) := by
  simp only [encodeMetadataSetSub, metadataSetSub.fields, List.map, ← field_eq_optField]

theorem renders_metadataSetSub (p : metadataSetSub) :
    Renders (encodeMetadataSetSub p) (docFields p.fields) 2 := by
  rw [encodeMetadataSetSub_fields]
  apply renders_fields p.fields 1
  intro m hm
  simp only [metadataSetSub.fields, List.mem_cons, List.mem_singleton, List.not_mem_nil,
    or_false, optField] at hm
  rcases hm with h | h
  · split_ifs at h; cases h
    exact renders_mono _ _ 0 1 (by omega) (renders_string _)
  · split_ifs at h; cases h
    exact renders_data _

theorem decode_metadataSetSub (p : metadataSetSub) (hd : p.Data ≠ some [])
    (hs : ∀ l, p.Data = some l → keysIncreasing l) :
    decodeStruct "metadataSetSub" metadataSetSub.setField (docFields p.fields)
      { RaftID := [], Data := none } = (p, none) := by
  obtain ⟨r, m⟩ := p
  have hde : ∀ l, keysIncreasing l →
      decodeEntries (l.map fun kv => (kv.1, Json.str kv.2)) [] = (l, none) := by
    intro l hl
    simpa using decodeEntries_sorted l [] hl (by simp)
  rcases m with _ | l
  · by_cases hr : r = [] <;>
      simp [decodeStruct, docFields, metadataSetSub.fields, optField, hr, List.reduceOption,
        decodeFields, metadataSetSub.setField, mf_raft_id_raft_id, decodeString, saveError]
  · have hl : l ≠ [] := by rintro rfl; exact hd rfl
    have hsl := hde l (hs l rfl)
    by_cases hr : r = [] <;>
      simp [decodeStruct, docFields, metadataSetSub.fields, optField, hr, hl, List.reduceOption,
        decodeFields, metadataSetSub.setField, mf_raft_id_raft_id, mf_data_raft_id, mf_data_data,
        decodeString, decodeData, docData, hsl, saveError]

theorem encodeConnectionSub_fields (p : connectionSub) :
    encodeConnectionSub p = encodeObject (p.fields.map (Option.map fun m => member m.1 m.2.1)) := by
  simp only [encodeConnectionSub, connectionSub.fields, List.map, ← field_eq_optField]

theorem renders_connectionSub (p : connectionSub) :
    Renders (encodeConnectionSub p) (docFields p.fields) 1 := by
  rw [encodeConnectionSub_fields]
  apply renders_fields p.fields 0
  intro m hm
  simp only [connectionSub.fields, List.mem_cons, List.mem_singleton, List.not_mem_nil,
    or_false, optField] at hm
  rcases hm with h | h | h
  · split_ifs at h; cases h
    exact renders_uint _
  · split_ifs at h; cases h
    exact renders_int _
  · split_ifs at h; cases h
    exact renders_int _

theorem decode_connectionSub (p : connectionSub) (hc : p.ConnID < 2 ^ 64)
    (hi : -(2 ^ 63) ≤ p.IdleTimeout ∧ p.IdleTimeout < 2 ^ 63)
    (ht : -(2 ^ 63) ≤ p.TxTimeout ∧ p.TxTimeout < 2 ^ 63) :
    decodeStruct "connectionSub" connectionSub.setField (docFields p.fields)
      { ConnID := 0, IdleTimeout := 0, TxTimeout := 0 } = (p, none) := by
  obtain ⟨n, a, b⟩ := p
  simp only at hc hi ht
  by_cases hn : n = 0 <;> by_cases ha : a = 0 <;> by_cases hb : b = 0 <;>
    simp [decodeStruct, docFields, connectionSub.fields, optField, hn, ha, hb, List.reduceOption,
      decodeFields, connectionSub.setField, mf_conn_id_conn_id, mf_idle_timeout_conn_id,
      mf_idle_timeout_idle_timeout, mf_tx_timeout_conn_id, mf_tx_timeout_idle_timeout,
      mf_tx_timeout_tx_timeout, decodeUint_encode n 0 hc, decodeInt_encode a 0 hi.1 hi.2,
      decodeInt_encode b 0 ht.1 ht.2, saveError]

theorem unmarshalEnvelope_encode {α : Type} (enc : α → Str) (t : commandType) (p : α) (j : Json)
    (dep : Nat) (hR : Renders (enc p) j dep) (hdep : dep + 1 ≤ maxNestingDepth)
    (hn : ∃ c s, enc p = c :: s ∧ c ≠ 'n') :
    unmarshalEnvelope (encodeEnvelope enc t (some p)) { Typ := none, Sub := none }
      = (some { Typ := some (some (encodeInt t)), Sub := some (some (enc p)) }, none) := by
  obtain ⟨c, s, hcs, hc⟩ := hn
  obtain ⟨c2, s2, hcs2, hc2⟩ := encodeInt_head t
  simp only [unmarshalEnvelope, scanTop_envelope enc t p j dep hR hdep, decodeEnvelope,
    partialUnmarshal.setField, mf_typ_typ, mf_sub_typ, mf_sub_sub]
  rw [hcs, hcs2]
  simp [setRaw_fresh c s hc, setRaw_fresh c2 s2 hc2, mf_typ_typ, mf_sub_typ, mf_sub_sub]

theorem unmarshal_typ (t old : commandType) (hlo : -(2 ^ 63) ≤ t) (hhi : t < 2 ^ 63) :
    jsonUnmarshal decodeInt (encodeInt t) old = (t, none) := by
  rw [jsonUnmarshal_renders decodeInt _ _ 0 (renders_int t) (by simp [maxNestingDepth])]
  exact decodeInt_encode t old hlo hhi

/-! ### Round trip -/

theorem roundtrip_newCommand (t : commandType) (d : Payload) (r : command)
    (hs : tagImplies t d) (hv : d.valid) (he : d.exact) :
    ∃ b, command.MarshalJSON (newCommand t d).1 = Encoded.bytes b ∧
      command.UnmarshalJSON r b = Decoded.done (newCommand t d).1 := by
  have hmax : (2 : Nat) + 1 ≤ maxNestingDepth := by simp [maxNestingDepth]
  have hmax1 : (1 : Nat) + 1 ≤ maxNestingDepth := by simp [maxNestingDepth]
  have hmax0 : (0 : Nat) + 1 ≤ maxNestingDepth := by simp [maxNestingDepth]
  have hmax2 : (2 : Nat) ≤ maxNestingDepth := by simp [maxNestingDepth]
  have hmax1' : (1 : Nat) ≤ maxNestingDepth := by simp [maxNestingDepth]
  have hmax0' : (0 : Nat) ≤ maxNestingDepth := by simp [maxNestingDepth]
  cases d with
  | nilValue => exact absurd hs (by simp [tagImplies])
  | other g => exact absurd hs (by simp [tagImplies])
  | databasePtr p =>
    cases p with
    | none => exact absurd he (by simp [Payload.exact])
    | some p =>
      simp only [Payload.valid] at hv
      simp only [Payload.exact] at he
      have henv := fun t => unmarshalEnvelope_encode encodeDatabaseSub t p _ 2
        (renders_databaseSub p) hmax ⟨'{', _, rfl, by decide⟩
      have hpay := jsonUnmarshal_renders (decodeStruct "databaseSub" databaseSub.setField) _ _ 2
        (renders_databaseSub p) hmax2
      rcases hs with rfl | rfl
      · refine ⟨encodeEnvelope encodeDatabaseSub execute (some p), by
          simp [command.MarshalJSON, newCommand, execute, query], ?_⟩
        simp only [command.UnmarshalJSON, henv, newCommand, Option.getD_some]
        rw [unmarshal_typ execute r.Typ (by simp [execute]) (by simp [execute])]
        simp [Option.getD, hpay, decode_databaseSub p hv he, finish, execute]
      · refine ⟨encodeEnvelope encodeDatabaseSub query (some p), by
          simp [command.MarshalJSON, newCommand, execute, query], ?_⟩
        simp only [command.UnmarshalJSON, henv, newCommand, Option.getD_some]
        rw [unmarshal_typ query r.Typ (by simp [query]) (by simp [query])]
        simp [Option.getD, hpay, decode_databaseSub p hv he, finish, execute, query]
  | metadataSetPtr p =>
    cases p with
    | none => exact absurd he (by simp [Payload.exact])
    | some p =>
      simp only [Payload.valid] at hv
      simp only [Payload.exact] at he
      have henv := fun t => unmarshalEnvelope_encode encodeMetadataSetSub t p _ 2
        (renders_metadataSetSub p) hmax ⟨'{', _, rfl, by decide⟩
      have hpay := jsonUnmarshal_renders (decodeStruct "metadataSetSub" metadataSetSub.setField)
        _ _ 2 (renders_metadataSetSub p) hmax2
      simp only [tagImplies] at hs
      subst hs
      have hv : ∀ l, p.Data = some l → keysIncreasing l := by
        intro l hl
        rw [hl] at hv
        exact hv
      refine ⟨encodeEnvelope encodeMetadataSetSub metadataSet (some p), by
        simp [command.MarshalJSON, newCommand, execute, query, metadataSet], ?_⟩
      simp only [command.UnmarshalJSON, henv, newCommand, Option.getD_some]
      rw [unmarshal_typ metadataSet r.Typ (by simp [metadataSet]) (by simp [metadataSet])]
      simp [Option.getD, hpay, decode_metadataSetSub p he hv, finish, execute, query, metadataSet]
  | stringPtr p =>
    cases p with
    | none => exact absurd he (by simp [Payload.exact])
    | some p =>
      have henv := fun t => unmarshalEnvelope_encode encodeString t p _ 0
        (renders_string p) hmax0 ⟨'"', _, rfl, by decide⟩
      have hpay := jsonUnmarshal_renders decodeString _ _ 0 (renders_string p) hmax0'
      simp only [tagImplies] at hs
      subst hs
      refine ⟨encodeEnvelope encodeString metadataDelete (some p), by
        simp [command.MarshalJSON, newCommand, execute, query, metadataSet, metadataDelete], ?_⟩
      simp only [command.UnmarshalJSON, henv, newCommand, Option.getD_some]
      rw [unmarshal_typ metadataDelete r.Typ (by simp [metadataDelete])
        (by simp [metadataDelete])]
      simp [Option.getD, hpay, decodeString, finish, execute, query, metadataSet, metadataDelete]
  | connectionPtr p =>
    cases p with
    | none => exact absurd he (by simp [Payload.exact])
    | some p =>
      simp only [Payload.valid] at hv
      have henv := fun t => unmarshalEnvelope_encode encodeConnectionSub t p _ 1
        (renders_connectionSub p) hmax1 ⟨'{', _, rfl, by decide⟩
      have hpay := jsonUnmarshal_renders (decodeStruct "connectionSub" connectionSub.setField)
        _ _ 1 (renders_connectionSub p) hmax1'
      rcases hs with rfl | rfl
      · refine ⟨encodeEnvelope encodeConnectionSub connect (some p), by
          simp [command.MarshalJSON, newCommand, execute, query, metadataSet, metadataDelete,
            connect], ?_⟩
        simp only [command.UnmarshalJSON, henv, newCommand, Option.getD_some]
        rw [unmarshal_typ connect r.Typ (by simp [connect]) (by simp [connect])]
        simp [Option.getD, hpay, decode_connectionSub p hv.1 hv.2.1 hv.2.2, finish, execute,
          query, metadataSet, metadataDelete, connect]
      · refine ⟨encodeEnvelope encodeConnectionSub disconnect (some p), by
          simp [command.MarshalJSON, newCommand, execute, query, metadataSet, metadataDelete,
            connect, disconnect], ?_⟩
        simp only [command.UnmarshalJSON, henv, newCommand, Option.getD_some]
        rw [unmarshal_typ disconnect r.Typ (by simp [disconnect]) (by simp [disconnect])]
        simp [Option.getD, hpay, decode_connectionSub p hv.1 hv.2.1 hv.2.2, finish, execute,
          query, metadataSet, metadataDelete, connect, disconnect]

/-! ### The fields of an arbitrary envelope -/

theorem rawText_setRaw (p : Option rawMessage) (raw : Str) :
    (setRaw p raw).2 = none ∧
      rawText (setRaw p raw).1 = if raw.head? = some 'n' then none else some raw := by
  unfold setRaw
  split_ifs with h
  · exact ⟨rfl, rfl⟩
  · refine ⟨rfl, ?_⟩
    simp only [rawMessage.UnmarshalJSON, rawText, Option.map_some', appendReset]
    cases hp : p.getD none with
    | none =>
      simp only
      split_ifs with he
      · simp [he]
      · simp
    | some x => simp

theorem not_both_fields (k : Str) (h : matchField k "typ".toList = true) :
    matchField k "sub".toList = false := by
  simp only [matchField, Bool.or_eq_true, decide_eq_true_eq] at h
  simp only [matchField, Bool.or_eq_false_iff, decide_eq_false_iff_not]
  rcases h with h | h
  · subst h; exact ⟨by decide, by decide⟩
  · refine ⟨?_, ?_⟩
    · rintro rfl; revert h; decide
    · rw [h]; decide

theorem fieldRawFrom_eq (name : Str) (ms : List (Str × Str)) : ∀ cur,
    fieldRawFrom name ms cur
      = match (ms.filter fun m => matchField m.1 name).getLast? with
        | none => cur
        | some m => if m.2.head? = some 'n' then none else some m.2 := by
  induction ms with
  | nil => intro cur; rfl
  | cons m ms ih =>
    intro cur
    simp only [fieldRawFrom, ih]
    by_cases hm : matchField m.1 name = true
    · simp only [hm, if_true, List.filter_cons_of_pos]
      cases hf : (ms.filter fun m => matchField m.1 name) with
      | nil => simp
      | cons x xs =>
        rw [List.getLast?_cons_cons]
        have : (x :: xs).getLast? = some ((x :: xs).getLast (by simp)) :=
          List.getLast?_eq_getLast _ _
        rw [this]
    · simp only [hm, if_false, Bool.false_eq_true]
      rw [List.filter_cons_of_neg (by simpa using hm)]

theorem decodeEnvelope_spec (ms : List (Str × Str)) : ∀ p : partialUnmarshal,
    (decodeEnvelope ms p).2 = none ∧
    rawText (decodeEnvelope ms p).1.Typ = fieldRawFrom "typ".toList ms (rawText p.Typ) ∧
    rawText (decodeEnvelope ms p).1.Sub = fieldRawFrom "sub".toList ms (rawText p.Sub) := by
  induction ms with
  | nil => intro p; exact ⟨rfl, rfl, rfl⟩
  | cons m ms ih =>
    intro p
    obtain ⟨k, raw⟩ := m
    by_cases ht : matchField k "typ".toList = true
    · have hs := not_both_fields k ht
      have h1 := rawText_setRaw p.Typ raw
      have hstep : partialUnmarshal.setField p k raw
          = ({ p with Typ := (setRaw p.Typ raw).1 }, none) := by
        simp only [partialUnmarshal.setField, ht, if_true, h1.1]
      simp only [decodeEnvelope, hstep, fieldRawFrom, ht, hs, if_true, Bool.false_eq_true,
        if_false]
      have := ih { p with Typ := (setRaw p.Typ raw).1 }
      simpa only [h1.2] using this
    · by_cases hs : matchField k "sub".toList = true
      · have h1 := rawText_setRaw p.Sub raw
        have hstep : partialUnmarshal.setField p k raw
            = ({ p with Sub := (setRaw p.Sub raw).1 }, none) := by
          simp only [partialUnmarshal.setField, ht, hs, if_true, if_false, h1.1,
            Bool.false_eq_true]
        simp only [decodeEnvelope, hstep, fieldRawFrom, ht, hs, if_true, Bool.false_eq_true,
          if_false]
        have := ih { p with Sub := (setRaw p.Sub raw).1 }
        simpa only [h1.2] using this
      · have hstep : partialUnmarshal.setField p k raw = (p, none) := by
          simp only [partialUnmarshal.setField, ht, hs, if_false, Bool.false_eq_true]
        simp only [decodeEnvelope, hstep, fieldRawFrom, ht, hs, if_false, Bool.false_eq_true]
        exact ih p

theorem unmarshalEnvelope_object (b : Str) (ms : List (Str × Str))
    (h : scanTop b = some (Top.object ms)) :
    ∃ pu, unmarshalEnvelope b { Typ := none, Sub := none } = (some pu, none) ∧
      rawText pu.Typ = fieldRaw "typ".toList ms ∧ rawText pu.Sub = fieldRaw "sub".toList ms := by
  obtain ⟨h1, h2, h3⟩ := decodeEnvelope_spec ms { Typ := none, Sub := none }
  refine ⟨(decodeEnvelope ms { Typ := none, Sub := none }).1, ?_, ?_, ?_⟩
  · simp only [unmarshalEnvelope, h, h1]
  · rw [h2, fieldRawFrom_eq]; rfl
  · rw [h3, fieldRawFrom_eq]; rfl

/-! ### Well-formed database payload objects -/

theorem lastFrom_eq {β : Type} (name : Str) (val : Json → β) (fs : List (Str × Json)) :
    ∀ cur, lastFrom name val fs cur = ((lastMember name fs).map val).getD cur := by
  induction fs with
  | nil => intro cur; rfl
  | cons m ms ih =>
    intro cur
    simp only [lastFrom, ih, lastMember]
    by_cases hm : matchField m.1 name = true
    · simp only [hm, if_true, List.filter_cons_of_pos]
      cases hf : (ms.filter fun m => matchField m.1 name) with
      | nil => simp
      | cons x xs =>
        rw [List.getLast?_cons_cons]
        have : (x :: xs).getLast? = some ((x :: xs).getLast (by simp)) :=
          List.getLast?_eq_getLast _ _
        rw [this]
        simp
    · simp only [hm, if_false, Bool.false_eq_true]
      rw [List.filter_cons_of_neg (by simpa using hm)]

theorem matchField_fold (k a : Str) (ha : a.map foldChar = a) (h : matchField k a = true) :
    k.map foldChar = a := by
  simp only [matchField, Bool.or_eq_true, decide_eq_true_eq] at h
  rcases h with h | h
  · rw [h]; exact ha
  · exact h

theorem matchField_exclusive (k a b : Str) (ha : a.map foldChar = a) (hb : b.map foldChar = b)
    (hab : a ≠ b) (h : matchField k a = true) : matchField k b = false := by
  cases hkb : matchField k b with
  | false => rfl
  | true =>
    exact absurd ((matchField_fold k a ha h).symm.trans (matchField_fold k b hb hkb)) hab

theorem jsonStrings_all (es : List Json) (h : es.all Json.isString = true) :
    es = (jsonStrings es).map Json.str := by
  induction es with
  | nil => rfl
  | cons e es ih =>
    simp only [List.all_cons, Bool.and_eq_true] at h
    cases e with
    | str s =>
      simp only [jsonStrings, List.map_cons]
      rw [← ih h.2]
    | null => simp [Json.isString] at h
    | bool b => simp [Json.isString] at h
    | num l => simp [Json.isString] at h
    | arr l => simp [Json.isString] at h
    | obj l => simp [Json.isString] at h

/-- Reading the members of a well-formed database payload object raises no
error and leaves each field with the value of the last member that selects
it. -/
theorem decodeFields_database (fs : List (Str × Json)) (h : specDatabaseObject fs = true) :
    ∀ (p : databaseSub) (spare : List Str), ∃ sp,
      decodeFields databaseSub.setField fs (p, spare)
        = (({ ConnID := lastFrom "conn_id".toList Json.uintValue fs p.ConnID,
              Atomic := lastFrom "atomic".toList Json.boolValue fs p.Atomic,
              Queries := lastFrom "queries".toList Json.stringsValue fs p.Queries,
              Timings := lastFrom "timings".toList Json.boolValue fs p.Timings }, sp), none) := by
  induction fs with
  | nil => intro p spare; exact ⟨spare, rfl⟩
  | cons m ms ih =>
    intro p spare
    obtain ⟨k, v⟩ := m
    simp only [specDatabaseObject, List.all_cons, Bool.and_eq_true] at h
    obtain ⟨hm, hms⟩ := h
    have ih' := ih hms
    by_cases h1 : matchField k "conn_id".toList = true
    · have h2 := matchField_exclusive k _ "atomic".toList (by decide) (by decide) (by decide) h1
      have h3 := matchField_exclusive k _ "queries".toList (by decide) (by decide) (by decide) h1
      have h4 := matchField_exclusive k _ "timings".toList (by decide) (by decide) (by decide) h1
      simp only [specDatabaseMember, h1, if_true] at hm
      cases v with
      | num lit =>
        simp only [Option.isSome_iff_exists] at hm
        obtain ⟨n, hn⟩ := hm
        obtain ⟨sp, hsp⟩ := ih' { p with ConnID := n } spare
        refine ⟨sp, ?_⟩
        simp only [decodeFields, databaseSub.setField, h1, if_true, decodeUint, hn, hsp, saveError,
          lastFrom, h2, h3, h4, Json.uintValue, Option.getD_some, Bool.false_eq_true, if_false]
      | null => simp at hm
      | bool b => simp at hm
      | str s => simp at hm
      | arr l => simp at hm
      | obj l => simp at hm
    · by_cases h2 : matchField k "atomic".toList = true
      · have h3 := matchField_exclusive k _ "queries".toList (by decide) (by decide) (by decide) h2
        have h4 := matchField_exclusive k _ "timings".toList (by decide) (by decide) (by decide) h2
        simp only [specDatabaseMember, h1, h2, if_true, if_false] at hm
        cases v with
        | bool b =>
          obtain ⟨sp, hsp⟩ := ih' { p with Atomic := b } spare
          refine ⟨sp, ?_⟩
          simp only [decodeFields, databaseSub.setField, h1, h2, if_true, decodeBool, hsp, saveError,
            lastFrom, h3, h4, Json.boolValue, Bool.false_eq_true, if_false]
        | null => simp at hm
        | num l => simp at hm
        | str s => simp at hm
        | arr l => simp at hm
        | obj l => simp at hm
      · by_cases h3 : matchField k "queries".toList = true
        · have h4 := matchField_exclusive k _ "timings".toList (by decide) (by decide) (by decide) h3
          simp only [specDatabaseMember, h1, h2, h3, if_true, if_false] at hm
          cases v with
          | arr es =>
            simp only at hm
            have hes := jsonStrings_all es hm
            have hq := decodeQueries_str (jsonStrings es) p.Queries spare
            rw [← hes] at hq
            obtain ⟨sp, hsp⟩ := ih' { p with Queries := some (some (jsonStrings es)) }
              (decodeQueries (Json.arr es) p.Queries spare).1.2
            refine ⟨sp, ?_⟩
            simp only [decodeFields, databaseSub.setField, h1, h2, h3, if_true, hq.1, hq.2, hsp,
              saveError, lastFrom, h4, Json.stringsValue, Bool.false_eq_true, if_false]
          | null => simp at hm
          | num l => simp at hm
          | str s => simp at hm
          | bool b => simp at hm
          | obj l => simp at hm
        · by_cases h4 : matchField k "timings".toList = true
          · simp only [specDatabaseMember, h1, h2, h3, h4, if_true, if_false] at hm
            cases v with
            | bool b =>
              obtain ⟨sp, hsp⟩ := ih' { p with Timings := b } spare
              refine ⟨sp, ?_⟩
              simp only [decodeFields, databaseSub.setField, h1, h2, h3, h4, if_true, decodeBool,
                hsp, saveError, lastFrom, Json.boolValue, Bool.false_eq_true, if_false]
            | null => simp at hm
            | num l => simp at hm
            | str s => simp at hm
            | arr l => simp at hm
            | obj l => simp at hm
          · obtain ⟨sp, hsp⟩ := ih' p spare
            refine ⟨sp, ?_⟩
            simp only [decodeFields, databaseSub.setField, h1, h2, h3, h4, hsp, saveError, lastFrom,
              Bool.false_eq_true, if_false]

/-- Reading the members of a well-formed database payload object into a
fresh `databaseSub` gives the payload that the object spells. -/
theorem decodeFields_specDatabase (fs : List (Str × Json)) (h : specDatabaseObject fs = true) :
    ∃ sp, decodeFields databaseSub.setField fs
        ({ ConnID := 0, Atomic := false, Queries := none, Timings := false }, [])
      = ((specDatabasePayload fs, sp), none) := by
  obtain ⟨sp, hsp⟩ := decodeFields_database fs h
    { ConnID := 0, Atomic := false, Queries := none, Timings := false } []
  refine ⟨sp, ?_⟩
  rw [hsp]
  simp only [lastFrom_eq, specDatabasePayload]

/-! ### The cases of the encoder and of the decoder -/

theorem knownTag_cases (t : commandType) (h : knownTag t) :
    t = execute ∨ t = query ∨ t = metadataSet ∨ t = metadataDelete ∨ t = connect ∨
      t = disconnect := by
  have key : ∀ i : Int, 0 ≤ i → i ≤ 5 → i = 0 ∨ i = 1 ∨ i = 2 ∨ i = 3 ∨ i = 4 ∨ i = 5 := by
    intro i h0 h5; omega
  exact key t h.1 h.2

theorem tagImplies_known (t : commandType) (d : Payload) (h : tagImplies t d) : knownTag t := by
  unfold knownTag
  cases d <;> simp only [tagImplies] at h
  · rcases h with rfl | rfl <;> simp [execute, query]
  · subst h; simp [metadataSet]
  · subst h; simp [metadataDelete]
  · rcases h with rfl | rfl <;> simp [connect, disconnect]

theorem MarshalJSON_of_tagImplies (c : command) (h : tagImplies c.Typ c.Sub) :
    ∃ b, command.MarshalJSON c = Encoded.bytes b := by
  obtain ⟨t, d⟩ := c
  cases d <;> simp only [tagImplies] at h
  · rcases h with rfl | rfl <;> exact ⟨_, rfl⟩
  · subst h; exact ⟨_, rfl⟩
  · subst h; exact ⟨_, rfl⟩
  · rcases h with rfl | rfl <;> exact ⟨_, rfl⟩

theorem MarshalJSON_mismatch (c : command) (hk : knownTag c.Typ)
    (h : ¬ tagImplies c.Typ c.Sub) : command.MarshalJSON c = Encoded.panic := by
  obtain ⟨t, d⟩ := c
  rcases knownTag_cases t hk with rfl | rfl | rfl | rfl | rfl | rfl <;>
    cases d <;>
    simp [tagImplies, execute, query, metadataSet, metadataDelete, connect, disconnect] at h <;>
    simp [command.MarshalJSON, execute, query, metadataSet, metadataDelete, connect, disconnect]

theorem MarshalJSON_unknown (c : command) (hk : ¬ knownTag c.Typ) :
    command.MarshalJSON c = Encoded.error Err.unknownType := by
  obtain ⟨t, d⟩ := c
  have h0 : t ≠ execute := by rintro rfl; exact hk (by simp [knownTag, execute])
  have h1 : t ≠ query := by rintro rfl; exact hk (by simp [knownTag, query])
  have h2 : t ≠ metadataSet := by rintro rfl; exact hk (by simp [knownTag, metadataSet])
  have h3 : t ≠ metadataDelete := by rintro rfl; exact hk (by simp [knownTag, metadataDelete])
  have h4 : t ≠ connect := by rintro rfl; exact hk (by simp [knownTag, connect])
  have h5 : t ≠ disconnect := by rintro rfl; exact hk (by simp [knownTag, disconnect])
  simp [command.MarshalJSON, h0, h1, h2, h3, h4, h5]

theorem tagImplies_of_bytes (c : command) (b : Str) (h : command.MarshalJSON c = Encoded.bytes b) :
    tagImplies c.Typ c.Sub := by
  by_cases hk : knownTag c.Typ
  · by_contra hn
    rw [MarshalJSON_mismatch c hk hn] at h
    cases h
  · rw [MarshalJSON_unknown c hk] at h
    cases h

theorem finish_done (t : commandType) (sub : Payload) (e : Option Err) (c1 : command)
    (h : finish t sub e = Decoded.done c1) : c1 = { Typ := t, Sub := sub } := by
  cases e with
  | none => simp only [finish] at h; cases h; rfl
  | some x => simp [finish] at h

theorem UnmarshalJSON_done (r : command) (b : Str) (c1 : command)
    (h : command.UnmarshalJSON r b = Decoded.done c1) : tagImplies c1.Typ c1.Sub := by
  unfold command.UnmarshalJSON at h
  simp only at h
  repeat' split at h
  all_goals first
    | (exact absurd h (by simp))
    | (rw [finish_done _ _ _ _ h]; simp only [tagImplies]; assumption)

theorem tagImplies_shape (t : commandType) (d1 d2 : Payload) (h1 : tagImplies t d1)
    (h2 : tagImplies t d2) : d1.shape = d2.shape := by
  cases d1 <;> cases d2 <;> simp only [tagImplies] at h1 h2 <;> first
    | rfl
    | (exfalso; rcases h1 with rfl | rfl <;> exact absurd h2 (by decide))

/-! ### Claims: round trip, absent payload, totality, default tag -/

/-- C1 (as amended): a command returned by a constructor, whose payload
pointer is not nil and whose payload holds neither an empty map that is not
nil nor a `Queries` pointer to a nil slice, is encoded to bytes without
error, and decoding these bytes into any receiver succeeds and leaves the
receiver equal to the command, tag and payload. -/
theorem roundtrip_constructed (c r : command) (hc : constructed c) (hv : c.Sub.valid)
    (he : c.Sub.exact) :
    ∃ b, command.MarshalJSON c = Encoded.bytes b ∧ command.UnmarshalJSON r b = Decoded.done c := by
  rcases hc with ⟨t, d, hs, rfl⟩ | ⟨id, md, rfl⟩
  · exact roundtrip_newCommand t d r hs hv he
  · exact roundtrip_newCommand metadataSet _ r rfl hv he

/-- C1, an instance of the amended round trip: an `execute` command with
two queries, decoded into a receiver that held a `disconnect` command. -/
theorem roundtrip_constructed_witness :
    constructed ⟨execute, Payload.databasePtr (some ⟨7, true, some (some ["SELECT 1".toList, "a\"<b\n".toList]), false⟩)⟩ ∧
    (Payload.databasePtr (some ⟨7, true, some (some ["SELECT 1".toList, "a\"<b\n".toList]), false⟩)).valid ∧
    (Payload.databasePtr (some ⟨7, true, some (some ["SELECT 1".toList, "a\"<b\n".toList]), false⟩)).exact ∧
    ∃ b, command.MarshalJSON
          ⟨execute, Payload.databasePtr (some ⟨7, true, some (some ["SELECT 1".toList, "a\"<b\n".toList]), false⟩)⟩
        = Encoded.bytes b ∧
      command.UnmarshalJSON ⟨disconnect, Payload.nilValue⟩ b
        = Decoded.done
          ⟨execute, Payload.databasePtr (some ⟨7, true, some (some ["SELECT 1".toList, "a\"<b\n".toList]), false⟩)⟩ :=
  ⟨Or.inl ⟨execute, Payload.databasePtr _, by decide, rfl⟩, by decide, by decide,
    roundtrip_constructed _ _ (Or.inl ⟨execute, Payload.databasePtr _, by decide, rfl⟩)
      (by decide) (by decide)⟩

/-- C1 fails as stated: the command built by `newMetadataSetCommand("node1", {})`
with an empty map that is not nil is encoded without the member `data`, and
the decoder gives back a nil map, which is not deeply equal to the empty map. -/
theorem roundtrip_loses_empty_map :
    command.MarshalJSON (newMetadataSetCommand "node1".toList (some [])).1
      = Encoded.bytes "\x7b\"typ\":2,\"sub\":\x7b\"raft_id\":\"node1\"\x7d\x7d".toList ∧
    command.UnmarshalJSON ⟨execute, Payload.nilValue⟩ "\x7b\"typ\":2,\"sub\":\x7b\"raft_id\":\"node1\"\x7d\x7d".toList
      = Decoded.done ⟨metadataSet, Payload.metadataSetPtr (some ⟨"node1".toList, none⟩)⟩ ∧
    Decoded.done ⟨metadataSet, Payload.metadataSetPtr (some ⟨"node1".toList, none⟩)⟩
      ≠ Decoded.done (newMetadataSetCommand "node1".toList (some [])).1 :=
  ⟨rfl, rfl, by decide⟩

/-- C2 fails on the code: for each of the six tags, decoding an envelope
that carries the tag and no `sub` member panics, whatever the receiver; it
does not return a command with a zero payload. -/
theorem decode_without_sub_panics (c : command) :
    command.UnmarshalJSON c "\x7b\"typ\":0\x7d".toList = Decoded.panic ∧
    command.UnmarshalJSON c "\x7b\"typ\":1\x7d".toList = Decoded.panic ∧
    command.UnmarshalJSON c "\x7b\"typ\":2\x7d".toList = Decoded.panic ∧
    command.UnmarshalJSON c "\x7b\"typ\":3\x7d".toList = Decoded.panic ∧
    command.UnmarshalJSON c "\x7b\"typ\":4\x7d".toList = Decoded.panic ∧
    command.UnmarshalJSON c "\x7b\"typ\":5\x7d".toList = Decoded.panic :=
  ⟨rfl, rfl, rfl, rfl, rfl, rfl⟩

/-- C3 fails on the code: decoding the document `null`, an envelope whose
`sub` is `null`, and an envelope without members panics, whatever the
receiver; none of them ends in a command or in a returned error. -/
theorem decode_null_panics (c : command) :
    command.UnmarshalJSON c "null".toList = Decoded.panic ∧
    command.UnmarshalJSON c "\x7b\"typ\":0,\"sub\":null\x7d".toList = Decoded.panic ∧
    command.UnmarshalJSON c "\x7b\x7d".toList = Decoded.panic :=
  ⟨rfl, rfl, rfl⟩

/-- Without a member that selects `typ`, and with a `sub` that is not
`null`, the decoder takes the `case` of `execute`: the payload text is
decoded into a fresh `databaseSub`. -/
theorem UnmarshalJSON_no_typ (c : command) (b : Str) (ms : List (Str × Str)) (raw : Str)
    (hdoc : scanTop b = some (Top.object ms))
    (htyp : ∀ m ∈ ms, matchField m.1 "typ".toList = false)
    (hsub : fieldRaw "sub".toList ms = some raw) :
    command.UnmarshalJSON c b
      = finish execute
          (Payload.databasePtr (some (jsonUnmarshal (decodeStruct "databaseSub" databaseSub.setField)
            raw ({ ConnID := 0, Atomic := false, Queries := none, Timings := false }, [])).1.1))
          (jsonUnmarshal (decodeStruct "databaseSub" databaseSub.setField)
            raw ({ ConnID := 0, Atomic := false, Queries := none, Timings := false }, [])).2 := by
  obtain ⟨pu, henv, h1, h2⟩ := unmarshalEnvelope_object b ms hdoc
  have hnone : fieldRaw "typ".toList ms = none := by
    have : (ms.filter fun m => matchField m.1 "typ".toList) = [] := by
      rw [List.filter_eq_nil_iff]
      intro m hm
      rw [htyp m hm]
      exact Bool.false_ne_true
    unfold fieldRaw
    rw [this]
    rfl
  rw [hnone] at h1
  rw [hsub] at h2
  obtain ⟨t, s⟩ := pu
  cases t with
  | some x => simp [rawText] at h1
  | none =>
    cases s with
    | none => simp [rawText] at h2
    | some x =>
      simp only [rawText, Option.map_some', Option.some.injEq] at h2
      simp [command.UnmarshalJSON, henv, h2, execute]

/-- C4: when the document is an object without any member that selects
`typ`, and its `sub` is not `null`, the decoder resolves the tag `execute`,
whatever the payload contains.  (1) The call ends, with an error or without,
in a command with the tag `execute` and a `databaseSub` as payload.  (2) When
`sub` is an object whose members decode into a `databaseSub` without error,
decoding succeeds with the tag `execute` and that `databaseSub` as payload.
(3) In particular, when `sub` is a well-formed database payload object, every
member of which has the type of the field it selects, decoding succeeds with
the tag `execute` and the payload that the object spells. -/
theorem default_tag_execute (c : command) (b : Str) (ms : List (Str × Str)) (raw : Str)
    (hdoc : scanTop b = some (Top.object ms))
    (htyp : ∀ m ∈ ms, matchField m.1 "typ".toList = false)
    (hsub : fieldRaw "sub".toList ms = some raw) :
    ((∃ p, command.UnmarshalJSON c b
        = Decoded.done { Typ := execute, Sub := Payload.databasePtr (some p) }) ∨
      (∃ e p, command.UnmarshalJSON c b
        = Decoded.error e { Typ := execute, Sub := Payload.databasePtr (some p) })) ∧
    ∀ fs : List (Str × Json), parseDoc raw = some (Json.obj fs) →
      (∀ (p : databaseSub) (spare : List Str),
        decodeFields databaseSub.setField fs
          ({ ConnID := 0, Atomic := false, Queries := none, Timings := false }, [])
            = ((p, spare), none) →
        command.UnmarshalJSON c b
          = Decoded.done { Typ := execute, Sub := Payload.databasePtr (some p) }) ∧
      (specDatabaseObject fs = true →
        command.UnmarshalJSON c b
          = Decoded.done { Typ := execute,
                           Sub := Payload.databasePtr (some (specDatabasePayload fs)) }) := by
  have hU := UnmarshalJSON_no_typ c b ms raw hdoc htyp hsub
  have hgen : ∀ (fs : List (Str × Json)) (p : databaseSub) (spare : List Str),
      parseDoc raw = some (Json.obj fs) →
      decodeFields databaseSub.setField fs
        ({ ConnID := 0, Atomic := false, Queries := none, Timings := false }, [])
          = ((p, spare), none) →
      command.UnmarshalJSON c b
        = Decoded.done { Typ := execute, Sub := Payload.databasePtr (some p) } := by
    intro fs p spare hobj hdec
    rw [hU]
    simp [jsonUnmarshal, hobj, decodeStruct, hdec, finish]
  refine ⟨?_, fun fs hobj => ⟨fun p spare hdec => hgen fs p spare hobj hdec, fun hwf => ?_⟩⟩
  · rw [hU]
    cases he : (jsonUnmarshal (decodeStruct "databaseSub" databaseSub.setField)
        raw ({ ConnID := 0, Atomic := false, Queries := none, Timings := false }, [])).2 with
    | none => exact Or.inl ⟨_, rfl⟩
    | some e => exact Or.inr ⟨e, _, rfl⟩
  · obtain ⟨sp, hsp⟩ := decodeFields_specDatabase fs hwf
    exact hgen fs _ sp hobj hsp

/-- C4, the instance of the spec: `{"sub":{"queries":["SELECT 1"]}}`, a
well-formed database payload object without `typ`, is decoded to the tag
`execute` with the queries `["SELECT 1"]`, also into a receiver that held the
tag `query`.  A payload object that the decoder accepts although it repeats
`queries` is decoded to `execute` as well:
`{"sub":{"queries":["a","b"],"queries":["c"],"queries":[null,null]}}` gives
the queries `["c","b"]`, the second of which the third array exposes again
from the spare capacity of the slice. -/
theorem default_tag_execute_witness :
    command.UnmarshalJSON ⟨query, Payload.nilValue⟩ "\x7b\"sub\":\x7b\"queries\":[\"SELECT 1\"]\x7d\x7d".toList
        = Decoded.done ⟨execute, Payload.databasePtr
            (some ⟨0, false, some (some ["SELECT 1".toList]), false⟩)⟩ ∧
      command.UnmarshalJSON ⟨query, Payload.nilValue⟩ "\x7b\"sub\":\x7b\"queries\":[\"a\",\"b\"],\"queries\":[\"c\"],\"queries\":[null,null]\x7d\x7d".toList
        = Decoded.done ⟨execute, Payload.databasePtr
            (some ⟨0, false, some (some ["c".toList, "b".toList]), false⟩)⟩ :=
  ⟨((default_tag_execute ⟨query, Payload.nilValue⟩ "\x7b\"sub\":\x7b\"queries\":[\"SELECT 1\"]\x7d\x7d".toList
      [("sub".toList, "\x7b\"queries\":[\"SELECT 1\"]\x7d".toList)] "\x7b\"queries\":[\"SELECT 1\"]\x7d".toList rfl (by decide) rfl).2
      [("queries".toList, Json.arr [Json.str "SELECT 1".toList])] rfl).2 rfl,
    ((default_tag_execute ⟨query, Payload.nilValue⟩ "\x7b\"sub\":\x7b\"queries\":[\"a\",\"b\"],\"queries\":[\"c\"],\"queries\":[null,null]\x7d\x7d".toList
      [("sub".toList, "\x7b\"queries\":[\"a\",\"b\"],\"queries\":[\"c\"],\"queries\":[null,null]\x7d".toList)] "\x7b\"queries\":[\"a\",\"b\"],\"queries\":[\"c\"],\"queries\":[null,null]\x7d".toList rfl (by decide) rfl).2
      [("queries".toList, Json.arr [Json.str "a".toList, Json.str "b".toList]),
       ("queries".toList, Json.arr [Json.str "c".toList]),
       ("queries".toList, Json.arr [Json.null, Json.null])] rfl).1
      ⟨0, false, some (some ["c".toList, "b".toList]), false⟩ [] rfl⟩

/-! ### Claims: unknown tag, payload schema -/

theorem parseInt_encodeInt_overflow (n : Int) (h : n < -(2 ^ 63) ∨ 2 ^ 63 ≤ n) :
    parseInt (encodeInt n) = none := by
  unfold encodeInt
  split_ifs with hneg
  · obtain ⟨c, ds, h1, hc, _, hds, hv⟩ := encodeUint_spec n.natAbs
    rw [h1]
    simp only [parseInt, ↓reduceIte]
    rw [if_neg]
    rw [hv]
    intro hcon
    have := hcon.2.2
    omega
  · obtain ⟨c, ds, h1, hc, _, hds, hv⟩ := encodeUint_spec n.toNat
    rw [h1]
    have hm : c ≠ '-' := by rintro rfl; revert hc; decide
    have hp : c ≠ '+' := by rintro rfl; revert hc; decide
    simp only [parseInt, if_neg hm, if_neg hp]
    rw [if_neg]
    rw [hv]
    intro hcon
    have := hcon.2
    omega

theorem rawText_some (p : Option rawMessage) (raw : Str) (h : rawText p = some raw) :
    ∃ x, p = some x ∧ x.getD [] = raw := by
  cases p with
  | none => simp [rawText] at h
  | some x => exact ⟨x, rfl, by simpa [rawText] using h⟩

/-- C5 (as amended): when the envelope's `typ` is the decimal numeral of an
integer `n` outside `0..5`, decoding returns an error and leaves the
receiver's payload as it was, whatever `sub` holds and whether or not it is
present: the unknown-type error, with the receiver's tag set to `n`, when
`n` fits an `int64`, and a number conversion error, with the receiver
untouched, when it does not. -/
theorem unknown_tag_error (c : command) (b : Str) (ms : List (Str × Str)) (n : Int)
    (hdoc : scanTop b = some (Top.object ms))
    (htyp : fieldRaw "typ".toList ms = some (encodeInt n))
    (hout : n < 0 ∨ 5 < n) :
    command.UnmarshalJSON c b
      = if -(2 ^ 63) ≤ n ∧ n < 2 ^ 63 then Decoded.error Err.unknownType { Typ := n, Sub := c.Sub }
        else Decoded.error (Err.unmarshalType "number" "int64") c := by
  obtain ⟨pu, henv, h1, _⟩ := unmarshalEnvelope_object b ms hdoc
  rw [htyp] at h1
  obtain ⟨x, hx, hget⟩ := rawText_some _ _ h1
  have hju := jsonUnmarshal_renders decodeInt _ _ 0 (renders_int n)
    (by simp [maxNestingDepth]) c.Typ
  split_ifs with hr
  · have h0 : n ≠ execute := by unfold execute; omega
    have h1 : n ≠ query := by unfold query; omega
    have h2 : n ≠ metadataSet := by unfold metadataSet; omega
    have h3 : n ≠ metadataDelete := by unfold metadataDelete; omega
    have h4 : n ≠ connect := by unfold connect; omega
    have h5 : n ≠ disconnect := by unfold disconnect; omega
    simp [command.UnmarshalJSON, henv, hx, hget, hju, decodeInt_encode n c.Typ hr.1 hr.2,
      h0, h1, h2, h3, h4, h5]
  · have hov : parseInt (encodeInt n) = none := parseInt_encodeInt_overflow n (by omega)
    simp [command.UnmarshalJSON, henv, hx, hget, hju, decodeInt, hov]

/-- C5, an instance of the amended claim: `{"typ":-1}`, where no `sub` is
present, is refused with the unknown-type error. -/
theorem unknown_tag_error_witness :
    command.UnmarshalJSON ⟨query, Payload.stringPtr (some "x".toList)⟩ "\x7b\"typ\":-1\x7d".toList
      = Decoded.error Err.unknownType ⟨-1, Payload.stringPtr (some "x".toList)⟩ :=
  (unknown_tag_error ⟨query, Payload.stringPtr (some "x".toList)⟩ "\x7b\"typ\":-1\x7d".toList
    [("typ".toList, "-1".toList)] (-1) rfl (by decide) (Or.inl (by decide))).trans
    (if_pos ⟨by norm_num, by norm_num⟩)

/-- C5 fails as stated: `{"typ":9223372036854775808,"sub":{}}` has an
integer tag greater than 5, and decoding returns a number conversion error,
not the unknown-type error. -/
theorem unknown_tag_overflow :
    command.UnmarshalJSON ⟨execute, Payload.nilValue⟩ "\x7b\"typ\":9223372036854775808,\"sub\":\x7b\x7d\x7d".toList
      = Decoded.error (Err.unmarshalType "number" "int64") ⟨execute, Payload.nilValue⟩ ∧
    Err.unmarshalType "number" "int64" ≠ Err.unknownType :=
  ⟨rfl, by decide⟩

/-- C6: when the envelope's `typ` is `3` and its `sub` is present, decoding
succeeds with exactly the string as payload when `sub` is a JSON string, and
returns an error when `sub` is a JSON object, array, number or boolean. -/
theorem metadataDelete_payload (c : command) (b : Str) (ms : List (Str × Str)) (raw : Str)
    (j : Json)
    (hdoc : scanTop b = some (Top.object ms))
    (htyp : fieldRaw "typ".toList ms = some ['3'])
    (hsub : fieldRaw "sub".toList ms = some raw)
    (hval : parseDoc raw = some j) :
    (∀ s, j = Json.str s →
      command.UnmarshalJSON c b
        = Decoded.done { Typ := metadataDelete, Sub := Payload.stringPtr (some s) }) ∧
    ((∃ x, j = Json.obj x) ∨ (∃ x, j = Json.arr x) ∨ (∃ x, j = Json.num x) ∨
        (∃ x, j = Json.bool x) →
      command.UnmarshalJSON c b
        = Decoded.error (Err.unmarshalType j.kind "string")
            { Typ := metadataDelete, Sub := Payload.stringPtr (some []) }) := by
  obtain ⟨pu, henv, h1, h2⟩ := unmarshalEnvelope_object b ms hdoc
  rw [htyp] at h1
  rw [hsub] at h2
  obtain ⟨x, hx, hget⟩ := rawText_some _ _ h1
  obtain ⟨y, hy, hgety⟩ := rawText_some _ _ h2
  have ht : jsonUnmarshal decodeInt ['3'] c.Typ = (metadataDelete, none) := rfl
  have hbase : command.UnmarshalJSON c b
      = finish metadataDelete (Payload.stringPtr (some (decodeString j []).1))
          (decodeString j []).2 := by
    simp only [command.UnmarshalJSON, henv, hx, hget, hy, hgety, ht]
    simp [jsonUnmarshal, hval, execute, query, metadataSet, metadataDelete]
  refine ⟨?_, ?_⟩
  · rintro s rfl
    rw [hbase]; rfl
  · rintro (⟨x, rfl⟩ | ⟨x, rfl⟩ | ⟨x, rfl⟩ | ⟨x, rfl⟩) <;> (rw [hbase]; rfl)

/-- C6, the instance of the spec: `{"typ":3,"sub":{"not":"a string"}}`
is refused with an error. -/
theorem metadataDelete_payload_witness :
    command.UnmarshalJSON ⟨execute, Payload.nilValue⟩ "\x7b\"typ\":3,\"sub\":\x7b\"not\":\"a string\"\x7d\x7d".toList
      = Decoded.error (Err.unmarshalType "object" "string")
          ⟨metadataDelete, Payload.stringPtr (some [])⟩ :=
  (metadataDelete_payload ⟨execute, Payload.nilValue⟩ "\x7b\"typ\":3,\"sub\":\x7b\"not\":\"a string\"\x7d\x7d".toList
    [("typ".toList, "3".toList), ("sub".toList, "\x7b\"not\":\"a string\"\x7d".toList)] "\x7b\"not\":\"a string\"\x7d".toList
    (Json.obj [("not".toList, Json.str "a string".toList)]) rfl rfl rfl rfl).2
    (Or.inl ⟨_, rfl⟩)

/-! ### Claims: mismatch, constructors, tag-to-schema mapping -/

/-- C7 (as amended): for every command whose tag is one of the six known
tags and whose payload is not of the type that tag implies, including the
payload that is no value at all, `command.MarshalJSON` emits no bytes and
returns no error: its type assertion panics. -/
theorem marshal_mismatch_panics (c : command) (hk : knownTag c.Typ)
    (hm : ¬ tagImplies c.Typ c.Sub) : command.MarshalJSON c = Encoded.panic :=
  MarshalJSON_mismatch c hk hm

/-- C7, an instance of the amended claim: the tag `execute` with a string
payload. -/
theorem marshal_mismatch_panics_witness :
    command.MarshalJSON ⟨execute, Payload.stringPtr (some "x".toList)⟩ = Encoded.panic :=
  marshal_mismatch_panics ⟨execute, Payload.stringPtr (some "x".toList)⟩
    (by decide) (by decide)

/-- C7 fails as stated: for the tag `metadataSet` with a `databaseSub`
payload, and for the tag `connect` with no payload value, the encoder
panics; it does not return an error. -/
theorem marshal_mismatch_not_error :
    command.MarshalJSON ⟨metadataSet, Payload.databasePtr (some ⟨0, false, none, false⟩)⟩
      = Encoded.panic ∧
    command.MarshalJSON ⟨connect, Payload.nilValue⟩ = Encoded.panic ∧
    ¬ ∃ e, command.MarshalJSON ⟨metadataSet, Payload.databasePtr (some ⟨0, false, none, false⟩)⟩
      = Encoded.error e :=
  ⟨rfl, rfl, fun ⟨_, h⟩ => Encoded.noConfusion h⟩

/-- C8 (as amended): `newMetadataSetCommand` returns no error and a command
whose payload is of the type its tag implies; `newCommand` returns its two
arguments unchanged as tag and payload, with no error, so that for a known
tag its result has a payload of the implied type, and is encoded without a
panic, exactly when the payload argument already has that type. -/
theorem constructors_shape :
    (∀ id md, (newMetadataSetCommand id md).2 = none ∧
      tagImplies (newMetadataSetCommand id md).1.Typ (newMetadataSetCommand id md).1.Sub) ∧
    (∀ t d, newCommand t d = ({ Typ := t, Sub := d }, none)) ∧
    (∀ t d, knownTag t →
      (tagImplies t d ↔ command.MarshalJSON (newCommand t d).1 ≠ Encoded.panic)) := by
  refine ⟨fun id md => ⟨rfl, rfl⟩, fun t d => rfl, fun t d hk => ⟨fun h => ?_, fun h => ?_⟩⟩
  · obtain ⟨b, hb⟩ := MarshalJSON_of_tagImplies (newCommand t d).1 h
    rw [hb]
    exact fun hcon => Encoded.noConfusion hcon
  · by_contra hn
    exact h (MarshalJSON_mismatch (newCommand t d).1 hk hn)

/-- C8 fails as stated: `newCommand(execute, s)` for a string pointer `s`
returns a command whose payload is not of the type the tag `execute`
implies, and encoding that command panics. -/
theorem newCommand_keeps_mismatch :
    (newCommand execute (Payload.stringPtr (some "x".toList))).2 = none ∧
    ¬ tagImplies (newCommand execute (Payload.stringPtr (some "x".toList))).1.Typ
        (newCommand execute (Payload.stringPtr (some "x".toList))).1.Sub ∧
    command.MarshalJSON (newCommand execute (Payload.stringPtr (some "x".toList))).1
      = Encoded.panic :=
  ⟨rfl, by decide, rfl⟩

/-- C9: the tags that `command.MarshalJSON` can encode are exactly the
six known tags, the tags that `command.UnmarshalJSON` can return a command
for are exactly the same six, and whenever the encoder accepts a payload for
a tag and the decoder returns a command with that tag, the two payloads have
the same dynamic type. -/
theorem same_tag_schema :
    (∀ t, (∃ d b, command.MarshalJSON { Typ := t, Sub := d } = Encoded.bytes b) ↔ knownTag t) ∧
    (∀ t, (∃ r b c1, command.UnmarshalJSON r b = Decoded.done c1 ∧ c1.Typ = t) ↔ knownTag t) ∧
    (∀ t d b r b1 c1, command.MarshalJSON { Typ := t, Sub := d } = Encoded.bytes b →
      command.UnmarshalJSON r b1 = Decoded.done c1 → c1.Typ = t → c1.Sub.shape = d.shape) := by
  refine ⟨fun t => ⟨?_, fun hk => ?_⟩, fun t => ⟨?_, fun hk => ?_⟩, ?_⟩
  · rintro ⟨d, b, h⟩
    exact tagImplies_known t d (tagImplies_of_bytes _ b h)
  · rcases knownTag_cases t hk with rfl | rfl | rfl | rfl | rfl | rfl
    · exact ⟨Payload.databasePtr none, _, rfl⟩
    · exact ⟨Payload.databasePtr none, _, rfl⟩
    · exact ⟨Payload.metadataSetPtr none, _, rfl⟩
    · exact ⟨Payload.stringPtr none, _, rfl⟩
    · exact ⟨Payload.connectionPtr none, _, rfl⟩
    · exact ⟨Payload.connectionPtr none, _, rfl⟩
  · rintro ⟨r, b, c1, h, rfl⟩
    exact tagImplies_known _ _ (UnmarshalJSON_done r b c1 h)
  · have r0 : command := ⟨execute, Payload.nilValue⟩
    rcases knownTag_cases t hk with rfl | rfl | rfl | rfl | rfl | rfl
    · exact ⟨r0, "\x7b\"typ\":0,\"sub\":\x7b\x7d\x7d".toList, _, rfl, rfl⟩
    · exact ⟨r0, "\x7b\"typ\":1,\"sub\":\x7b\x7d\x7d".toList, _, rfl, rfl⟩
    · exact ⟨r0, "\x7b\"typ\":2,\"sub\":\x7b\x7d\x7d".toList, _, rfl, rfl⟩
    · exact ⟨r0, "\x7b\"typ\":3,\"sub\":\"\"\x7d".toList, _, rfl, rfl⟩
    · exact ⟨r0, "\x7b\"typ\":4,\"sub\":\x7b\x7d\x7d".toList, _, rfl, rfl⟩
    · exact ⟨r0, "\x7b\"typ\":5,\"sub\":\x7b\x7d\x7d".toList, _, rfl, rfl⟩
  · intro t d b r b1 c1 hm hu ht
    have h1 := tagImplies_of_bytes _ b hm
    have h2 := UnmarshalJSON_done r b1 c1 hu
    rw [ht] at h2
    exact tagImplies_shape t _ _ h2 h1

/-! ### The envelope of any encoded command -/

theorem renders_envelope {α : Type} (enc : α → Str) (jp : α → Json) (dep : Nat)
    (hR : ∀ p, Renders (enc p) (jp p) dep) (t : commandType) (sub : Option α) :
    Renders (encodeEnvelope enc t sub)
      (Json.obj (("typ".toList, Json.num (encodeInt t)) ::
        (match sub with
          | none => []
          | some p => [("sub".toList, jp p)]))) (dep + 1) := by
  cases sub with
  | none =>
    have h := renders_fields
      [optField "typ" false (encodeInt t) (Json.num (encodeInt t)),
       optField "sub" true "null".toList Json.null] dep (by
        intro m hm
        simp only [List.mem_cons, List.mem_singleton, List.not_mem_nil, or_false, optField] at hm
        rcases hm with h | h
        · simp only [Bool.false_eq_true, if_false, Option.some.injEq] at h
          subst h
          exact renders_mono _ _ 0 dep (by omega) (renders_int t)
        · simp at h)
    exact h
  | some p =>
    have h := renders_fields
      [optField "typ" false (encodeInt t) (Json.num (encodeInt t)),
       optField "sub" false (enc p) (jp p)] dep (by
        intro m hm
        simp only [List.mem_cons, List.mem_singleton, List.not_mem_nil, or_false, optField] at hm
        rcases hm with h | h
        · simp only [Bool.false_eq_true, if_false, Option.some.injEq] at h
          subst h
          exact renders_mono _ _ 0 dep (by omega) (renders_int t)
        · simp only [Bool.false_eq_true, if_false, Option.some.injEq] at h
          subst h
          exact hR p)
    exact h

theorem MarshalJSON_bytes_cases (c : command) (b : Str)
    (h : command.MarshalJSON c = Encoded.bytes b) :
    (∃ p, b = encodeEnvelope encodeDatabaseSub c.Typ p) ∨
    (∃ p, b = encodeEnvelope encodeMetadataSetSub c.Typ p) ∨
    (∃ p, b = encodeEnvelope encodeString c.Typ p) ∨
    (∃ p, b = encodeEnvelope encodeConnectionSub c.Typ p) := by
  obtain ⟨t, d⟩ := c
  unfold command.MarshalJSON at h
  split_ifs at h <;> cases d <;> simp only [Encoded.bytes.injEq] at h <;>
    first
      | exact Or.inl ⟨_, h.symm⟩
      | exact Or.inr (Or.inl ⟨_, h.symm⟩)
      | exact Or.inr (Or.inr (Or.inl ⟨_, h.symm⟩))
      | exact Or.inr (Or.inr (Or.inr ⟨_, h.symm⟩))
      | exact absurd h (by simp)

/-! ### Claims: tags written, constructor result, unknown tags, raw messages -/

theorem parseDoc_envelope (c : command) (b : Str)
    (h : command.MarshalJSON c = Encoded.bytes b) :
    ∃ members, parseDoc b
      = some (Json.obj (("typ".toList, Json.num (encodeInt c.Typ)) :: members)) := by
  have hmax : ∀ n, n ≤ 3 → n ≤ maxNestingDepth := by
    intro n hn; simp only [maxNestingDepth]; omega
  rcases MarshalJSON_bytes_cases c b h with ⟨p, rfl⟩ | ⟨p, rfl⟩ | ⟨p, rfl⟩ | ⟨p, rfl⟩
  · exact ⟨_, parseDoc_renders _ _ _
      (renders_envelope encodeDatabaseSub _ 2 renders_databaseSub c.Typ p) (hmax _ (by omega))⟩
  · exact ⟨_, parseDoc_renders _ _ _
      (renders_envelope encodeMetadataSetSub _ 2 renders_metadataSetSub c.Typ p)
      (hmax _ (by omega))⟩
  · exact ⟨_, parseDoc_renders _ _ _
      (renders_envelope encodeString _ 0 renders_string c.Typ p) (hmax _ (by omega))⟩
  · exact ⟨_, parseDoc_renders _ _ _
      (renders_envelope encodeConnectionSub _ 1 renders_connectionSub c.Typ p)
      (hmax _ (by omega))⟩

/-- C11: the six tags have the values 0 to 5, and whenever
`command.MarshalJSON` returns bytes, they are a JSON object whose first
member is `typ` with the decimal numeral of the command's tag, which reads
back as that tag; for `execute` the member is written as `"typ":0`, not
left out. -/
theorem tag_always_written :
    (execute = 0 ∧ query = 1 ∧ metadataSet = 2 ∧ metadataDelete = 3 ∧ connect = 4 ∧
      disconnect = 5) ∧
    (∀ c b, command.MarshalJSON c = Encoded.bytes b →
      (∃ members, parseDoc b
        = some (Json.obj (("typ".toList, Json.num (encodeInt c.Typ)) :: members))) ∧
      parseInt (encodeInt c.Typ) = some c.Typ) ∧
    command.MarshalJSON ⟨execute, Payload.databasePtr none⟩ = Encoded.bytes "\x7b\"typ\":0\x7d".toList ∧
    command.MarshalJSON ⟨execute, Payload.databasePtr (some ⟨0, false, none, false⟩)⟩
      = Encoded.bytes "\x7b\"typ\":0,\"sub\":\x7b\x7d\x7d".toList := by
  refine ⟨⟨rfl, rfl, rfl, rfl, rfl, rfl⟩, fun c b h => ⟨parseDoc_envelope c b h, ?_⟩, rfl, rfl⟩
  have hk := tagImplies_known _ _ (tagImplies_of_bytes c b h)
  have key : ∀ i : Int, 0 ≤ i → i ≤ 5 → -(2 ^ 63) ≤ i ∧ i < 2 ^ 63 := by
    intro i h0 h5
    constructor <;> omega
  exact parseInt_encodeInt c.Typ (key _ hk.1 hk.2).1 (key _ hk.1 hk.2).2

/-- C15: `newMetadataSetCommand(id, md)` returns no error, and its command
has the tag `metadataSet` and as payload a `metadataSetSub` with `RaftID`
equal to `id` and `Data` equal to `md`, for every string and every map, the
empty map and the nil map included. -/
theorem newMetadataSetCommand_result (id : Str) (md : Option (List (Str × Str))) :
    (newMetadataSetCommand id md).2 = none ∧
    (newMetadataSetCommand id md).1.Typ = metadataSet ∧
    (newMetadataSetCommand id md).1.Sub
      = Payload.metadataSetPtr (some { RaftID := id, Data := md }) :=
  ⟨rfl, rfl, rfl⟩

/-- C17: for a tag outside `0..5` the encoder returns the unknown-type
error and no bytes, the same for every payload; for a tag in `0..5` with a
payload of the type the tag implies it returns bytes and no error. -/
theorem marshal_unknown_tag :
    (∀ c, ¬ knownTag c.Typ → command.MarshalJSON c = Encoded.error Err.unknownType) ∧
    (∀ t d1 d2, ¬ knownTag t →
      command.MarshalJSON { Typ := t, Sub := d1 } = command.MarshalJSON { Typ := t, Sub := d2 }) ∧
    (∀ c, knownTag c.Typ → tagImplies c.Typ c.Sub →
      ∃ b, command.MarshalJSON c = Encoded.bytes b) := by
  refine ⟨MarshalJSON_unknown, fun t d1 d2 hk => ?_, fun c _ h => MarshalJSON_of_tagImplies c h⟩
  rw [MarshalJSON_unknown ⟨t, d1⟩ hk, MarshalJSON_unknown ⟨t, d2⟩ hk]

/-- C18: `rawMessage.MarshalJSON` returns no error; for the nil message it
returns the four bytes `null` and otherwise the message's bytes; and for
data that is not empty, `UnmarshalJSON(data)` on a pointer to a fresh (nil)
`rawMessage` followed by `MarshalJSON` returns exactly the data. -/
theorem rawMessage_marshal :
    (∀ m, (rawMessage.MarshalJSON m).2 = none) ∧
    rawMessage.MarshalJSON none = ("null".toList, none) ∧
    (∀ b, rawMessage.MarshalJSON (some b) = (b, none)) ∧
    (∀ data, data ≠ [] →
      ∃ m, rawMessage.UnmarshalJSON (some none) data = (some m, none) ∧
        rawMessage.MarshalJSON m = (data, none)) := by
  refine ⟨fun m => ?_, rfl, fun b => rfl, fun data hd => ⟨some data, ?_, rfl⟩⟩
  · cases m <;> rfl
  · simp [rawMessage.UnmarshalJSON, appendReset, hd]

/-! ### Claim: omitted fields -/

theorem databaseSub_keys (p : databaseSub) :
    ("conn_id".toList ∈ (p.fields.reduceOption.map fun m => (m.1, m.2.2)).map Prod.fst
      ↔ p.ConnID ≠ 0) ∧
    ("atomic".toList ∈ (p.fields.reduceOption.map fun m => (m.1, m.2.2)).map Prod.fst
      ↔ p.Atomic = true) ∧
    ("queries".toList ∈ (p.fields.reduceOption.map fun m => (m.1, m.2.2)).map Prod.fst
      ↔ p.Queries ≠ none) ∧
    ("timings".toList ∈ (p.fields.reduceOption.map fun m => (m.1, m.2.2)).map Prod.fst
      ↔ p.Timings = true) := by
  obtain ⟨n, a, q, tm⟩ := p
  by_cases hn : n = 0 <;> cases a <;> cases tm <;> cases q <;>
    simp [databaseSub.fields, optField, hn, List.reduceOption]

/-- C12: for an `execute` or `query` command with a `databaseSub` payload
`p`, the encoder returns bytes that are an object with the members `typ`
and `sub`, and the object `sub` has a member `conn_id` exactly when
`p.ConnID` is not 0, `atomic` exactly when `p.Atomic` is true, `queries`
exactly when the pointer `p.Queries` is not nil, and `timings` exactly when
`p.Timings` is true.  For the all-zero payload `sub` is the empty object,
and decoding the bytes gives the all-zero payload back. -/
theorem database_fields_omitted (t : commandType) (p : databaseSub)
    (ht : t = execute ∨ t = query) :
    (∃ fs,
      command.MarshalJSON { Typ := t, Sub := Payload.databasePtr (some p) }
        = Encoded.bytes (encodeEnvelope encodeDatabaseSub t (some p)) ∧
      parseDoc (encodeEnvelope encodeDatabaseSub t (some p))
        = some (Json.obj [("typ".toList, Json.num (encodeInt t)), ("sub".toList, Json.obj fs)]) ∧
      ("conn_id".toList ∈ fs.map Prod.fst ↔ p.ConnID ≠ 0) ∧
      ("atomic".toList ∈ fs.map Prod.fst ↔ p.Atomic = true) ∧
      ("queries".toList ∈ fs.map Prod.fst ↔ p.Queries ≠ none) ∧
      ("timings".toList ∈ fs.map Prod.fst ↔ p.Timings = true)) ∧
    command.MarshalJSON { Typ := t, Sub := Payload.databasePtr (some ⟨0, false, none, false⟩) }
      = Encoded.bytes ("\x7b\"typ\":".toList ++ encodeInt t ++ ",\"sub\":\x7b\x7d\x7d".toList) ∧
    ∀ r, command.UnmarshalJSON r ("\x7b\"typ\":".toList ++ encodeInt t ++ ",\"sub\":\x7b\x7d\x7d".toList)
      = Decoded.done { Typ := t, Sub := Payload.databasePtr (some ⟨0, false, none, false⟩) } := by
  have hdoc := parseDoc_renders _ _ _
    (renders_envelope encodeDatabaseSub _ 2 renders_databaseSub t (some p))
    (by simp [maxNestingDepth])
  obtain ⟨k1, k2, k3, k4⟩ := databaseSub_keys p
  refine ⟨⟨p.fields.reduceOption.map (fun m : Str × Str × Json => (m.1, m.2.2)), ?_, hdoc,
    k1, k2, k3, k4⟩, ?_, ?_⟩
  · rcases ht with rfl | rfl <;> rfl
  · rcases ht with rfl | rfl <;> rfl
  · rcases ht with rfl | rfl <;> exact fun _ => rfl

/-- C12, an instance: a `query` command with a connection, one query and
timings, and without the atomic flag. -/
theorem database_fields_omitted_witness :
    command.MarshalJSON ⟨query, Payload.databasePtr
        (some ⟨3, false, some (some ["SELECT 1".toList]), true⟩)⟩
      = Encoded.bytes "\x7b\"typ\":1,\"sub\":\x7b\"conn_id\":3,\"queries\":[\"SELECT 1\"],\"timings\":true\x7d\x7d".toList ∧
    command.MarshalJSON ⟨query, Payload.databasePtr (some ⟨0, false, none, false⟩)⟩
      = Encoded.bytes "\x7b\"typ\":1,\"sub\":\x7b\x7d\x7d".toList ∧
    command.UnmarshalJSON ⟨connect, Payload.nilValue⟩ "\x7b\"typ\":1,\"sub\":\x7b\x7d\x7d".toList
      = Decoded.done ⟨query, Payload.databasePtr (some ⟨0, false, none, false⟩)⟩ :=
  ⟨rfl, (database_fields_omitted query ⟨3, false, some (some ["SELECT 1".toList]), true⟩
      (Or.inr rfl)).2.1,
    (database_fields_omitted query ⟨3, false, some (some ["SELECT 1".toList]), true⟩
      (Or.inr rfl)).2.2 ⟨connect, Payload.nilValue⟩⟩

/-! ### Documents that are not objects, and the claim of the malformed envelope -/

theorem parseMembers_rest {α β : Type} (pv : Str → Option (α × Str))
    (pw : Str → Option (β × Str))
    (h : ∀ s, (pw s).map Prod.snd = (pv s).map Prod.snd) :
    ∀ n s, (parseMembers pw n s).map Prod.snd = (parseMembers pv n s).map Prod.snd := by
  intro n
  induction n with
  | zero => intro s; rfl
  | succ n ih =>
    intro s
    cases s with
    | nil => rfl
    | cons q s0 =>
      simp only [parseMembers]
      split_ifs with hq
      · cases parseStrBody s0.length.succ s0 with
        | none => rfl
        | some ks =>
          obtain ⟨k, s1⟩ := ks
          simp only
          cases skipSpace s1 with
          | nil => rfl
          | cons col s2 =>
            simp only
            split_ifs with hcol
            · have hs := h (skipSpace s2)
              cases hv : pv (skipSpace s2) with
              | none =>
                rw [hv] at hs
                cases hw : pw (skipSpace s2) with
                | none => rfl
                | some x => rw [hw] at hs; simp at hs
              | some vr =>
                obtain ⟨v, s3⟩ := vr
                rw [hv] at hs
                cases hw : pw (skipSpace s2) with
                | none => rw [hw] at hs; simp at hs
                | some wr =>
                  obtain ⟨w, s3'⟩ := wr
                  rw [hw] at hs
                  simp only [Option.map_some', Option.some.injEq] at hs
                  subst hs
                  simp only
                  cases skipSpace s3' with
                  | nil => rfl
                  | cons c s4 =>
                    simp only
                    split_ifs with h1 h2
                    · have := ih (skipSpace s4)
                      simp only [Option.map_map] at this ⊢
                      exact this
                    · rfl
                    · rfl
            · rfl
      · rfl

theorem skipValue_rest (f d : Nat) (s : Str) :
    (skipValue f d s).map Prod.snd = (parseValue f d s).map Prod.snd := by
  simp only [skipValue, Option.map_map]
  rfl

theorem parseValue_brace (f d : Nat) (s : Str) (j : Json) (r : Str)
    (h : parseValue (f + 1) d ('{' :: s) = some (j, r)) : ∃ ms, j = Json.obj ms := by
  simp only [parseValue, ↓reduceIte] at h
  split_ifs at h
  split at h
  · split_ifs at h
    · cases h; exact ⟨_, rfl⟩
    · cases hp : parseMembers (parseValue f (d + 1)) f (_ :: _) with
      | none => rw [hp] at h; cases h
      | some x => rw [hp] at h; cases h; exact ⟨_, rfl⟩
  · cases h

theorem scanTop_object_none (b s : Str) (h : skipSpace b = '{' :: s) :
    (parseDoc b = none → scanTop b = none) ∧
    (∀ j, parseDoc b = some j → ∃ ms, j = Json.obj ms) := by
  have hmax : ¬ maxNestingDepth ≤ 0 := by simp [maxNestingDepth]
  constructor
  · intro hp
    simp only [parseDoc, h, Nat.succ_eq_add_one, parseValue, ↓reduceIte, if_neg hmax] at hp
    simp only [scanTop, h, ↓reduceIte]
    cases hs : skipSpace s with
    | nil => rfl
    | cons c1 s1 =>
      rw [hs] at hp
      simp only at hp ⊢
      split_ifs with hc
      · rw [if_pos hc] at hp
        simp only at hp
        split_ifs at hp
      · rfl
      · rw [if_neg hc] at hp
        have hrest := parseMembers_rest (parseValue b.length 1) (skipValue b.length 1)
          (skipValue_rest b.length 1) b.length (c1 :: s1)
        cases hm : parseMembers (parseValue b.length 1) b.length (c1 :: s1) with
        | none =>
          rw [hm] at hrest
          cases hw : parseMembers (skipValue b.length 1) b.length (c1 :: s1) with
          | none => rfl
          | some x => rw [hw] at hrest; simp at hrest
        | some x =>
          rw [hm] at hrest hp
          cases hw : parseMembers (skipValue b.length 1) b.length (c1 :: s1) with
          | none => rfl
          | some y =>
            rw [hw] at hrest
            simp only [Option.map_some', Option.some.injEq] at hrest hp
            simp only
            rw [hrest]
            split_ifs with hr
            · rw [if_pos hr] at hp; cases hp
            · rfl
  · intro j hj
    simp only [parseDoc, h, Nat.succ_eq_add_one] at hj
    cases hp : parseValue (b.length + 1) 0 ('{' :: s) with
    | none => rw [hp] at hj; cases hj
    | some x =>
      obtain ⟨v, r⟩ := x
      rw [hp] at hj
      simp only at hj
      split_ifs at hj
      cases hj
      exact parseValue_brace _ _ _ _ _ hp

theorem scanTop_other (b : Str) (c : Char) (s : Str) (h : skipSpace b = c :: s)
    (hc : c ≠ '{') :
    scanTop b = (parseDoc b).map fun j =>
      match j with
      | Json.null => Top.null
      | w => Top.other w.kind := by
  simp only [scanTop, parseDoc, h, if_neg hc, Nat.succ_eq_add_one]
  cases parseValue (b.length + 1) 0 (c :: s) with
  | none => rfl
  | some x =>
    obtain ⟨v, r⟩ := x
    simp only
    split_ifs <;> rfl

theorem scanTop_malformed (b : Str) (h : parseDoc b = none) : scanTop b = none := by
  cases hs : skipSpace b with
  | nil => simp [scanTop, hs]
  | cons c s =>
    by_cases hc : c = '{'
    · subst hc
      exact (scanTop_object_none b s hs).1 h
    · rw [scanTop_other b c s hs hc, h]; rfl

theorem scanTop_not_object (b : Str) (j : Json) (h : parseDoc b = some j)
    (hobj : ∀ ms, j ≠ Json.obj ms) (hnull : j ≠ Json.null) :
    scanTop b = some (Top.other j.kind) := by
  cases hs : skipSpace b with
  | nil => simp [parseDoc, hs, parseValue] at h
  | cons c s =>
    by_cases hc : c = '{'
    · subst hc
      obtain ⟨ms, hms⟩ := (scanTop_object_none b s hs).2 j h
      exact absurd hms (hobj ms)
    · rw [scanTop_other b c s hs hc, h]
      cases j <;> first | rfl | exact absurd rfl hnull

/-- C14: when the input is not a JSON document, or is a document whose
top-level value is an array, a string, a number or a boolean, decoding
returns an error and leaves the receiver, tag and payload, exactly as it
was. -/
theorem malformed_envelope (c : command) (b : Str)
    (h : parseDoc b = none ∨
      ∃ j, parseDoc b = some j ∧
        ((∃ x, j = Json.arr x) ∨ (∃ x, j = Json.str x) ∨ (∃ x, j = Json.num x) ∨
          ∃ x, j = Json.bool x)) :
    ∃ e, command.UnmarshalJSON c b = Decoded.error e c := by
  rcases h with h | ⟨j, hj, hk⟩
  · exact ⟨Err.malformed, by simp [command.UnmarshalJSON, unmarshalEnvelope, scanTop_malformed b h]⟩
  · have hs := scanTop_not_object b j hj (by
        rcases hk with ⟨x, rfl⟩ | ⟨x, rfl⟩ | ⟨x, rfl⟩ | ⟨x, rfl⟩ <;> intro ms hms <;> cases hms)
      (by rcases hk with ⟨x, rfl⟩ | ⟨x, rfl⟩ | ⟨x, rfl⟩ | ⟨x, rfl⟩ <;> intro hms <;> cases hms)
    exact ⟨Err.unmarshalType j.kind "struct", by
      simp [command.UnmarshalJSON, unmarshalEnvelope, hs]⟩

/-- C14, two instances: a text that is not JSON, and a top-level array,
decoded into a receiver that holds a command. -/
theorem malformed_envelope_witness :
    (∃ e, command.UnmarshalJSON ⟨query, Payload.stringPtr (some "x".toList)⟩ "typ=1".toList
      = Decoded.error e ⟨query, Payload.stringPtr (some "x".toList)⟩) ∧
    (∃ e, command.UnmarshalJSON ⟨query, Payload.stringPtr (some "x".toList)⟩ "[1, 2]".toList
      = Decoded.error e ⟨query, Payload.stringPtr (some "x".toList)⟩) :=
  ⟨malformed_envelope _ _ (Or.inl rfl),
   malformed_envelope _ _ (Or.inr ⟨Json.arr [Json.num ['1'], Json.num ['2']], rfl,
     Or.inl ⟨_, rfl⟩⟩)⟩

/-! ### The receiver does not matter, and its claim -/

theorem skipSpace_tight : ∀ s, startsTight (skipSpace s) := by
  intro s
  induction s with
  | nil => intro c t h; simp [skipSpace] at h
  | cons a s ih =>
    intro c t h
    simp only [skipSpace] at h
    split_ifs at h with ha
    · exact ih c t h
    · cases h
      simpa using ha

theorem skipSpace_of_tight (s : Str) (h : startsTight s) : skipSpace s = s := by
  cases s with
  | nil => rfl
  | cons c t => exact skipSpace_cons c t (h c t rfl)

theorem skipValue_tight (f d : Nat) (s raw r : Str) (h : skipValue f d (skipSpace s) = some (raw, r)) :
    startsTight raw := by
  simp only [skipValue] at h
  cases hp : parseValue f d (skipSpace s) with
  | none => rw [hp] at h; cases h
  | some x =>
    rw [hp] at h
    simp only [Option.map_some', Option.some.injEq, Prod.mk.injEq] at h
    intro c t hc
    rw [← h.1] at hc
    cases hs : skipSpace s with
    | nil => rw [hs] at hc; simp at hc
    | cons a u =>
      rw [hs] at hc
      cases hk : (a :: u).length - x.2.length with
      | zero => rw [hk] at hc; simp at hc
      | succ k =>
        rw [hk] at hc
        simp only [List.take_succ_cons, List.cons.injEq] at hc
        rw [← hc.1]
        exact skipSpace_tight s a u hs

theorem parseMembers_all {α : Type} (pv : Str → Option (α × Str)) (P : α → Prop)
    (h : ∀ s a r, pv (skipSpace s) = some (a, r) → P a) :
    ∀ n s ms r, parseMembers pv n s = some (ms, r) → ∀ m ∈ ms, P m.2 := by
  intro n
  induction n with
  | zero => intro s ms r hp; simp [parseMembers] at hp
  | succ n ih =>
    intro s ms r hp
    cases s with
    | nil => simp [parseMembers] at hp
    | cons q s0 =>
      simp only [parseMembers] at hp
      split_ifs at hp with hq
      cases hk : parseStrBody s0.length.succ s0 with
      | none => rw [hk] at hp; cases hp
      | some ks =>
        obtain ⟨k, s1⟩ := ks
        rw [hk] at hp
        simp only at hp
        cases hs1 : skipSpace s1 with
        | nil => rw [hs1] at hp; cases hp
        | cons col s2 =>
          rw [hs1] at hp
          simp only at hp
          split_ifs at hp with hcol
          cases hv : pv (skipSpace s2) with
          | none => rw [hv] at hp; cases hp
          | some vr =>
            obtain ⟨v, s3⟩ := vr
            rw [hv] at hp
            simp only at hp
            have hPv : P v := h s2 v s3 hv
            cases hs3 : skipSpace s3 with
            | nil => rw [hs3] at hp; cases hp
            | cons c s4 =>
              rw [hs3] at hp
              simp only at hp
              split_ifs at hp with h1 h2
              · cases hrec : parseMembers pv n (skipSpace s4) with
                | none => rw [hrec] at hp; cases hp
                | some x =>
                  rw [hrec] at hp
                  simp only [Option.map_some', Option.some.injEq, Prod.mk.injEq] at hp
                  intro m hm
                  rw [← hp.1] at hm
                  rcases List.mem_cons.1 hm with rfl | hm
                  · exact hPv
                  · exact ih _ _ _ hrec m hm
              · simp only [Option.some.injEq, Prod.mk.injEq] at hp
                intro m hm
                rw [← hp.1] at hm
                simp only [List.mem_singleton] at hm
                subst hm
                exact hPv

theorem scanTop_tight (b : Str) (ms : List (Str × Str)) (h : scanTop b = some (Top.object ms)) :
    ∀ m ∈ ms, startsTight m.2 := by
  simp only [scanTop] at h
  split at h
  · cases h
  · rename_i c s _
    split_ifs at h with hc
    · split at h
      · rename_i c1 s1 _
        split_ifs at h with h1 h2
        · cases h
          intro m hm
          simp at hm
        · split at h
          · rename_i ms1 rest hpm
            split_ifs at h
            cases h
            exact parseMembers_all (skipValue b.length 1) startsTight
              (fun s a r hs => skipValue_tight _ _ s a r hs) _ _ _ _ hpm
          · cases h
      · cases h
    · split at h
      · rename_i v rest _
        split_ifs at h
        simp only [Option.some.injEq] at h
        split at h <;> cases h
      · cases h

theorem fieldRaw_mem (name : Str) (ms : List (Str × Str)) (raw : Str)
    (h : fieldRaw name ms = some raw) :
    (∃ k, (k, raw) ∈ ms) ∧ raw.head? ≠ some 'n' := by
  unfold fieldRaw at h
  split at h
  · cases h
  · rename_i m hm
    split_ifs at h with hn
    cases h
    have hmem : m ∈ ms.filter fun m => matchField m.1 name := List.mem_of_getLast?_eq_some hm
    exact ⟨⟨m.1, (List.mem_filter.1 hmem).1⟩, hn⟩

theorem parseValue_not_null (f d : Nat) (c : Char) (t : Str) (r : Str) (hc : c ≠ 'n') :
    parseValue f d (c :: t) ≠ some (Json.null, r) := by
  intro h
  cases f with
  | zero => simp [parseValue] at h
  | succ f =>
    simp only [parseValue] at h
    split_ifs at h
    · split at h
      · split_ifs at h
        · cases h
        · cases hp : parseMembers (parseValue f (d + 1)) f (_ :: _) with
          | none => rw [hp] at h; cases h
          | some x => rw [hp] at h; cases h
      · cases h
    · split at h
      · split_ifs at h
        · cases h
        · cases hp : parseElems (parseValue f (d + 1)) f (_ :: _) with
          | none => rw [hp] at h; cases h
          | some x => rw [hp] at h; cases h
      · cases h
    · cases hp : parseStrBody t.length.succ t with
      | none => rw [hp] at h; cases h
      | some x => rw [hp] at h; cases h
    · cases hp : stripWord ['r', 'u', 'e'] t with
      | none => rw [hp] at h; cases h
      | some x => rw [hp] at h; cases h
    · cases hp : stripWord ['a', 'l', 's', 'e'] t with
      | none => rw [hp] at h; cases h
      | some x => rw [hp] at h; cases h
    · cases hp : parseNumber (c :: t) with
      | none => rw [hp] at h; cases h
      | some x => rw [hp] at h; cases h

theorem parseDoc_not_null (raw : Str) (ht : startsTight raw) (hn : raw.head? ≠ some 'n') :
    parseDoc raw ≠ some Json.null := by
  intro h
  simp only [parseDoc, skipSpace_of_tight raw ht] at h
  cases raw with
  | nil => simp [parseValue] at h
  | cons c t =>
    have hc : c ≠ 'n' := by
      rintro rfl
      exact hn rfl
    cases hp : parseValue (c :: t).length.succ 0 (c :: t) with
    | none => rw [hp] at h; cases h
    | some x =>
      obtain ⟨v, r⟩ := x
      rw [hp] at h
      simp only at h
      split_ifs at h
      cases h
      exact parseValue_not_null _ _ c t r hc hp

theorem decodeInt_independent (j : Json) (hj : j ≠ Json.null) (old1 old2 : Int) :
    (∃ n, decodeInt j old1 = (n, none) ∧ decodeInt j old2 = (n, none)) ∨
    (∃ e, decodeInt j old1 = (old1, some e) ∧ decodeInt j old2 = (old2, some e)) := by
  cases j with
  | null => exact absurd rfl hj
  | num lit =>
    cases hp : parseInt lit with
    | none =>
      exact Or.inr ⟨Err.unmarshalType "number" "int64", by simp [decodeInt, hp],
        by simp [decodeInt, hp]⟩
    | some n => exact Or.inl ⟨n, by simp [decodeInt, hp], by simp [decodeInt, hp]⟩
  | bool b => exact Or.inr ⟨_, rfl, rfl⟩
  | str s => exact Or.inr ⟨_, rfl, rfl⟩
  | arr es => exact Or.inr ⟨_, rfl, rfl⟩
  | obj ms => exact Or.inr ⟨_, rfl, rfl⟩

theorem sameOutcome_finish (t : commandType) (sub : Payload) (e : Option Err) :
    sameOutcome (finish t sub e) (finish t sub e) := by
  cases e <;> simp [finish, sameOutcome]

theorem sameOutcome_switch (c1 c2 : command) (t : commandType) (sub : Option rawMessage) :
    sameOutcome
      (if t = execute ∨ t = query then
        match sub with
        | none => Decoded.panic
        | some raw =>
          let d := jsonUnmarshal (decodeStruct "databaseSub" databaseSub.setField) (raw.getD [])
            ({ ConnID := 0, Atomic := false, Queries := none, Timings := false }, [])
          finish t (Payload.databasePtr (some d.1.1)) d.2
      else if t = metadataSet then
        match sub with
        | none => Decoded.panic
        | some raw =>
          let d := jsonUnmarshal (decodeStruct "metadataSetSub" metadataSetSub.setField) (raw.getD [])
            { RaftID := [], Data := none }
          finish t (Payload.metadataSetPtr (some d.1)) d.2
      else if t = metadataDelete then
        match sub with
        | none => Decoded.panic
        | some raw =>
          let d := jsonUnmarshal decodeString (raw.getD []) []
          finish t (Payload.stringPtr (some d.1)) d.2
      else if t = connect ∨ t = disconnect then
        match sub with
        | none => Decoded.panic
        | some raw =>
          let d := jsonUnmarshal (decodeStruct "connectionSub" connectionSub.setField) (raw.getD [])
            { ConnID := 0, IdleTimeout := 0, TxTimeout := 0 }
          finish t (Payload.connectionPtr (some d.1)) d.2
      else Decoded.error Err.unknownType { c1 with Typ := t })
      (if t = execute ∨ t = query then
        match sub with
        | none => Decoded.panic
        | some raw =>
          let d := jsonUnmarshal (decodeStruct "databaseSub" databaseSub.setField) (raw.getD [])
            ({ ConnID := 0, Atomic := false, Queries := none, Timings := false }, [])
          finish t (Payload.databasePtr (some d.1.1)) d.2
      else if t = metadataSet then
        match sub with
        | none => Decoded.panic
        | some raw =>
          let d := jsonUnmarshal (decodeStruct "metadataSetSub" metadataSetSub.setField) (raw.getD [])
            { RaftID := [], Data := none }
          finish t (Payload.metadataSetPtr (some d.1)) d.2
      else if t = metadataDelete then
        match sub with
        | none => Decoded.panic
        | some raw =>
          let d := jsonUnmarshal decodeString (raw.getD []) []
          finish t (Payload.stringPtr (some d.1)) d.2
      else if t = connect ∨ t = disconnect then
        match sub with
        | none => Decoded.panic
        | some raw =>
          let d := jsonUnmarshal (decodeStruct "connectionSub" connectionSub.setField) (raw.getD [])
            { ConnID := 0, IdleTimeout := 0, TxTimeout := 0 }
          finish t (Payload.connectionPtr (some d.1)) d.2
      else Decoded.error Err.unknownType { c2 with Typ := t }) := by
  split_ifs <;> cases sub <;> first | trivial | exact sameOutcome_finish _ _ _

theorem sameOutcome_no_typ (c1 c2 : command) (b : Str) (pu : partialUnmarshal)
    (hE : unmarshalEnvelope b { Typ := none, Sub := none } = (some pu, none))
    (hpt : pu.Typ = none) :
    sameOutcome (command.UnmarshalJSON c1 b) (command.UnmarshalJSON c2 b) := by
  simp only [command.UnmarshalJSON, hE, hpt]
  exact sameOutcome_switch c1 c2 execute pu.Sub

theorem sameOutcome_after_typ (c1 c2 : command) (b : Str) (pu : partialUnmarshal)
    (x : rawMessage) (t : commandType)
    (hE : unmarshalEnvelope b { Typ := none, Sub := none } = (some pu, none))
    (hpt : pu.Typ = some x)
    (h1 : jsonUnmarshal decodeInt (x.getD []) c1.Typ = (t, none))
    (h2 : jsonUnmarshal decodeInt (x.getD []) c2.Typ = (t, none)) :
    sameOutcome (command.UnmarshalJSON c1 b) (command.UnmarshalJSON c2 b) := by
  simp only [command.UnmarshalJSON, hE, hpt, h1, h2]
  exact sameOutcome_switch c1 c2 t pu.Sub

theorem sameOutcome_typ_error (c1 c2 : command) (b : Str) (pu : partialUnmarshal)
    (x : rawMessage) (t1 t2 : commandType) (e : Err)
    (hE : unmarshalEnvelope b { Typ := none, Sub := none } = (some pu, none))
    (hpt : pu.Typ = some x)
    (h1 : jsonUnmarshal decodeInt (x.getD []) c1.Typ = (t1, some e))
    (h2 : jsonUnmarshal decodeInt (x.getD []) c2.Typ = (t2, some e)) :
    sameOutcome (command.UnmarshalJSON c1 b) (command.UnmarshalJSON c2 b) := by
  simp only [command.UnmarshalJSON, hE, hpt, h1, h2]
  simp [sameOutcome]

theorem UnmarshalJSON_independent (b : Str) (r1 r2 : command) :
    sameOutcome (command.UnmarshalJSON r1 b) (command.UnmarshalJSON r2 b) := by
  cases hs : scanTop b with
  | none => simp [command.UnmarshalJSON, unmarshalEnvelope, hs, sameOutcome]
  | some top =>
    cases top with
    | null => simp [command.UnmarshalJSON, unmarshalEnvelope, hs, sameOutcome]
    | other k => simp [command.UnmarshalJSON, unmarshalEnvelope, hs, sameOutcome]
    | object ms =>
      obtain ⟨pu, hE, hT, _⟩ := unmarshalEnvelope_object b ms hs
      cases hpt : pu.Typ with
      | none =>
        exact sameOutcome_no_typ r1 r2 b pu hE hpt
      | some x =>
        have hraw : fieldRaw "typ".toList ms = some (x.getD []) := by
          rw [← hT, hpt]; rfl
        obtain ⟨⟨k, hmem⟩, hn⟩ := fieldRaw_mem _ _ _ hraw
        have htight := scanTop_tight b ms hs (k, x.getD []) hmem
        have hnn := parseDoc_not_null _ htight hn
        cases hp : parseDoc (x.getD []) with
        | none =>
          exact sameOutcome_typ_error r1 r2 b pu x r1.Typ r2.Typ Err.malformed hE hpt
            (by simp [jsonUnmarshal, hp]) (by simp [jsonUnmarshal, hp])
        | some j =>
          have hj : j ≠ Json.null := by
            rintro rfl
            exact hnn hp
          rcases decodeInt_independent j hj r1.Typ r2.Typ with ⟨n, h1, h2⟩ | ⟨e, h1, h2⟩
          · exact sameOutcome_after_typ r1 r2 b pu x n hE hpt
              (by simp [jsonUnmarshal, hp, h1]) (by simp [jsonUnmarshal, hp, h2])
          · exact sameOutcome_typ_error r1 r2 b pu x r1.Typ r2.Typ e hE hpt
              (by simp [jsonUnmarshal, hp, h1]) (by simp [jsonUnmarshal, hp, h2])

/-- C13: for every input and any two receivers the two decodings end
alike (the same command, or the same error, or a panic in both), so that
nothing of a receiver survives a successful decode; but on the input `null`
both decodings panic, where the claim has them return an error or succeed. -/
theorem decode_receiver_independent (b : Str) (r1 r2 : command) :
    sameOutcome (command.UnmarshalJSON r1 b) (command.UnmarshalJSON r2 b) ∧
    command.UnmarshalJSON r1 "null".toList = Decoded.panic ∧
    command.UnmarshalJSON r2 "null".toList = Decoded.panic :=
  ⟨UnmarshalJSON_independent b r1 r2, rfl, rfl⟩

/-! ### Raw messages on memory, and the claim of the verbatim capture -/

theorem getD_set_same (h : Heap) (a : Nat) (x : Str) (ha : a < h.length) :
    (h.set a x).getD a [] = x := by
  simp [List.getD_eq_getElem?_getD, List.getElem?_set, ha]

theorem getD_set_other (h : Heap) (a i : Nat) (x : Str) (hne : a ≠ i) :
    (h.set a x).getD i [] = h.getD i [] := by
  simp [List.getD_eq_getElem?_getD, List.getElem?_set, hne]

theorem getD_append_old (h : Heap) (x : Str) (i : Nat) (hi : i < h.length) :
    (h ++ [x]).getD i [] = h.getD i [] := by
  simp [List.getD_eq_getElem?_getD, List.getElem?_append_left hi]

theorem getD_append_new (h : Heap) (x : Str) : (h ++ [x]).getD h.length [] = x := by
  simp [List.getD_eq_getElem?_getD]

theorem window_patch (A b : Str) (off : Nat) (h : off + b.length ≤ A.length) :
    ((A.take off ++ b ++ A.drop (off + b.length)).drop off).take b.length = b := by
  have h1 : (A.take off).length = off := by simp; omega
  rw [List.append_assoc, List.drop_append_of_le_length (by omega)]
  rw [List.drop_of_length_le (by omega), List.nil_append]
  simp

theorem window_before (A b : Str) (off o n : Nat) (h : off + b.length ≤ A.length)
    (hb : o + n ≤ off) :
    ((A.take off ++ b ++ A.drop (off + b.length)).drop o).take n = (A.drop o).take n := by
  apply List.ext_getElem?
  intro i
  simp only [List.getElem?_take, List.getElem?_drop]
  split_ifs with hi
  · rw [List.append_assoc, List.getElem?_append_left (by simp; omega)]
    rw [List.getElem?_take]
    simp; omega
  · rfl

theorem window_after (A b : Str) (off o n : Nat) (h : off + b.length ≤ A.length)
    (ha : off + b.length ≤ o) :
    ((A.take off ++ b ++ A.drop (off + b.length)).drop o).take n = (A.drop o).take n := by
  apply List.ext_getElem?
  intro i
  simp only [List.getElem?_take, List.getElem?_drop]
  split_ifs with hi
  · have hl : (A.take off ++ b).length = off + b.length := by simp; omega
    rw [List.getElem?_append_right (by omega), hl, List.getElem?_drop]
    congr 1
    omega
  · rfl

theorem bytes_alloc_new (h : Heap) (b : Str) (spare : Nat) :
    (h.alloc b spare).1.bytes (h.alloc b spare).2 = b := by
  simp [Heap.alloc, Heap.bytes, getD_append_new]

theorem bytes_alloc_old (h : Heap) (b : Str) (spare : Nat) (s : ByteSlice) (hs : h.holds s) :
    (h.alloc b spare).1.bytes s = h.bytes s := by
  cases s with
  | none => rfl
  | some y =>
    simp only [Heap.holds] at hs
    simp only [Heap.alloc, Heap.bytes, getD_append_old h _ y.arr hs.1]

theorem bytes_store_same (h : Heap) (x : SliceHeader) (b : Str) (hx : h.holds (some x))
    (hb : b.length ≤ x.cap) :
    (h.store x.arr x.off b).bytes (some { x with len := b.length }) = b := by
  simp only [Heap.holds] at hx
  simp only [Heap.store, Heap.bytes, getD_set_same h x.arr _ hx.1]
  exact window_patch _ b x.off (by omega)

theorem bytes_store_separate (h : Heap) (x : SliceHeader) (b : Str) (s : ByteSlice)
    (hx : h.holds (some x)) (hb : b.length ≤ x.cap) (hsep : separate (some x) s) :
    (h.store x.arr x.off b).bytes s = h.bytes s := by
  cases s with
  | none => rfl
  | some y =>
    simp only [Heap.holds] at hx
    simp only [separate] at hsep
    simp only [Heap.store, Heap.bytes]
    by_cases ha : x.arr = y.arr
    · rw [← ha, getD_set_same h x.arr _ hx.1]
      rcases hsep with h1 | h2 | h3
      · exact absurd ha h1
      · exact window_before _ b x.off y.off y.len (by omega) h2
      · exact window_after _ b x.off y.off y.len (by omega) (by omega)
    · rw [getD_set_other h x.arr y.arr _ ha]

theorem appendReset_bytes (h : Heap) (m data : ByteSlice) (spare : Nat) (hm : h.holds m) :
    (h.appendReset m data spare).1.bytes (h.appendReset m data spare).2 = h.bytes data := by
  cases m with
  | none =>
    simp only [Heap.appendReset]
    split_ifs with he
    · rw [he]; rfl
    · exact bytes_alloc_new h _ spare
  | some x =>
    simp only [Heap.appendReset]
    split_ifs with hc
    · exact bytes_store_same h x _ hm hc
    · exact bytes_alloc_new h _ spare

theorem appendReset_data (h : Heap) (m data : ByteSlice) (spare : Nat) (hm : h.holds m)
    (hd : h.holds data) (hsep : separate m data) :
    (h.appendReset m data spare).1.bytes data = h.bytes data := by
  cases m with
  | none =>
    simp only [Heap.appendReset]
    split_ifs with he
    · rfl
    · exact bytes_alloc_old h _ spare data hd
  | some x =>
    simp only [Heap.appendReset]
    split_ifs with hc
    · exact bytes_store_separate h x _ data hm hc hsep
    · exact bytes_alloc_old h _ spare data hd

theorem appendReset_view (h : Heap) (m data : ByteSlice) (spare : Nat) (hm : h.holds m) :
    (h.appendReset m data spare).1.view (h.appendReset m data spare).2
      = appendReset (h.view m) (h.bytes data) := by
  have hb := appendReset_bytes h m data spare hm
  cases m with
  | none =>
    simp only [Heap.appendReset, Heap.view, appendReset, Option.map_none'] at hb ⊢
    split_ifs with he
    · rfl
    · rw [if_neg he] at hb
      simp only [Heap.alloc, Option.map_some'] at hb ⊢
      rw [hb]
  | some x =>
    simp only [Heap.appendReset, Heap.view, appendReset, Option.map_some'] at hb ⊢
    split_ifs with hc
    · rw [if_pos hc] at hb
      simp only [Option.map_some'] at hb ⊢
      rw [hb]
    · rw [if_neg hc] at hb
      simp only [Heap.alloc, Option.map_some'] at hb ⊢
      rw [hb]

theorem onHeap_view (h : Heap) (m : Option ByteSlice) (data : ByteSlice) (spare : Nat)
    (hm : ∀ r, m = some r → h.holds r) :
    ((rawMessage.UnmarshalJSON.onHeap h m data spare).2.1.map
        (rawMessage.UnmarshalJSON.onHeap h m data spare).1.view,
      (rawMessage.UnmarshalJSON.onHeap h m data spare).2.2)
      = rawMessage.UnmarshalJSON (m.map h.view) (h.bytes data) := by
  cases m with
  | none => rfl
  | some r =>
    simp only [rawMessage.UnmarshalJSON.onHeap, rawMessage.UnmarshalJSON, Option.map_some',
      appendReset_view h r data spare (hm r rfl)]

/-- C16 (as amended): `rawMessage.UnmarshalJSON(data)` returns an error
exactly when the receiver pointer is nil; otherwise it returns no error
and afterwards the receiver shows the bytes that `data` showed at the call,
whatever the receiver held before and whether or not its buffer had room;
and `data` still shows the same bytes when it shares no byte with the
receiver's buffer. -/
theorem rawMessage_capture (h : Heap) (m : Option ByteSlice) (data : ByteSlice) (spare : Nat)
    (hm : ∀ r, m = some r → h.holds r) (hd : h.holds data) :
    ((rawMessage.UnmarshalJSON.onHeap h m data spare).2.2 ≠ none ↔ m = none) ∧
    (∀ r, m = some r →
      ∃ r1, (rawMessage.UnmarshalJSON.onHeap h m data spare).2.1 = some r1 ∧
        (rawMessage.UnmarshalJSON.onHeap h m data spare).2.2 = none ∧
        (rawMessage.UnmarshalJSON.onHeap h m data spare).1.bytes r1 = h.bytes data ∧
        (separate r data →
          (rawMessage.UnmarshalJSON.onHeap h m data spare).1.bytes data = h.bytes data)) := by
  cases m with
  | none =>
    refine ⟨⟨fun _ => rfl, fun _ => ?_⟩, fun r hr => by cases hr⟩
    simp [rawMessage.UnmarshalJSON.onHeap]
  | some r =>
    refine ⟨⟨fun hne => absurd rfl hne, fun hr => by cases hr⟩, fun r0 hr => ?_⟩
    cases hr
    exact ⟨_, rfl, rfl, appendReset_bytes h r data spare (hm r rfl),
      fun hsep => appendReset_data h r data spare (hm r rfl) hd hsep⟩

/-- C16, an instance of the amended claim on the memory `abc`, `xy`: the
receiver is `abc` and takes in `xy` from the other backing array, in place;
afterwards it shows `xy` and so does `data`. -/
theorem rawMessage_capture_witness :
    Heap.holds ["abc".toList, "xy".toList] (some ⟨0, 0, 3, 3⟩) ∧
    Heap.holds ["abc".toList, "xy".toList] (some ⟨1, 0, 2, 2⟩) ∧
    separate (some ⟨0, 0, 3, 3⟩) (some ⟨1, 0, 2, 2⟩) ∧
    (rawMessage.UnmarshalJSON.onHeap ["abc".toList, "xy".toList] (some (some ⟨0, 0, 3, 3⟩))
      (some ⟨1, 0, 2, 2⟩) 0).1 = ["xyc".toList, "xy".toList] ∧
    ∃ r1, (rawMessage.UnmarshalJSON.onHeap ["abc".toList, "xy".toList]
        (some (some ⟨0, 0, 3, 3⟩)) (some ⟨1, 0, 2, 2⟩) 0).2.1 = some r1 ∧
      (rawMessage.UnmarshalJSON.onHeap ["abc".toList, "xy".toList]
        (some (some ⟨0, 0, 3, 3⟩)) (some ⟨1, 0, 2, 2⟩) 0).2.2 = none ∧
      (rawMessage.UnmarshalJSON.onHeap ["abc".toList, "xy".toList]
        (some (some ⟨0, 0, 3, 3⟩)) (some ⟨1, 0, 2, 2⟩) 0).1.bytes r1
        = Heap.bytes ["abc".toList, "xy".toList] (some ⟨1, 0, 2, 2⟩) ∧
      (separate (some ⟨0, 0, 3, 3⟩) (some ⟨1, 0, 2, 2⟩) →
        (rawMessage.UnmarshalJSON.onHeap ["abc".toList, "xy".toList]
          (some (some ⟨0, 0, 3, 3⟩)) (some ⟨1, 0, 2, 2⟩) 0).1.bytes (some ⟨1, 0, 2, 2⟩)
          = Heap.bytes ["abc".toList, "xy".toList] (some ⟨1, 0, 2, 2⟩)) :=
  ⟨by decide, by decide, by decide, rfl,
    (rawMessage_capture ["abc".toList, "xy".toList] (some (some ⟨0, 0, 3, 3⟩))
      (some ⟨1, 0, 2, 2⟩) 0 (by intro r hr; cases hr; decide) (by decide)).2 _ rfl⟩

/-- C16 fails as stated: on the memory `abc`, with the receiver the whole
of it and `data` its last two bytes `bc`, the call returns no error, the
receiver then shows `bc`, and `data` shows `cc`: it was modified. -/
theorem rawMessage_capture_overlap :
    rawMessage.UnmarshalJSON.onHeap ["abc".toList] (some (some ⟨0, 0, 3, 3⟩))
        (some ⟨0, 1, 2, 2⟩) 0
      = (["bcc".toList], some (some ⟨0, 0, 2, 3⟩), none) ∧
    Heap.bytes ["abc".toList] (some ⟨0, 1, 2, 2⟩) = "bc".toList ∧
    Heap.bytes ["bcc".toList] (some ⟨0, 0, 2, 3⟩) = "bc".toList ∧
    Heap.bytes ["bcc".toList] (some ⟨0, 1, 2, 2⟩) = "cc".toList :=
  ⟨rfl, rfl, rfl, rfl⟩

/-! ### Claim: worked example -/

/-- C10: encoding the command built by `newMetadataSetCommand("node1", {"k":"v"})`
gives exactly the bytes `{"typ":2,"sub":{"raft_id":"node1","data":{"k":"v"}}}`,
and decoding these bytes into any receiver gives the tag `metadataSet` with the
payload `metadataSetSub{RaftID:"node1", Data:{"k":"v"}}`. -/
theorem worked_example_metadataSet :
    command.MarshalJSON (newMetadataSetCommand "node1".toList (some [("k".toList, "v".toList)])).1
      = Encoded.bytes "\x7b\"typ\":2,\"sub\":\x7b\"raft_id\":\"node1\",\"data\":\x7b\"k\":\"v\"\x7d\x7d\x7d".toList
    ∧ ∀ c : command,
      command.UnmarshalJSON c "\x7b\"typ\":2,\"sub\":\x7b\"raft_id\":\"node1\",\"data\":\x7b\"k\":\"v\"\x7d\x7d\x7d".toList
        = Decoded.done ⟨metadataSet,
            Payload.metadataSetPtr (some ⟨"node1".toList, some [("k".toList, "v".toList)]⟩)⟩ :=
  ⟨rfl, fun _ => rfl⟩

end Store
